import Mathlib

/-!
# Operator layer of the `cnn` autodiff engine (`cnn/backends/eigen/edges.cc`)

A shallow embedding of the forward/backward functions of the edges defined in
`edges.cc`, and theorems about them.

Conventions of the embedding.

* `real` is modelled by an arbitrary linearly ordered commutative ring `R`
  (exact arithmetic), a linearly ordered field where the source divides; concrete
  evaluations are carried out over `ℤ` and `ℚ`.
* Library functions and values (`expf`, `logf`, `exp`, `log`, `log1p`, the infinity of
  `numeric_limits`, the `Elewise` kernels) are parameters of the edges that use them.
  A division by zero, which gives an infinity or a NaN in the source, is modelled as a
  failure of the call where the quotient is used.
* The unimplemented functions return into `Except Failure`, which records how a call
  ended.
* `Tensor` (a dense Eigen matrix) is a shape together with its coefficients.
  Every Eigen operation that carries a bounds or shape assertion is modelled as
  a function into `Option`: `none` stands for a failed assertion / abort.
* `assert(...)` of the source is `check`; `vector::operator[]` and
  `vector::front` are `xs[i]?` and `xs.head?`.
* `unsigned` / `int` counters are modelled by `Nat` / `Int` without wrap-around.
* Mutable members of an edge that are written by `forward` and read by
  `backward` (`ind`, `u`, `src_row_indices`) are passed in and returned
  explicitly.
* Storage that the source leaves uninitialised (`Tensor fx(rows, 1);`) is filled
  from an arbitrary function `junk`, over which every theorem quantifies.
-/

namespace cnn

/-! ## The dense tensor primitive -/

/-- Dense matrix of reals: a shape and one coefficient per in-range position. -/
structure Tensor (R : Type) where
  rows : Nat
  cols : Nat
  coeff : Fin rows → Fin cols → R

namespace Tensor

variable {R : Type}

/-- The `r × c` tensor whose coefficient at `(i, j)` is `f i j`. -/
def ofFn (r c : Nat) (f : Nat → Nat → R) : Tensor R :=
  ⟨r, c, fun i j => f i.val j.val⟩

/-- Coefficient at `(i, j)`, with `0` outside the shape (used in statements). -/
def get [Zero R] (t : Tensor R) (i j : Nat) : R :=
  if h : i < t.rows then
    if h2 : j < t.cols then t.coeff ⟨i, h⟩ ⟨j, h2⟩ else 0
  else 0

/-- Checked coefficient read `t(i, j)`. -/
def get? (t : Tensor R) (i j : Nat) : Option R :=
  if h : i < t.rows then
    if h2 : j < t.cols then some (t.coeff ⟨i, h⟩ ⟨j, h2⟩) else none
  else none

/-- Checked coefficient write `t(i, j) = v`. -/
def set? [Zero R] (t : Tensor R) (i j : Nat) (v : R) : Option (Tensor R) :=
  if i < t.rows ∧ j < t.cols then
    some (ofFn t.rows t.cols (fun a b => if a = i ∧ b = j then v else t.get a b))
  else none

/-- The tensor `Zero(Dim(r, c))`. -/
def zero [Zero R] (r c : Nat) : Tensor R := ofFn r c (fun _ _ => 0)

/-- A freshly constructed `Tensor(r, c)`: its storage is not initialised. -/
def uninit (r c : Nat) (junk : Nat → Nat → R) : Tensor R := ofFn r c junk

/-- Checked column view `t.col(j)` read as an `r × 1` tensor. -/
def col? [Zero R] (t : Tensor R) (j : Nat) : Option (Tensor R) :=
  if j < t.cols then some (ofFn t.rows 1 (fun a _ => t.get a j)) else none

/-- Checked column assignment `t.col(j) = v`. -/
def setCol? [Zero R] (t : Tensor R) (j : Nat) (v : Tensor R) : Option (Tensor R) :=
  if j < t.cols ∧ v.rows = t.rows ∧ v.cols = 1 then
    some (ofFn t.rows t.cols (fun a b => if b = j then v.get a 0 else t.get a b))
  else none

/-- Checked column update `t.col(j) += v`. -/
def addCol? [Zero R] [Add R] (t : Tensor R) (j : Nat) (v : Tensor R) : Option (Tensor R) :=
  if j < t.cols ∧ v.rows = t.rows ∧ v.cols = 1 then
    some (ofFn t.rows t.cols (fun a b => if b = j then t.get a b + v.get a 0 else t.get a b))
  else none

/-- The transpose `t.transpose()`. -/
def transpose [Zero R] (t : Tensor R) : Tensor R :=
  ofFn t.cols t.rows (fun a b => t.get b a)

/-- Checked matrix product `a * b`. -/
def mul? [Semiring R] (a b : Tensor R) : Option (Tensor R) :=
  if a.cols = b.rows then
    some (ofFn a.rows b.cols
      (fun i j => Finset.sum (Finset.range a.cols) (fun l => a.get i l * b.get l j)))
  else none

/-- Sum of the elementwise products of two tensors, over the shape of the first. -/
def inner [Semiring R] (a b : Tensor R) : R :=
  Finset.sum (Finset.range a.rows) (fun i =>
    Finset.sum (Finset.range a.cols) (fun j => a.get i j * b.get i j))

/-- The tensor with the given rows (all rows as long as the first one). -/
def ofRows [Zero R] (l : List (List R)) : Tensor R :=
  ofFn l.length (l.headD []).length (fun i j => (l.getD i []).getD j 0)

/-- The column vector with the given entries. -/
def colVec [Zero R] (l : List R) : Tensor R :=
  ofFn l.length 1 (fun i _ => l.getD i 0)

/-- The rows of a tensor, as lists. -/
def toRows [Zero R] (t : Tensor R) : List (List R) :=
  (List.range t.rows).map (fun i => (List.range t.cols).map (fun j => t.get i j))

/-- Checked elementwise product `a.cwiseProduct(b)` (also `a.array() * b.array()`). -/
def cwiseProduct? [Zero R] [Mul R] (a b : Tensor R) : Option (Tensor R) :=
  if a.rows = b.rows ∧ a.cols = b.cols then
    some (ofFn a.rows a.cols (fun i j => a.get i j * b.get i j))
  else none

/-- Checked elementwise sum `a + b` (also `a += b`). -/
def add? [Zero R] [Add R] (a b : Tensor R) : Option (Tensor R) :=
  if a.rows = b.rows ∧ a.cols = b.cols then
    some (ofFn a.rows a.cols (fun i j => a.get i j + b.get i j))
  else none

/-- Checked elementwise difference `a - b`. -/
def sub? [Zero R] [Sub R] (a b : Tensor R) : Option (Tensor R) :=
  if a.rows = b.rows ∧ a.cols = b.cols then
    some (ofFn a.rows a.cols (fun i j => a.get i j - b.get i j))
  else none

/-- Checked elementwise quotient `a.array() / b.array()`; a zero divisor (which gives
an infinity or a NaN in the source) is modelled as a failure. -/
def cwiseQuotient? [Zero R] [Div R] [DecidableEq R] (a b : Tensor R) : Option (Tensor R) :=
  if a.rows = b.rows ∧ a.cols = b.cols ∧
      (∀ i, i < b.rows → ∀ j, j < b.cols → b.get i j ≠ 0) then
    some (ofFn a.rows a.cols (fun i j => a.get i j / b.get i j))
  else none

/-- The negation `-t`. -/
def neg [Zero R] [Neg R] (t : Tensor R) : Tensor R :=
  ofFn t.rows t.cols (fun i j => -t.get i j)

/-- The product `c * t` (also `t * c`) of a tensor with a scalar. -/
def smul [Zero R] [Mul R] (c : R) (t : Tensor R) : Tensor R :=
  ofFn t.rows t.cols (fun i j => c * t.get i j)

/-- The reduction `t.squaredNorm()`: the sum of the squares of the coefficients. -/
def squaredNorm [Semiring R] (t : Tensor R) : R :=
  Finset.sum (Finset.range t.rows) (fun i =>
    Finset.sum (Finset.range t.cols) (fun j => t.get i j * t.get i j))

/-- Checked block view `t.block(i, j, p, q)` read as a `p × q` tensor. -/
def block? [Zero R] (t : Tensor R) (i j p q : Nat) : Option (Tensor R) :=
  if i + p ≤ t.rows ∧ j + q ≤ t.cols then
    some (ofFn p q (fun a b => t.get (i + a) (j + b)))
  else none

/-- Checked block assignment `t.block(i, j, p, q) = v`. -/
def setBlock? [Zero R] (t : Tensor R) (i j p q : Nat) (v : Tensor R) : Option (Tensor R) :=
  if i + p ≤ t.rows ∧ j + q ≤ t.cols ∧ v.rows = p ∧ v.cols = q then
    some (ofFn t.rows t.cols (fun a b =>
      if i ≤ a ∧ a < i + p ∧ j ≤ b ∧ b < j + q then v.get (a - i) (b - j) else t.get a b))
  else none

/-- The call `t.resize(r, c)` on a dynamically sized matrix: when the element count
is unchanged the column-major buffer is kept and read under the new shape, otherwise
the storage is reallocated and left uninitialised. It has no size assertion. -/
def resize [Zero R] (t : Tensor R) (r c : Nat) (junk : Nat → Nat → R) : Tensor R :=
  if r * c = t.rows * t.cols then
    ofFn r c (fun i j => t.get ((i + j * r) % t.rows) ((i + j * r) / t.rows))
  else ofFn r c junk

/-- Elementwise sum of two tensors over the shape of the first (used in statements). -/
def add [Zero R] [Add R] (a b : Tensor R) : Tensor R :=
  ofFn a.rows a.cols (fun i j => a.get i j + b.get i j)

end Tensor

/-- The ways a call can end without returning a value, where a claim tells them
apart: a failed `assert` on the arguments, a failed index check of a coefficient
access, and the stop of an unimplemented function (`assert(!"not implemented")`, or
the message "not implemented" followed by `abort()`). -/
inductive Failure where
  | assertion
  | indexCheck
  | notImplemented
  deriving DecidableEq

/-- The source's `assert(p)`. -/
def check (p : Prop) [Decidable p] : Option Unit := if p then some () else none

/-- The loop `for (k = lo; k < lo + n; ++k) s = body(k, s)`, stopping at a failure. -/
def forLoop {σ : Type} (body : Nat → σ → Option σ) : Nat → Nat → σ → Option σ
  | _, 0, s => some s
  | lo, n + 1, s => (body lo s).bind (forLoop body (lo + 1) n)

/-- The range-for `for (auto x : xs) s = body(x, s)`, stopping at a failure. -/
def forEach {α σ : Type} (body : α → σ → Option σ) : List α → σ → Option σ
  | [], s => some s
  | x :: xs, s => (body x s).bind (forEach body xs)

/-- The call `v.resize(n)` on a `vector<unsigned>`. -/
def resize (v : List Nat) (n : Nat) : List Nat :=
  v.take n ++ List.replicate (n - v.length) 0

/-- Modelled from the spec: the shape descriptor `Dim` (its declaration is not in
`edges.cc`): an ordered tuple of axis sizes. -/
structure Dim where
  d : List Nat

/-- Modelled from the spec: `Dim::size()`, the total element count, the product of the
axis sizes. -/
def Dim.size (dim : Dim) : Nat := dim.d.prod

/-- Modelled from the spec: `Dim::size(i)`, the size of axis `i` (0 for an axis the
shape does not have). -/
def Dim.axis (dim : Dim) (i : Nat) : Nat := dim.d.getD i 0

/-- The division `a / b` of two reals; a zero divisor (which gives an infinity or a
NaN in the source) is modelled as a failure. -/
def divide {R : Type} [Zero R] [Div R] [DecidableEq R] (a b : R) : Option R :=
  if b = 0 then none else some (a / b)

/-! ## The edges -/

section Edges

variable {R : Type} [LinearOrderedCommRing R]

/-- Source: `SumColumns::backward`. -/
def SumColumns.backward (xs : List (Tensor R)) (_fx dEdf : Tensor R) (_i : Nat) :
    Option (Tensor R) := do
  let dEdx ← xs.head?
  let c := dEdf.cols
  forLoop (fun j dEdx => dEdx.setCol? j dEdf) 0 c dEdx

/-- Source: `MatrixMultiply::forward`. -/
def MatrixMultiply.forward (xs : List (Tensor R)) : Option (Tensor R) := do
  check (xs.length = 2)
  let a ← xs[0]?
  let b ← xs[1]?
  a.mul? b

/-- Source: `MatrixMultiply::backward`. -/
def MatrixMultiply.backward (xs : List (Tensor R)) (_fx dEdf : Tensor R) (i : Nat) :
    Option (Tensor R) := do
  check (i < 2)
  if i = 0 then
    let b ← xs[1]?
    dEdf.mul? b.transpose
  else
    let a ← xs[0]?
    a.transpose.mul? dEdf

/-- Inner loop of `MaxPooling1D::forward`: scan rows `lo .. lo + n - 1` of `x`,
keeping the running maximum `best` and its row `bestr`. -/
def MaxPooling1D.scan (x : Tensor R) (lo n : Nat) (best : R) (bestr : Nat) :
    Option (R × Nat) :=
  forLoop (fun r (p : R × Nat) => do
    let v ← x.get? r 0
    if v > p.1 then pure (v, r) else pure p) lo n (best, bestr)

/-- Source: `MaxPooling1D::forward`; the member `ind` is passed in and returned.
The division `x_rows / width` is undefined for `width = 0` and modelled as a failure. -/
def MaxPooling1D.forward (width : Nat) (ind : List Nat) (xs : List (Tensor R)) :
    Option (Tensor R × List Nat) := do
  check (xs.length = 1)
  let x ← xs.head?
  let x_rows := x.rows
  check (x.cols = 1)
  check (width ≠ 0)
  let fx_rows := x_rows / width
  let ind := resize ind fx_rows
  let fx : Tensor R := Tensor.zero fx_rows 1
  forLoop (fun i (s : Tensor R × List Nat) => do
    let lo := i * width
    let hi := lo + width
    let hi := if hi > x_rows then x_rows else hi
    let best ← x.get? lo 0
    let p ← MaxPooling1D.scan x (lo + 1) (hi - (lo + 1)) best lo
    let ind := s.2.set i p.2
    let fx ← s.1.set? i 0 p.1
    pure (fx, ind)) 0 fx_rows (fx, ind)

/-- Source: `MaxPooling1D::backward`; `ind` is the member written by `forward`. -/
def MaxPooling1D.backward (width : Nat) (ind : List Nat) (xs : List (Tensor R))
    (_fx dEdf : Tensor R) (_i : Nat) : Option (Tensor R) := do
  let x ← xs.head?
  let x_rows := x.rows
  let dEdx : Tensor R := Tensor.zero x_rows 1
  check (width ≠ 0)
  let fx_rows := x_rows / width
  check (fx_rows = ind.length)
  check (fx_rows = dEdf.rows)
  forLoop (fun i dEdx => do
    let r ← ind[i]?
    let v ← dEdf.get? i 0
    dEdx.set? r 0 v) 0 fx_rows dEdx

/-- Source: `Hinge::forward`; `pelement` is the value `*pelement`, the member `u`
is passed in and returned next to the result. -/
def Hinge.forward (pelement : Nat) (margin : R) (junk : Nat → Nat → R) (u : Tensor R)
    (xs : List (Tensor R)) : Option (Tensor R × Tensor R) := do
  check (xs.length = 1)
  let x ← xs.head?
  let rows := x.rows
  let u := if u.rows ≠ rows then Tensor.uninit rows 1 junk else u
  let xc ← x.get? pelement 0
  let mlystar := margin - xc
  let s ← forLoop (fun i (s : R × Tensor R) =>
    if pelement ≠ i then do
      let xi ← x.get? i 0
      let t := max 0 (mlystar + xi)
      let u ← s.2.set? i 0 t
      pure (s.1 + t, u)
    else pure s) 0 rows (0, u)
  let res ← (Tensor.uninit 1 1 junk).set? 0 0 s.1
  pure (res, s.2)

/-- Source: `Hinge::backward`; `u` is the member written by `forward`. -/
def Hinge.backward (pelement : Nat) (u : Tensor R) (xs : List (Tensor R))
    (fx dEdf : Tensor R) (i : Nat) : Option (Tensor R) := do
  check (i = 0)
  let x ← xs.head?
  let rows := x.rows
  let dEdx : Tensor R := Tensor.zero rows 1
  let f ← fx.get? 0 0
  if f = 0 then pure dEdx else do
    let diff ← dEdf.get? 0 0
    let s ← forLoop (fun i (s : Tensor R × Nat) =>
      if pelement ≠ i then do
        let ui ← u.get? i 0
        if ui > 0 then do
          let d ← s.1.set? i 0 diff
          pure (d, s.2 + 1)
        else pure s
      else pure s) 0 rows (dEdx, 0)
    s.1.set? pelement 0 (-diff * (s.2 : R))

/-- The procedure of `Hinge::backward` with the line `if (fx(0,0) == 0) return dEdx;`
removed; the rest is kept as in the source. It is the object `Hinge.backward` is
compared with. -/
def Hinge.backwardWithoutShortCircuit (pelement : Nat) (u : Tensor R)
    (xs : List (Tensor R)) (_fx dEdf : Tensor R) (i : Nat) : Option (Tensor R) := do
  check (i = 0)
  let x ← xs.head?
  let rows := x.rows
  let dEdx : Tensor R := Tensor.zero rows 1
  let diff ← dEdf.get? 0 0
  let s ← forLoop (fun i (s : Tensor R × Nat) =>
    if pelement ≠ i then do
      let ui ← u.get? i 0
      if ui > 0 then do
        let d ← s.1.set? i 0 diff
        pure (d, s.2 + 1)
      else pure s
    else pure s) 0 rows (dEdx, 0)
  s.1.set? pelement 0 (-diff * (s.2 : R))

/-- Copy loop of `Concatenate::forward`: rows `0 .. crows - 1` of `cx` are written
to `fx` from row `i` on; returns the advanced `i` and the updated `fx`. -/
def Concatenate.copy (cx : Tensor R) (crows i : Nat) (fx : Tensor R) :
    Option (Nat × Tensor R) :=
  forLoop (fun j (p : Nat × Tensor R) => do
    let v ← cx.get? j 0
    let fx ← p.2.set? p.1 0 v
    pure (p.1 + 1, fx)) 0 crows (i, fx)

/-- Sum of the row counts of the inputs `0 .. k - 1` (used in statements). -/
def Concatenate.offset (xs : List (Tensor R)) (k : Nat) : Nat :=
  ((xs.take k).map Tensor.rows).sum

/-- Source: `Concatenate::forward`; the member `src_row_indices` is passed in and
returned. The loop state is `(i, k, fx, src_row_indices)`. -/
def Concatenate.forward (junk : Nat → Nat → R) (src_row_indices : List Nat)
    (xs : List (Tensor R)) : Option (Tensor R × List Nat) := do
  check (xs.length > 0)
  let rows := xs.foldl (fun acc x => acc + x.rows) 0
  let src := resize src_row_indices xs.length
  let fx := Tensor.uninit rows 1 junk
  let s ← forEach (fun cx (s : Nat × Nat × Tensor R × List Nat) => do
    let src := s.2.2.2.set s.2.1 s.1
    let k := s.2.1 + 1
    check (cx.cols = 1)
    let p ← Concatenate.copy cx cx.rows s.1 s.2.2.1
    pure (p.1, k, p.2, src)) xs (0, 0, fx, src)
  pure (s.2.2.1, s.2.2.2)

/-- Source: `Concatenate::backward`; `src_row_indices` is the member written by
`forward`. -/
def Concatenate.backward (src_row_indices : List Nat) (xs : List (Tensor R))
    (_fx dEdf : Tensor R) (i : Nat) : Option (Tensor R) := do
  check (i < src_row_indices.length)
  let dEdx ← xs[i]?
  let rows := dEdx.rows
  let start ← src_row_indices[i]?
  check (rows + start ≤ dEdf.rows)
  forLoop (fun j dEdx => do
    let v ← dEdf.get? (j + start) 0
    dEdx.set? j 0 v) 0 rows dEdx

/-- Source: `ConcatenateColumns::forward`. The loop state is `(fx, i)`. -/
def ConcatenateColumns.forward (junk : Nat → Nat → R) (xs : List (Tensor R)) :
    Option (Tensor R) := do
  check (xs.length > 0)
  let x0 ← xs.head?
  let rows := x0.rows
  let fx := Tensor.uninit rows xs.length junk
  let s ← forEach (fun x (s : Tensor R × Nat) => do
    check (x.rows = rows)
    let fx ← forLoop (fun j fx => do
      let v ← x.get? j 0
      fx.set? j s.2 v) 0 rows s.1
    pure (fx, s.2 + 1)) xs (fx, 0)
  pure s.1

/-- Source: `ConcatenateColumns::backward`. -/
def ConcatenateColumns.backward (_xs : List (Tensor R)) (fx dEdf : Tensor R) (i : Nat) :
    Option (Tensor R) := do
  check (i < fx.cols)
  dEdf.col? i

/-- Source: `KMHNGram::forward`; `n` is the configured window width. The
quantity `new_cols` is a signed integer. -/
def KMHNGram.forward (n : Nat) (xs : List (Tensor R)) : Option (Tensor R) := do
  check (xs.length = 1)
  let x ← xs.head?
  let new_cols : Int := (x.cols : Int) - (n : Int) + 1
  check (new_cols > 0)
  let new_rows := x.rows
  let res : Tensor R := Tensor.zero new_rows new_cols.toNat
  forLoop (fun j res =>
    forLoop (fun k res => do
      let c ← x.col? (j + k)
      res.addCol? j c) 0 n res) 0 new_cols.toNat res

/-- Source: `KMHNGram::backward`. -/
def KMHNGram.backward (n : Nat) (xs : List (Tensor R)) (_fx dEdf : Tensor R) (_i : Nat) :
    Option (Tensor R) := do
  let x ← xs.head?
  let dEdx : Tensor R := Tensor.zero x.rows x.cols
  let c := dEdf.cols
  forLoop (fun j dEdx =>
    forLoop (fun k dEdx => do
      let g ← dEdf.col? j
      dEdx.addCol? (j + k) g) 0 n dEdx) 0 c dEdx

/-- Source: `Reshape::forward`; `from` and `to` are the configured shapes. -/
def Reshape.forward (src dst : Dim) (junk : Nat → Nat → R) (xs : List (Tensor R)) :
    Option (Tensor R) := do
  check (xs.length = 1)
  let fx ← xs.head?
  check (fx.rows * fx.cols = src.size)
  pure (fx.resize (dst.axis 0) (dst.axis 1) junk)

/-- Source: `logsumexp`; `expf` and `logf` are the library functions. -/
def logsumexp (expf logf : R → R) (x : Tensor R) (denom : List Nat) : Option R := do
  let d0 ← denom[0]?
  let m ← x.get? d0 0
  let m ← forEach (fun i (m : R) => do
    let r ← x.get? i 0
    if r > m then pure r else pure m) denom m
  let z ← forEach (fun i (z : R) => do
    let xi ← x.get? i 0
    pure (z + expf (xi - m))) denom 0
  pure (m + logf z)

/-- Source: `RestrictedLogSoftmax::forward`; `denom` is the configured index list and
`inf` the library value `numeric_limits<real>::infinity()`. -/
def RestrictedLogSoftmax.forward (expf logf : R → R) (inf : R) (junk : Nat → Nat → R)
    (denom : List Nat) (xs : List (Tensor R)) : Option (Tensor R) := do
  check (xs.length = 1)
  check (denom.length > 0)
  let x ← xs.head?
  let rows := x.rows
  check (x.cols = 1)
  let logz ← logsumexp expf logf x denom
  let fx := Tensor.uninit rows 1 junk
  let fx ← forLoop (fun i (fx : Tensor R) => fx.set? i 0 (-inf)) 0 rows fx
  let fx ← forEach (fun i (fx : Tensor R) => do
    let xi ← x.get? i 0
    fx.set? i 0 (xi - logz)) denom fx
  if denom.length = 1 then do
    let d ← denom.head?
    fx.set? d 0 0
  else pure fx

/-- Source: `RestrictedLogSoftmax::backward`; `exp` is the library function. -/
def RestrictedLogSoftmax.backward (exp : R → R) (denom : List Nat) (xs : List (Tensor R))
    (fx dEdf : Tensor R) (i : Nat) : Option (Tensor R) := do
  check (i = 0)
  let x ← xs.head?
  let rows := x.rows
  let dEdx : Tensor R := Tensor.zero rows 1
  let z ← forEach (fun i (z : R) => do
    let g ← dEdf.get? i 0
    pure (z + g)) denom 0
  forEach (fun i (dEdx : Tensor R) => do
    let g ← dEdf.get? i 0
    let f ← fx.get? i 0
    dEdx.set? i 0 (g - exp f * z)) denom dEdx

/-- Source: `SquaredEuclideanDistance::forward`. -/
def SquaredEuclideanDistance.forward (junk : Nat → Nat → R) (xs : List (Tensor R)) :
    Option (Tensor R) := do
  check (xs.length = 2)
  let res := Tensor.uninit 1 1 junk
  let a ← xs[0]?
  let b ← xs[1]?
  let d ← a.sub? b
  res.set? 0 0 d.squaredNorm

/-- Source: `SquaredEuclideanDistance::backward`. -/
def SquaredEuclideanDistance.backward (xs : List (Tensor R)) (_fx dEdf : Tensor R)
    (i : Nat) : Option (Tensor R) := do
  check (i < 2)
  let g ← dEdf.get? 0 0
  let scale := g * 2
  let scale := if i = 1 then -scale else scale
  let a ← xs[0]?
  let b ← xs[1]?
  let d ← a.sub? b
  pure (d.smul scale)

/-- Source: `Identity::backward`. -/
def Identity.backward (_xs : List (Tensor R)) (_fx dEdf : Tensor R) (i : Nat) :
    Option (Tensor R) := do
  check (i = 0)
  pure dEdf

/-- Source: `Negate::backward`. -/
def Negate.backward (_xs : List (Tensor R)) (_fx dEdf : Tensor R) (i : Nat) :
    Option (Tensor R) := do
  check (i = 0)
  pure dEdf.neg

/-- Source: `OneMinusX::backward`. -/
def OneMinusX.backward (_xs : List (Tensor R)) (_fx dEdf : Tensor R) (_i : Nat) :
    Option (Tensor R) :=
  pure dEdf.neg

/-- Source: `Square::backward`. -/
def Square.backward (xs : List (Tensor R)) (_fx dEdf : Tensor R) (i : Nat) :
    Option (Tensor R) := do
  check (i = 0)
  let x ← xs.head?
  let p ← dEdf.cwiseProduct? x
  pure (p.smul 2)

/-- Source: `Exp::backward`. -/
def Exp.backward (_xs : List (Tensor R)) (fx dEdf : Tensor R) (_i : Nat) :
    Option (Tensor R) :=
  dEdf.cwiseProduct? fx

/-- Source: `Tanh::backward`; `TanhBackward` is the kernel `Elewise::TanhBackward`. -/
def Tanh.backward (TanhBackward : Tensor R → Tensor R → Tensor R → Option (Tensor R))
    (xs : List (Tensor R)) (fx dEdf : Tensor R) (i : Nat) : Option (Tensor R) := do
  check (i = 0)
  let x ← xs.head?
  TanhBackward dEdf fx x

/-- Source: `LogisticSigmoid::backward`; `SigmoidBackward` is the kernel
`Elewise::SigmoidBackward`. -/
def LogisticSigmoid.backward
    (SigmoidBackward : Tensor R → Tensor R → Tensor R → Option (Tensor R))
    (xs : List (Tensor R)) (fx dEdf : Tensor R) (i : Nat) : Option (Tensor R) := do
  check (i = 0)
  let x ← xs.head?
  SigmoidBackward dEdf fx x

/-- Source: `Rectify::backward`; `ReluBackward` is the kernel `Elewise::ReluBackward`. -/
def Rectify.backward (ReluBackward : Tensor R → Tensor R → Tensor R → Option (Tensor R))
    (xs : List (Tensor R)) (fx dEdf : Tensor R) (_i : Nat) : Option (Tensor R) := do
  let x ← xs.head?
  ReluBackward dEdf fx x

/-- Source: `PickRange::forward`; `start` and `stop` are the configured bounds
`start` and `end`. -/
def PickRange.forward (start stop : Nat) (xs : List (Tensor R)) : Option (Tensor R) := do
  check (xs.length = 1)
  let x ← xs.head?
  check (x.cols = 1)
  check (start ≥ 0)
  check (stop ≤ x.rows)
  check (start < stop)
  let fx ← x.block? start 0 (stop - start) 1
  check (fx.rows = stop - start)
  pure fx

/-- Source: `PickRange::backward`. The difference `end - start` of the assertion is
taken in the integers, so that no row count equals it when `start > end`; past the
assertion `end - start` is a natural number. -/
def PickRange.backward (start stop : Nat) (xs : List (Tensor R)) (_fx dEdf : Tensor R)
    (i : Nat) : Option (Tensor R) := do
  check (i = 0)
  check ((dEdf.rows : Int) = (stop : Int) - (start : Int))
  check (dEdf.cols = 1)
  let x ← xs.head?
  let dEdx : Tensor R := Tensor.zero x.rows 1
  dEdx.setBlock? start 0 (stop - start) 1 dEdf

/-- Source: `Multilinear::forward`. The loop `for (i = 1; i < xs.size(); i += 2)` runs
`xs.size() / 2` times, its `t`-th iteration with `i = 1 + 2 * t`. -/
def Multilinear.forward (xs : List (Tensor R)) : Option (Tensor R) := do
  check (xs.length % 2 = 1)
  let fx ← xs.head?
  forLoop (fun t (fx : Tensor R) => do
    let i := 1 + 2 * t
    let a ← xs[i]?
    let b ← xs[i + 1]?
    if a.cols = 1 ∧ b.cols = 1 then do
      let p ← a.cwiseProduct? b
      fx.add? p
    else do
      let p ← a.mul? b
      fx.add? p) 0 (xs.length / 2) fx

/-- Source: `Multilinear::backward`. -/
def Multilinear.backward (xs : List (Tensor R)) (_fx dEdf : Tensor R) (i : Nat) :
    Option (Tensor R) := do
  check (i < xs.length)
  if i = 0 then pure dEdf
  else if i % 2 = 1 then do
    let a ← xs[i]?
    let b ← xs[i + 1]?
    if a.cols = 1 then dEdf.cwiseProduct? b
    else dEdf.mul? b.transpose
  else do
    let a ← xs[i - 1]?
    if a.cols = 1 then a.cwiseProduct? dEdf
    else a.transpose.mul? dEdf

end Edges

section FieldEdges

variable {R : Type} [LinearOrderedField R]

/-- Source: `Log::backward`. -/
def Log.backward (xs : List (Tensor R)) (_fx dEdf : Tensor R) (_i : Nat) :
    Option (Tensor R) := do
  let x ← xs[0]?
  dEdf.cwiseQuotient? x

/-- Assertion `assert(p)`, with the kind of failure recorded. -/
def checkE (p : Prop) [Decidable p] : Except Failure Unit :=
  if p then Except.ok () else Except.error Failure.assertion

/-- Checked coefficient read `t(i, j)`, with the kind of failure recorded. -/
def Tensor.getE (t : Tensor R) (i j : Nat) : Except Failure R :=
  match t.get? i j with
  | some v => Except.ok v
  | none => Except.error Failure.indexCheck

/-- Source: `PickNegLogSoftmax::backward`; `pval` is the value `*pval`, `v` the
member written by `forward`. The quotient `r` is never used: a zero divisor gives an
infinity or a NaN and the call goes on; the function ends in the message
"not implemented" and `abort()`. -/
def PickNegLogSoftmax.backward (pval : Nat) (v : Tensor R) (_xs : List (Tensor R))
    (_fx dEdf : Tensor R) (i : Nat) : Except Failure (Tensor R) := do
  checkE (i = 0)
  let a ← dEdf.getE pval 0
  let b ← v.getE pval 0
  let _r : R := a / b
  Except.error Failure.notImplemented

/-- Source: `InnerProduct3D_1D::forward`: the statement `assert(!"not implemented")`
is all there is. -/
def InnerProduct3D_1D.forward (_xs : List (Tensor R)) : Except Failure (Tensor R) :=
  Except.error Failure.notImplemented

/-- Source: `InnerProduct3D_1D::backward`: the statement `assert(!"not implemented")`
is all there is. -/
def InnerProduct3D_1D.backward (_xs : List (Tensor R)) (_fx _dEdf : Tensor R) (_i : Nat) :
    Except Failure (Tensor R) :=
  Except.error Failure.notImplemented

/-- Source: `BinaryLogLoss::forward`; `ptarget_y` is the value `*ptarget_y`, `log`
and `log1p` are the library functions. -/
def BinaryLogLoss.forward (log log1p : R → R) (ptarget_y : R) (xs : List (Tensor R)) :
    Option (Tensor R) := do
  check (xs.length = 1)
  let x ← xs.head?
  check (x.cols = 1)
  check (x.rows = 1)
  let y_pred ← x.get? 0 0
  check (y_pred ≥ 0)
  check (y_pred ≤ 1)
  let ty := ptarget_y
  check (ty ≥ 0)
  check (ty ≤ 1)
  let fx := x
  let res : R := 0
  let res := if ty > 0 then res - ty * log y_pred else res
  let res := if (1 - ty) > 0 then res - (1 - ty) * log1p (-y_pred) else res
  fx.set? 0 0 res

/-- Source: `BinaryLogLoss::backward`. -/
def BinaryLogLoss.backward (ptarget_y : R) (xs : List (Tensor R)) (_fx dEdf : Tensor R)
    (_i : Nat) : Option (Tensor R) := do
  let x ← xs.head?
  let y_pred ← x.get? 0 0
  let ty := ptarget_y
  let scale : R := 0
  let scale ← if ty > 0 then (do
      let q ← divide ty y_pred
      pure (scale - q)) else pure scale
  let scale ← if (1 - ty) ≥ 0 then (do
      let q ← divide (1 - ty) (1 - y_pred)
      pure (scale + q)) else pure scale
  pure (dEdf.smul scale)

end FieldEdges

/-! ## Basic facts about the tensor primitive and the loops -/

namespace Tensor

variable {R : Type}

@[simp] theorem ofFn_rows (r c : Nat) (f : Nat → Nat → R) : (ofFn r c f).rows = r := rfl

@[simp] theorem ofFn_cols (r c : Nat) (f : Nat → Nat → R) : (ofFn r c f).cols = c := rfl

theorem get_ofFn [Zero R] {r c : Nat} (f : Nat → Nat → R) {i j : Nat}
    (hi : i < r) (hj : j < c) : (ofFn r c f).get i j = f i j := by
  simp [get, ofFn, hi, hj]

theorem get?_eq_some [Zero R] (t : Tensor R) {i j : Nat}
    (hi : i < t.rows) (hj : j < t.cols) : t.get? i j = some (t.get i j) := by
  simp [get, get?, hi, hj]

theorem get?_eq_none_of_row (t : Tensor R) {i : Nat} (j : Nat)
    (hi : t.rows ≤ i) : t.get? i j = none := by
  simp [get?, Nat.not_lt.mpr hi]

theorem get?_eq_none_of_col (t : Tensor R) (i : Nat) {j : Nat}
    (hj : t.cols ≤ j) : t.get? i j = none := by
  simp [get?, Nat.not_lt.mpr hj]

/-- Two tensors of the same shape with the same coefficients are equal. -/
theorem eq_of_get [Zero R] {a b : Tensor R} (hr : a.rows = b.rows) (hc : a.cols = b.cols)
    (h : ∀ i j, i < a.rows → j < a.cols → a.get i j = b.get i j) : a = b := by
  obtain ⟨ar, ac, af⟩ := a
  obtain ⟨br, bc, bf⟩ := b
  simp only at hr hc
  subst hr
  subst hc
  congr
  funext i j
  have := h i.val j.val i.isLt j.isLt
  simpa [get] using this

theorem eq_ofFn [Zero R] (t : Tensor R) : t = ofFn t.rows t.cols t.get :=
  eq_of_get rfl rfl (fun i j hi hj => by rw [get_ofFn _ hi hj])

theorem set?_eq_some [Zero R] (t : Tensor R) {i j : Nat} (v : R)
    (hi : i < t.rows) (hj : j < t.cols) :
    t.set? i j v =
      some (ofFn t.rows t.cols (fun a b => if a = i ∧ b = j then v else t.get a b)) := by
  simp [set?, hi, hj]

end Tensor

theorem check_eq_some {p : Prop} [Decidable p] (h : p) : check p = some () := by
  simp [check, h]

theorem check_eq_none {p : Prop} [Decidable p] (h : ¬ p) : check p = none := by
  simp [check, h]

/-- Invariant rule for `forLoop`: an invariant that every iteration re-establishes
holds at the end, and the loop does not fail. -/
theorem forLoop_inv {σ : Type} (P : Nat → σ → Prop) (body : Nat → σ → Option σ) :
    ∀ (n lo : Nat) (s : σ), P lo s →
      (∀ k t, lo ≤ k → k < lo + n → P k t → ∃ t', body k t = some t' ∧ P (k + 1) t') →
      ∃ s', forLoop body lo n s = some s' ∧ P (lo + n) s' := by
  intro n
  induction n with
  | zero => intro lo s h0 _; exact ⟨s, rfl, by simpa using h0⟩
  | succ n ih =>
    intro lo s h0 hstep
    obtain ⟨t, ht, hPt⟩ := hstep lo s (Nat.le_refl _) (by omega) h0
    obtain ⟨s', hs', hP'⟩ := ih (lo + 1) t hPt
      (fun k u hk1 hk2 hu => hstep k u (by omega) (by omega) hu)
    refine ⟨s', ?_, ?_⟩
    · simp [forLoop, ht, hs']
    · have : lo + (n + 1) = lo + 1 + n := by omega
      rw [this]; exact hP'

/-- A `forLoop` one of whose iterations fails from every state fails. -/
theorem forLoop_fail {σ : Type} (body : Nat → σ → Option σ) (k : Nat)
    (hk : ∀ t, body k t = none) :
    ∀ (n lo : Nat) (s : σ), lo ≤ k → k < lo + n → forLoop body lo n s = none := by
  intro n
  induction n with
  | zero => intro lo s h1 h2; omega
  | succ n ih =>
    intro lo s h1 h2
    by_cases hlo : lo = k
    · subst hlo; simp [forLoop, hk]
    · cases hb : body lo s with
      | none => simp [forLoop, hb]
      | some t => simp [forLoop, hb]; exact ih (lo + 1) t (by omega) (by omega)

/-- Invariant rule for `forEach`, indexed by the number of elements consumed. -/
theorem forEach_inv {α σ : Type} (P : Nat → σ → Prop) (body : α → σ → Option σ)
    (xs : List α) :
    ∀ (ys : List α) (m : Nat) (s : σ), m + ys.length = xs.length →
      (∀ k, k < ys.length → xs[m + k]? = ys[k]?) → P m s →
      (∀ k x t, xs[k]? = some x → P k t → ∃ t', body x t = some t' ∧ P (k + 1) t') →
      ∃ s', forEach body ys s = some s' ∧ P xs.length s' := by
  intro ys
  induction ys with
  | nil => intro m s hm _ h0 _; exact ⟨s, rfl, by simpa using hm ▸ h0⟩
  | cons y ys ih =>
    intro m s hm hys h0 hstep
    have hy : xs[m]? = some y := by simpa using hys 0 (by simp)
    obtain ⟨t, ht, hPt⟩ := hstep m y s hy h0
    obtain ⟨s', hs', hP'⟩ := ih (m + 1) t (by simp at hm; omega)
      (fun k hk => by
        have := hys (k + 1) (by simpa using hk)
        simpa [Nat.add_assoc, Nat.add_comm 1 k] using this) hPt hstep
    exact ⟨s', by simp [forEach, ht, hs'], hP'⟩

/-- A `forEach` over a list containing an element on which the body fails from
every state fails. -/
theorem forEach_fail {α σ : Type} (body : α → σ → Option σ) (x : α)
    (hx : ∀ t, body x t = none) :
    ∀ (xs : List α) (s : σ), x ∈ xs → forEach body xs s = none := by
  intro xs
  induction xs with
  | nil => intro s h; simp at h
  | cons y ys ih =>
    intro s h
    cases hb : body y s with
    | none => simp [forEach, hb]
    | some t =>
      rcases List.mem_cons.mp h with h | h
      · subst h; rw [hx] at hb; cases hb
      · simp [forEach, hb]; exact ih t h

/-! ## Hinge -/

section Hinge

variable {R : Type} [LinearOrderedCommRing R]

/-- What `Hinge.forward` computes: the total of the hinge terms, and a cache `u` that
holds each term at its row. -/
theorem Hinge.hinge_forward_spec (x u : Tensor R) (c : Nat) (m : R) (junk : Nat → Nat → R)
    (hc : x.cols = 1) (hcr : c < x.rows) (hu : u.cols = 1 ∨ u.rows = 0) :
    ∃ fx u', Hinge.forward c m junk u [x] = some (fx, u') ∧
      fx.rows = 1 ∧ fx.cols = 1 ∧
      fx.get 0 0 = Finset.sum (Finset.range x.rows)
        (fun i => if i ≠ c then max 0 (m - x.get c 0 + x.get i 0) else 0) ∧
      u'.rows = x.rows ∧ 0 < u'.cols ∧
      ∀ i, i < x.rows → i ≠ c → u'.get i 0 = max 0 (m - x.get c 0 + x.get i 0) := by
  have key := forLoop_inv
    (fun k (s : R × Tensor R) => s.2.rows = x.rows ∧ 0 < s.2.cols ∧
      s.1 = Finset.sum (Finset.range k)
        (fun i => if i ≠ c then max 0 (m - x.get c 0 + x.get i 0) else 0) ∧
      ∀ i, i < k → i ≠ c → s.2.get i 0 = max 0 (m - x.get c 0 + x.get i 0))
    (fun i (s : R × Tensor R) =>
      if c ≠ i then do
        let xi ← x.get? i 0
        let t := max 0 (m - x.get c 0 + xi)
        let u ← s.2.set? i 0 t
        pure (s.1 + t, u)
      else pure s) x.rows 0
    ((0 : R), if u.rows ≠ x.rows then Tensor.uninit x.rows 1 junk else u)
    (by
      refine ⟨?_, ?_, by simp, fun i hi => absurd hi (Nat.not_lt_zero i)⟩
      · by_cases h : u.rows ≠ x.rows
        · simp [h, Tensor.uninit]
        · simp only [h, if_false]; exact not_not.mp h
      · by_cases h : u.rows ≠ x.rows
        · simp [h, Tensor.uninit]
        · simp only [h, if_false]
          have : u.rows = x.rows := not_not.mp h
          rcases hu with hu | hu <;> omega)
    (by
      intro k s _ hk hs
      obtain ⟨s1, s2, s3, s4⟩ := hs
      beta_reduce
      by_cases hck : c ≠ k
      · refine ⟨(s.1 + max 0 (m - x.get c 0 + x.get k 0),
          Tensor.ofFn s.2.rows s.2.cols (fun a b =>
            if a = k ∧ b = 0 then max 0 (m - x.get c 0 + x.get k 0) else s.2.get a b)),
          ?_, s1, s2, ?_, ?_⟩
        · rw [if_pos hck, Tensor.get?_eq_some x (show k < x.rows by omega)
            (show 0 < x.cols by omega)]
          simp only [Option.bind_eq_bind, Option.some_bind, Option.pure_def]
          rw [Tensor.set?_eq_some s.2 _ (show k < s.2.rows by omega) s2]
          simp
        · show s.1 + _ = _
          rw [Finset.sum_range_succ, if_pos (fun h => hck h.symm), s3]
        · intro i hi hic
          show (Tensor.ofFn _ _ _).get i 0 = _
          rw [Tensor.get_ofFn _ (by omega) s2]
          by_cases hik : i = k
          · subst hik; simp
          · simp only [hik, false_and, if_false]
            exact s4 i (by omega) hic
      · have hck' : c = k := not_not.mp hck
        refine ⟨s, by rw [if_neg hck]; rfl, s1, s2, ?_, ?_⟩
        · rw [Finset.sum_range_succ, if_neg (fun h => h hck'.symm), add_zero]
          exact s3
        · intro i hi hic
          exact s4 i (by omega) hic)
  obtain ⟨s, hs, h1, h2, h3, h4⟩ := key
  refine ⟨Tensor.ofFn 1 1 (fun a b => if a = 0 ∧ b = 0 then s.1 else
      (Tensor.uninit 1 1 junk).get a b), s.2, ?_, rfl, rfl, ?_, h1, h2, ?_⟩
  · simp only [Hinge.forward, List.length_singleton, check_eq_some, List.head?_cons,
      Option.bind_eq_bind, Option.some_bind]
    rw [Tensor.get?_eq_some x hcr (by omega)]
    simp only [Option.bind_eq_bind, Option.some_bind] at hs ⊢
    rw [hs]
    simp only [Option.some_bind]
    rw [Tensor.set?_eq_some _ _ (by simp [Tensor.uninit]) (by simp [Tensor.uninit])]
    simp [Tensor.uninit]
  · rw [Tensor.get_ofFn _ (by omega) (by omega)]
    simpa using h3
  · simpa using h4

/-- What `Hinge.backward` computes past its early return, from a cache `u` that holds
`t i` at every row `i` other than `c`. -/
theorem Hinge.hinge_backward_loop_spec (x u fx dEdf : Tensor R) (c : Nat) (t : Nat → R)
    (hcr : c < x.rows) (hur : u.rows = x.rows) (huc : 0 < u.cols)
    (hu : ∀ i, i < x.rows → i ≠ c → u.get i 0 = t i)
    (hfx : 0 < fx.rows ∧ 0 < fx.cols) (hfx0 : fx.get 0 0 ≠ 0)
    (hd : 0 < dEdf.rows ∧ 0 < dEdf.cols) :
    ∃ g, Hinge.backward c u [x] fx dEdf 0 = some g ∧ g.rows = x.rows ∧ g.cols = 1 ∧
      (∀ i, i < x.rows → i ≠ c → 0 < t i → g.get i 0 = dEdf.get 0 0) ∧
      (∀ i, i < x.rows → i ≠ c → ¬ 0 < t i → g.get i 0 = 0) ∧
      g.get c 0 = -dEdf.get 0 0 *
        (((Finset.range x.rows).filter (fun i => i ≠ c ∧ 0 < t i)).card : R) := by
  have key := forLoop_inv
    (fun k (s : Tensor R × Nat) => s.1.rows = x.rows ∧ s.1.cols = 1 ∧
      s.2 = ((Finset.range k).filter (fun i => i ≠ c ∧ 0 < t i)).card ∧
      ∀ i, i < x.rows →
        s.1.get i 0 = if i < k ∧ i ≠ c ∧ 0 < t i then dEdf.get 0 0 else 0)
    (fun i (s : Tensor R × Nat) =>
      if c ≠ i then do
        let ui ← u.get? i 0
        if ui > 0 then do
          let d ← s.1.set? i 0 (dEdf.get 0 0)
          pure (d, s.2 + 1)
        else pure s
      else pure s) x.rows 0 (Tensor.zero x.rows 1, 0)
    (by
      refine ⟨rfl, rfl, by simp, ?_⟩
      intro i hi
      simp [Tensor.zero, Tensor.get_ofFn _ hi (show 0 < 1 by omega)])
    (by
      intro k s _ hk hs
      obtain ⟨s1, s2, s3, s4⟩ := hs
      beta_reduce
      have hfilter : ∀ (b : Prop) [Decidable b], (b ↔ (k ≠ c ∧ 0 < t k)) →
          ((Finset.range (k + 1)).filter (fun i => i ≠ c ∧ 0 < t i)).card
          = ((Finset.range k).filter (fun i => i ≠ c ∧ 0 < t i)).card
            + if b then 1 else 0 := by
        intro b _ hb
        rw [Finset.range_succ, Finset.filter_insert]
        by_cases hkk : k ≠ c ∧ 0 < t k
        · rw [if_pos hkk, if_pos (hb.mpr hkk), Finset.card_insert_of_not_mem (by simp)]
        · rw [if_neg hkk, if_neg (fun h => hkk (hb.mp h)), add_zero]
      by_cases hck : c ≠ k
      · rw [if_pos hck, Tensor.get?_eq_some u (show k < u.rows by omega) huc]
        simp only [Option.bind_eq_bind, Option.some_bind]
        have huk := hu k (by omega) (fun h => hck h.symm)
        by_cases hpos : u.get k 0 > 0
        · rw [if_pos hpos, Tensor.set?_eq_some s.1 _ (show k < s.1.rows by omega)
            (show 0 < s.1.cols by omega)]
          refine ⟨_, rfl, s1, s2, ?_, ?_⟩
          · show s.2 + 1 = _
            rw [hfilter True (by simp; exact ⟨fun h => hck h.symm, by rw [← huk]; exact hpos⟩),
              s3]
            simp
          · intro i hi
            show (Tensor.ofFn _ _ _).get i 0 = _
            rw [Tensor.get_ofFn _ (by omega) (by omega)]
            by_cases hik : i = k
            · subst hik
              have : 0 < t i := by rw [← huk]; exact hpos
              have hic : i ≠ c := fun h => hck h.symm
              simp [this, hic]
            · simp only [hik, false_and, if_false]
              rw [s4 i hi]
              have : (i < k + 1) ↔ (i < k) := by omega
              simp only [this]
        · rw [if_neg hpos]
          refine ⟨s, rfl, s1, s2, ?_, ?_⟩
          · rw [hfilter False (by simp; intro _; rw [← huk]; exact not_lt.mp hpos), s3]
            simp
          · intro i hi
            rw [s4 i hi]
            by_cases hik : i = k
            · subst hik
              have : ¬ 0 < t i := by rw [← huk]; exact hpos
              simp [this]
            · have : (i < k + 1) ↔ (i < k) := by omega
              simp only [this]
      · have hck' : c = k := not_not.mp hck
        rw [if_neg hck]
        refine ⟨s, rfl, s1, s2, ?_, ?_⟩
        · rw [hfilter False (by simp; intro h; exact absurd hck'.symm h), s3]
          simp
        · intro i hi
          rw [s4 i hi]
          by_cases hik : i = k
          · subst hik
            simp [hck'.symm]
          · have : (i < k + 1) ↔ (i < k) := by omega
            simp only [this])
  obtain ⟨s, hs, h1, h2, h3, h4⟩ := key
  simp only [Nat.zero_add] at h1 h2 h3 h4
  have hres : Hinge.backward c u [x] fx dEdf 0 =
      s.1.set? c 0 (-dEdf.get 0 0 * (s.2 : R)) := by
    simp only [Hinge.backward, check_eq_some, List.head?_cons, Option.bind_eq_bind,
      Option.some_bind]
    rw [Tensor.get?_eq_some fx hfx.1 hfx.2]
    simp only [Option.some_bind, if_neg hfx0]
    rw [Tensor.get?_eq_some dEdf hd.1 hd.2]
    simp only [Option.bind_eq_bind, Option.some_bind] at hs ⊢
    rw [hs]
    simp only [Option.some_bind]
  rw [hres, Tensor.set?_eq_some s.1 _ (show c < s.1.rows by omega) (show 0 < s.1.cols by omega)]
  refine ⟨_, rfl, h1, h2, ?_, ?_, ?_⟩
  · intro i hi hic hpos
    rw [Tensor.get_ofFn _ (by omega) (by omega)]
    simp only [hic, false_and, if_false]
    rw [h4 i hi]
    simp [hi, hic, hpos]
  · intro i hi hic hpos
    rw [Tensor.get_ofFn _ (by omega) (by omega)]
    simp only [hic, false_and, if_false]
    rw [h4 i hi]
    simp [hpos]
  · rw [Tensor.get_ofFn _ (by omega) (by omega), h3]
    simp

/-- A sum of hinge terms is zero only if every term is zero. -/
theorem Hinge.terms_zero_of_sum_zero (n c : Nat) (f : Nat → R)
    (h : Finset.sum (Finset.range n) (fun i => if i ≠ c then max 0 (f i) else 0) = 0) :
    ∀ i, i < n → i ≠ c → max 0 (f i) = 0 := by
  intro i hi hic
  have hnn : ∀ j ∈ Finset.range n, 0 ≤ (if j ≠ c then max 0 (f j) else 0) := by
    intro j _
    by_cases hj : j ≠ c
    · rw [if_pos hj]; exact le_max_left _ _
    · rw [if_neg hj]
  have := (Finset.sum_eq_zero_iff_of_nonneg hnn).mp h i (Finset.mem_range.mpr hi)
  rwa [if_pos hic] at this

/-- The early return of `Hinge.backward` on a zero forward total. -/
theorem Hinge.backward_of_zero (x u fx dEdf : Tensor R) (c : Nat)
    (hfx : 0 < fx.rows ∧ 0 < fx.cols) (hfx0 : fx.get 0 0 = 0) :
    Hinge.backward c u [x] fx dEdf 0 = some (Tensor.zero x.rows 1) := by
  simp only [Hinge.backward, check_eq_some, List.head?_cons, Option.bind_eq_bind,
    Option.some_bind]
  rw [Tensor.get?_eq_some fx hfx.1 hfx.2]
  simp only [Option.some_bind, if_pos hfx0, Option.pure_def]

end Hinge

/-! ## Concatenate -/

section Concatenate

variable {R : Type} [LinearOrderedCommRing R]

omit [LinearOrderedCommRing R] in
theorem Concatenate.foldl_rows (xs : List (Tensor R)) (n : Nat) :
    xs.foldl (fun acc x => acc + x.rows) n = n + (xs.map Tensor.rows).sum := by
  induction xs generalizing n with
  | nil => simp
  | cons x xs ih => simp [List.foldl, ih, Nat.add_assoc]

omit [LinearOrderedCommRing R] in
theorem Concatenate.offset_succ (xs : List (Tensor R)) (k : Nat) (x : Tensor R)
    (h : xs[k]? = some x) :
    Concatenate.offset xs (k + 1) = Concatenate.offset xs k + x.rows := by
  simp [Concatenate.offset, List.take_succ, h]

omit [LinearOrderedCommRing R] in
theorem Concatenate.offset_le_total (xs : List (Tensor R)) (k : Nat) :
    Concatenate.offset xs k ≤ (xs.map Tensor.rows).sum := by
  have h : (xs.map Tensor.rows).sum
      = ((xs.take k).map Tensor.rows).sum + ((xs.drop k).map Tensor.rows).sum := by
    rw [← List.sum_append, ← List.map_append, List.take_append_drop]
  unfold Concatenate.offset
  omega

omit [LinearOrderedCommRing R] in
theorem Concatenate.offset_mono (xs : List (Tensor R)) {j k : Nat} (h : j ≤ k) :
    Concatenate.offset xs j ≤ Concatenate.offset xs k := by
  have e : xs.take j = (xs.take k).take j := by
    rw [List.take_take, Nat.min_eq_left h]
  have := Concatenate.offset_le_total (xs.take k) j
  unfold Concatenate.offset at this ⊢
  rw [e]
  exact this

/-- The copy loop of `Concatenate.forward` writes the rows of `cx` to rows
`i .. i + cx.rows - 1` of `fx` and leaves the other rows alone. -/
theorem Concatenate.copy_spec (cx fx : Tensor R) (i : Nat) (hcx : 0 < cx.cols)
    (hfit : i + cx.rows ≤ fx.rows) (hfx : 0 < fx.cols) :
    ∃ fx', Concatenate.copy cx cx.rows i fx = some (i + cx.rows, fx') ∧
      fx'.rows = fx.rows ∧ fx'.cols = fx.cols ∧
      ∀ a, a < fx.rows →
        fx'.get a 0 = if i ≤ a ∧ a < i + cx.rows then cx.get (a - i) 0 else fx.get a 0 := by
  have key := forLoop_inv
    (fun j (p : Nat × Tensor R) => p.1 = i + j ∧ p.2.rows = fx.rows ∧ p.2.cols = fx.cols ∧
      ∀ a, a < fx.rows →
        p.2.get a 0 = if i ≤ a ∧ a < i + j then cx.get (a - i) 0 else fx.get a 0)
    (fun j (p : Nat × Tensor R) => do
      let v ← cx.get? j 0
      let fx ← p.2.set? p.1 0 v
      pure (p.1 + 1, fx)) cx.rows 0 (i, fx)
    (by
      refine ⟨rfl, rfl, rfl, ?_⟩
      intro a _
      rw [if_neg (by omega)])
    (by
      intro j p _ hj hp
      obtain ⟨p1, p2, p3, p4⟩ := hp
      beta_reduce
      rw [Tensor.get?_eq_some cx (show j < cx.rows by omega) hcx]
      simp only [Option.bind_eq_bind, Option.some_bind]
      rw [Tensor.set?_eq_some p.2 _ (show p.1 < p.2.rows by omega) (show 0 < p.2.cols by omega)]
      refine ⟨_, rfl, by show p.1 + 1 = _; omega, p2, p3, ?_⟩
      intro a ha
      show (Tensor.ofFn _ _ _).get a 0 = _
      rw [Tensor.get_ofFn _ (by omega) (by omega)]
      by_cases hap : a = p.1
      · have e : a - i = j := by omega
        rw [if_pos ⟨hap, rfl⟩, if_pos (by omega), e]
      · rw [if_neg (fun h => hap h.1), p4 a ha]
        by_cases hin : i ≤ a ∧ a < i + j
        · rw [if_pos hin, if_pos (by omega)]
        · rw [if_neg hin, if_neg (by omega)])
  obtain ⟨p, hp, h1, h2, h3, h4⟩ := key
  simp only [Nat.zero_add] at h1 h4
  refine ⟨p.2, ?_, h2, h3, h4⟩
  unfold Concatenate.copy
  rw [hp, ← h1]

/-- What `Concatenate.forward` computes on column vectors. -/
theorem Concatenate.concat_forward_spec (xs : List (Tensor R)) (junk : Nat → Nat → R)
    (src0 : List Nat) (hne : xs ≠ []) (hcols : ∀ x ∈ xs, x.cols = 1) :
    ∃ fx src, Concatenate.forward junk src0 xs = some (fx, src) ∧
      fx.rows = (xs.map Tensor.rows).sum ∧ fx.cols = 1 ∧ src.length = xs.length ∧
      (∀ k, k < xs.length → src[k]? = some (Concatenate.offset xs k)) ∧
      (∀ k y, xs[k]? = some y → ∀ a, a < y.rows →
        fx.get (Concatenate.offset xs k + a) 0 = y.get a 0) := by
  have key := forEach_inv
    (fun k (s : Nat × Nat × Tensor R × List Nat) =>
      s.1 = Concatenate.offset xs k ∧ s.2.1 = k ∧
      s.2.2.1.rows = (xs.map Tensor.rows).sum ∧ s.2.2.1.cols = 1 ∧
      s.2.2.2.length = xs.length ∧
      (∀ k', k' < k → s.2.2.2[k']? = some (Concatenate.offset xs k')) ∧
      (∀ k' y, k' < k → xs[k']? = some y → ∀ a, a < y.rows →
        s.2.2.1.get (Concatenate.offset xs k' + a) 0 = y.get a 0))
    (fun cx (s : Nat × Nat × Tensor R × List Nat) => do
      let src := s.2.2.2.set s.2.1 s.1
      let k := s.2.1 + 1
      check (cx.cols = 1)
      let p ← Concatenate.copy cx cx.rows s.1 s.2.2.1
      pure (p.1, k, p.2, src)) xs xs 0
    (0, 0, Tensor.uninit (xs.foldl (fun acc x => acc + x.rows) 0) 1 junk,
      resize src0 xs.length)
    (by simp) (by intro k _; simp)
    (by
      refine ⟨by simp [Concatenate.offset], rfl, ?_, rfl, ?_,
        fun k' hk' => absurd hk' (Nat.not_lt_zero k'),
        fun k' y hk' => absurd hk' (Nat.not_lt_zero k')⟩
      · simp [Tensor.uninit, Concatenate.foldl_rows]
      · simp only [resize, List.length_append, List.length_take, List.length_replicate]
        omega)
    (by
      intro k x s hx hs
      obtain ⟨s1, s2, s3, s4, s5, s6, s7⟩ := hs
      have hk : k < xs.length := by
        rcases Nat.lt_or_ge k xs.length with h | h
        · exact h
        · rw [List.getElem?_eq_none h] at hx; cases hx
      have hxc : x.cols = 1 := hcols x (List.getElem?_mem hx)
      have hoff := Concatenate.offset_succ xs k x hx
      have htot := Concatenate.offset_le_total xs (k + 1)
      obtain ⟨fx', hcopy, c1, c2, c3⟩ := Concatenate.copy_spec x s.2.2.1 s.1 (by omega)
        (by omega) (by omega)
      refine ⟨(s.1 + x.rows, s.2.1 + 1, fx', s.2.2.2.set s.2.1 s.1), ?_, ?_⟩
      · beta_reduce
        rw [check_eq_some hxc]
        simp only [Option.bind_eq_bind, Option.some_bind, hcopy, Option.pure_def]
      · refine ⟨by show s.1 + x.rows = _; omega, by show s.2.1 + 1 = _; omega,
          by show fx'.rows = _; omega, by show fx'.cols = _; omega,
          by show (s.2.2.2.set s.2.1 s.1).length = _; simpa using s5, ?_, ?_⟩
        · intro k' hk'
          show (s.2.2.2.set s.2.1 s.1)[k']? = _
          by_cases hkk : k' = k
          · subst hkk
            rw [s2, List.getElem?_set_self (by omega), s1]
          · rw [s2, List.getElem?_set_ne (fun h => hkk h.symm)]
            exact s6 k' (by omega)
        · intro k' y hk' hy a ha
          show fx'.get _ 0 = _
          by_cases hkk : k' = k
          · subst hkk
            have hyx : y = x := by rw [hx] at hy; exact (Option.some.inj hy).symm
            subst hyx
            rw [c3 _ (by omega), if_pos (by omega)]
            congr 1
            omega
          · have hy1 := Concatenate.offset_succ xs k' y hy
            have hmono := Concatenate.offset_mono xs (show k' + 1 ≤ k by omega)
            rw [c3 _ (by omega), if_neg (by omega)]
            exact s7 k' y (by omega) hy a ha)
  obtain ⟨s, hs, h1, h2, h3, h4, h5, h6, h7⟩ := key
  refine ⟨s.2.2.1, s.2.2.2, ?_, h3, h4, h5, h6, ?_⟩
  · have hlen : xs.length > 0 := List.length_pos.mpr hne
    simp only [Concatenate.forward, check_eq_some hlen, Option.bind_eq_bind, Option.some_bind,
      Option.pure_def] at hs ⊢
    rw [hs]
    rfl
  · intro k y hy a ha
    have hk : k < xs.length := by
      rcases Nat.lt_or_ge k xs.length with h | h
      · exact h
      · rw [List.getElem?_eq_none h] at hy; cases hy
    exact h7 k y hk hy a ha

/-- `Concatenate.backward` on a downstream gradient that holds the rows of `y = xs[i]`
from row `start` on returns `y`. -/
theorem Concatenate.concat_backward_spec (xs : List (Tensor R)) (src : List Nat)
    (fx dEdf y : Tensor R) (i start : Nat)
    (hy : xs[i]? = some y) (hyc : y.cols = 1) (hsrc : src[i]? = some start)
    (hfit : y.rows + start ≤ dEdf.rows) (hdc : 0 < dEdf.cols)
    (hval : ∀ a, a < y.rows → dEdf.get (a + start) 0 = y.get a 0) :
    Concatenate.backward src xs fx dEdf i = some y := by
  have key := forLoop_inv
    (fun j (d : Tensor R) => d.rows = y.rows ∧ d.cols = y.cols ∧
      ∀ a, a < y.rows → d.get a 0 = y.get a 0)
    (fun j (dEdx : Tensor R) => do
      let v ← dEdf.get? (j + start) 0
      dEdx.set? j 0 v) y.rows 0 y ⟨rfl, rfl, fun _ _ => rfl⟩
    (by
      intro j d _ hj hd
      obtain ⟨d1, d2, d3⟩ := hd
      beta_reduce
      rw [Tensor.get?_eq_some dEdf (show j + start < dEdf.rows by omega) hdc]
      simp only [Option.bind_eq_bind, Option.some_bind]
      rw [Tensor.set?_eq_some d _ (show j < d.rows by omega) (show 0 < d.cols by omega)]
      refine ⟨_, rfl, d1, d2, ?_⟩
      intro a ha
      rw [Tensor.get_ofFn _ (by omega) (by omega)]
      by_cases haj : a = j
      · subst haj
        rw [if_pos ⟨rfl, rfl⟩]
        exact hval a ha
      · rw [if_neg (fun h => haj h.1)]
        exact d3 a ha)
  obtain ⟨d, hd, d1, d2, d3⟩ := key
  have hdy : d = y := by
    apply Tensor.eq_of_get d1 d2
    intro a b ha hb
    have hb0 : b = 0 := by omega
    subst hb0
    exact d3 a (by omega)
  have hi : i < src.length := by
    rcases Nat.lt_or_ge i src.length with h | h
    · exact h
    · rw [List.getElem?_eq_none h] at hsrc; cases hsrc
  simp only [Concatenate.backward, check_eq_some hi, hy, hsrc, check_eq_some hfit,
    Option.bind_eq_bind, Option.some_bind] at hd ⊢
  rw [hd, hdy]

end Concatenate

/-! ## ConcatenateColumns -/

section ConcatenateColumns

variable {R : Type} [LinearOrderedCommRing R]

/-- The copy loop of `ConcatenateColumns.forward` writes column 0 of `x` to column
`i` of `fx` and leaves the other columns alone. -/
theorem ConcatenateColumns.copy_column_spec (x fx : Tensor R) (i : Nat) (hx : 0 < x.cols)
    (hr : x.rows = fx.rows) (hi : i < fx.cols) :
    ∃ fx', forLoop (fun j (fx : Tensor R) => do
        let v ← x.get? j 0
        fx.set? j i v) 0 fx.rows fx = some fx' ∧
      fx'.rows = fx.rows ∧ fx'.cols = fx.cols ∧
      ∀ a b, a < fx.rows → b < fx.cols →
        fx'.get a b = if b = i then x.get a 0 else fx.get a b := by
  have key := forLoop_inv
    (fun j (f : Tensor R) => f.rows = fx.rows ∧ f.cols = fx.cols ∧
      ∀ a b, a < fx.rows → b < fx.cols →
        f.get a b = if b = i ∧ a < j then x.get a 0 else fx.get a b)
    (fun j (fx : Tensor R) => do
      let v ← x.get? j 0
      fx.set? j i v) fx.rows 0 fx
    (by
      refine ⟨rfl, rfl, ?_⟩
      intro a b _ _
      rw [if_neg (by omega)])
    (by
      intro j f _ hj hf
      obtain ⟨f1, f2, f3⟩ := hf
      beta_reduce
      rw [Tensor.get?_eq_some x (show j < x.rows by omega) hx]
      simp only [Option.bind_eq_bind, Option.some_bind]
      rw [Tensor.set?_eq_some f _ (show j < f.rows by omega) (show i < f.cols by omega)]
      refine ⟨_, rfl, f1, f2, ?_⟩
      intro a b ha hb
      rw [Tensor.get_ofFn _ (by omega) (by omega)]
      by_cases hab : a = j ∧ b = i
      · rw [if_pos hab, if_pos ⟨hab.2, by omega⟩, hab.1]
      · rw [if_neg hab, f3 a b ha hb]
        by_cases hin : b = i ∧ a < j
        · rw [if_pos hin, if_pos ⟨hin.1, by omega⟩]
        · rw [if_neg hin, if_neg (by
            intro h
            rcases h with ⟨h1, h2⟩
            by_cases haj : a = j
            · exact hab ⟨haj, h1⟩
            · exact hin ⟨h1, by omega⟩)])
  obtain ⟨f, hf, f1, f2, f3⟩ := key
  refine ⟨f, hf, f1, f2, ?_⟩
  intro a b ha hb
  rw [f3 a b ha hb]
  by_cases hbi : b = i
  · rw [if_pos ⟨hbi, by omega⟩, if_pos hbi]
  · rw [if_neg (fun h => hbi h.1), if_neg hbi]

/-- What `ConcatenateColumns.forward` computes on inputs with `r` rows each. -/
theorem ConcatenateColumns.columns_forward_spec (xs : List (Tensor R))
    (junk : Nat → Nat → R) (r : Nat) (hne : xs ≠ [])
    (hxs : ∀ x ∈ xs, x.cols = 1 ∧ x.rows = r) :
    ∃ fx, ConcatenateColumns.forward junk xs = some fx ∧
      fx.rows = r ∧ fx.cols = xs.length ∧
      ∀ i y, xs[i]? = some y → ∀ j, j < r → fx.get j i = y.get j 0 := by
  obtain ⟨x0, hx0⟩ : ∃ x0, xs.head? = some x0 := by
    cases xs with
    | nil => exact absurd rfl hne
    | cons a l => exact ⟨a, rfl⟩
  have hx0r : x0.rows = r := (hxs x0 (List.mem_of_mem_head? hx0)).2
  have key := forEach_inv
    (fun k (s : Tensor R × Nat) => s.2 = k ∧ s.1.rows = r ∧ s.1.cols = xs.length ∧
      ∀ i y, i < k → xs[i]? = some y → ∀ j, j < r → s.1.get j i = y.get j 0)
    (fun x (s : Tensor R × Nat) => do
      check (x.rows = x0.rows)
      let fx ← forLoop (fun j (fx : Tensor R) => do
        let v ← x.get? j 0
        fx.set? j s.2 v) 0 x0.rows s.1
      pure (fx, s.2 + 1)) xs xs 0 (Tensor.uninit x0.rows xs.length junk, 0)
    (by simp) (by intro k _; simp)
    ⟨rfl, hx0r, rfl, fun i y hi => absurd hi (Nat.not_lt_zero i)⟩
    (by
      intro k x s hx hs
      obtain ⟨s1, s2, s3, s4⟩ := hs
      have hk : k < xs.length := by
        rcases Nat.lt_or_ge k xs.length with h | h
        · exact h
        · rw [List.getElem?_eq_none h] at hx; cases hx
      obtain ⟨hxc, hxr⟩ := hxs x (List.getElem?_mem hx)
      obtain ⟨fx', hcopy, c1, c2, c3⟩ := ConcatenateColumns.copy_column_spec x s.1 s.2
        (by omega) (by omega) (by omega)
      refine ⟨(fx', s.2 + 1), ?_, by show s.2 + 1 = _; omega, by show fx'.rows = _; omega,
        by show fx'.cols = _; omega, ?_⟩
      · beta_reduce
        rw [check_eq_some (by omega), hx0r, ← s2]
        simp only [Option.bind_eq_bind, Option.some_bind, Option.pure_def] at hcopy ⊢
        rw [hcopy]
        rfl
      · intro i y hi hy j hj
        show fx'.get j i = _
        rw [c3 j i (by omega) (by omega)]
        by_cases hik : i = k
        · subst hik
          have hyx : y = x := by rw [hx] at hy; exact (Option.some.inj hy).symm
          rw [if_pos s1.symm, hyx]
        · rw [if_neg (by omega)]
          exact s4 i y (by omega) hy j hj)
  obtain ⟨s, hs, _, h2, h3, h4⟩ := key
  refine ⟨s.1, ?_, h2, h3, ?_⟩
  · have hlen : xs.length > 0 := List.length_pos.mpr hne
    simp only [ConcatenateColumns.forward, check_eq_some hlen, hx0, Option.bind_eq_bind,
      Option.some_bind, Option.pure_def] at hs ⊢
    rw [hs]
    rfl
  · intro i y hy j hj
    have hi : i < xs.length := by
      rcases Nat.lt_or_ge i xs.length with h | h
      · exact h
      · rw [List.getElem?_eq_none h] at hy; cases hy
    exact h4 i y hi hy j hj

/-- The row-count assertion of `ConcatenateColumns.forward` makes it fail on an input
whose row count differs from the first input's. -/
theorem ConcatenateColumns.columns_forward_fail (xs : List (Tensor R))
    (junk : Nat → Nat → R) (x0 x : Tensor R) (hx0 : xs.head? = some x0) (hx : x ∈ xs)
    (hrows : x.rows ≠ x0.rows) : ConcatenateColumns.forward junk xs = none := by
  have hbody := forEach_fail
    (fun x (s : Tensor R × Nat) => do
      check (x.rows = x0.rows)
      let fx ← forLoop (fun j (fx : Tensor R) => do
        let v ← x.get? j 0
        fx.set? j s.2 v) 0 x0.rows s.1
      pure (fx, s.2 + 1)) x
    (by intro t; beta_reduce; rw [check_eq_none hrows]; rfl)
    xs (Tensor.uninit x0.rows xs.length junk, 0) hx
  simp only [ConcatenateColumns.forward, hx0, Option.bind_eq_bind, Option.some_bind,
    Option.pure_def] at hbody ⊢
  rw [hbody]
  cases check (xs.length > 0) <;> rfl

end ConcatenateColumns

/-! ## KMHNGram -/

section KMHNGram

variable {R : Type} [LinearOrderedCommRing R]

/-- The inner loop of `KMHNGram.forward` adds the columns `j .. j + n - 1` of `x` to
column `j` of `res` and leaves the other columns alone. -/
theorem KMHNGram.window_spec (x res : Tensor R) (n j : Nat) (hr : res.rows = x.rows)
    (hj : j < res.cols) (hfit : j + n ≤ x.cols) :
    ∃ res', forLoop (fun k (res : Tensor R) => do
        let c ← x.col? (j + k)
        res.addCol? j c) 0 n res = some res' ∧
      res'.rows = res.rows ∧ res'.cols = res.cols ∧
      ∀ a b, a < res.rows → b < res.cols →
        res'.get a b = if b = j then
          res.get a j + Finset.sum (Finset.range n) (fun k => x.get a (j + k))
        else res.get a b := by
  have key := forLoop_inv
    (fun k (t : Tensor R) => t.rows = res.rows ∧ t.cols = res.cols ∧
      ∀ a b, a < res.rows → b < res.cols →
        t.get a b = if b = j then
          res.get a j + Finset.sum (Finset.range k) (fun k => x.get a (j + k))
        else res.get a b)
    (fun k (res : Tensor R) => do
      let c ← x.col? (j + k)
      res.addCol? j c) n 0 res
    (by
      refine ⟨rfl, rfl, ?_⟩
      intro a b _ _
      by_cases hb : b = j
      · rw [if_pos hb, hb]; simp
      · rw [if_neg hb])
    (by
      intro k t _ hk ht
      obtain ⟨t1, t2, t3⟩ := ht
      beta_reduce
      have hcol : x.col? (j + k) = some (Tensor.ofFn x.rows 1 (fun a _ => x.get a (j + k))) := by
        simp only [Tensor.col?]
        rw [if_pos (by omega)]
      rw [hcol]
      simp only [Option.bind_eq_bind, Option.some_bind, Tensor.addCol?, Tensor.ofFn_rows,
        Tensor.ofFn_cols]
      rw [if_pos ⟨by omega, by omega, trivial⟩]
      refine ⟨_, rfl, t1, t2, ?_⟩
      intro a b ha hb
      rw [Tensor.get_ofFn _ (by omega) (by omega)]
      by_cases hbj : b = j
      · rw [if_pos hbj, if_pos hbj, t3 a b ha hb, if_pos hbj,
          Tensor.get_ofFn _ (by omega) (by omega), Finset.sum_range_succ, add_assoc]
      · rw [if_neg hbj, if_neg hbj, t3 a b ha hb, if_neg hbj])
  obtain ⟨t, ht, t1, t2, t3⟩ := key
  exact ⟨t, ht, t1, t2, by simpa using t3⟩

/-- What `KMHNGram.forward` computes for a window width `1 ≤ n ≤ cols(x)`. -/
theorem KMHNGram.ngram_forward_spec (x : Tensor R) (n : Nat) (hnc : n ≤ x.cols) :
    ∃ res, KMHNGram.forward n [x] = some res ∧
      res.rows = x.rows ∧ res.cols = x.cols - n + 1 ∧
      ∀ a b, a < x.rows → b < x.cols - n + 1 →
        res.get a b = Finset.sum (Finset.range n) (fun k => x.get a (b + k)) := by
  have key := forLoop_inv
    (fun j (t : Tensor R) => t.rows = x.rows ∧ t.cols = x.cols - n + 1 ∧
      ∀ a b, a < x.rows → b < x.cols - n + 1 →
        t.get a b = if b < j then Finset.sum (Finset.range n) (fun k => x.get a (b + k))
          else 0)
    (fun j (res : Tensor R) =>
      forLoop (fun k (res : Tensor R) => do
        let c ← x.col? (j + k)
        res.addCol? j c) 0 n res) (x.cols - n + 1) 0 (Tensor.zero x.rows (x.cols - n + 1))
    (by
      refine ⟨rfl, rfl, ?_⟩
      intro a b ha hb
      rw [if_neg (by omega)]
      exact Tensor.get_ofFn _ ha hb)
    (by
      intro j t _ hj ht
      obtain ⟨t1, t2, t3⟩ := ht
      obtain ⟨t', ht', u1, u2, u3⟩ := KMHNGram.window_spec x t n j t1 (by omega) (by omega)
      refine ⟨t', ht', by omega, by omega, ?_⟩
      intro a b ha hb
      rw [u3 a b (by omega) (by omega)]
      by_cases hbj : b = j
      · rw [if_pos hbj, if_pos (by omega), t3 a j ha (by omega), if_neg (by omega), zero_add,
          hbj]
      · rw [if_neg hbj, t3 a b ha hb]
        by_cases hlt : b < j
        · rw [if_pos hlt, if_pos (by omega)]
        · rw [if_neg hlt, if_neg (by omega)])
  obtain ⟨t, ht, t1, t2, t3⟩ := key
  have hpos : ((x.cols : Int) - (n : Int) + 1) > 0 := by omega
  have htoNat : ((x.cols : Int) - (n : Int) + 1).toNat = x.cols - n + 1 := by omega
  refine ⟨t, ?_, t1, t2, ?_⟩
  · simp only [KMHNGram.forward, List.length_singleton, check_eq_some, List.head?_cons,
      check_eq_some hpos, htoNat, Option.bind_eq_bind, Option.some_bind] at ht ⊢
    exact ht
  · intro a b ha hb
    rw [t3 a b ha hb, if_pos (by omega)]

/-- The assertion `new_cols > 0` makes `KMHNGram.forward` fail when the window is
wider than the input. -/
theorem KMHNGram.ngram_forward_fail (x : Tensor R) (n : Nat) (h : x.cols < n) :
    KMHNGram.forward n [x] = none := by
  have hneg : ¬ (((x.cols : Int) - (n : Int) + 1) > 0) := by omega
  simp only [KMHNGram.forward, List.length_singleton, check_eq_some, List.head?_cons,
    check_eq_none hneg, Option.bind_eq_bind, Option.some_bind, Option.none_bind]

end KMHNGram

/-- C1: on the 1 × 2 input `[[1, 2]]` with downstream gradient `[[5]]`,
`SumColumns.backward` returns `[[5, 2]]`: only column 0 receives the gradient,
column 1 keeps the value stored in the input. -/
theorem SumColumns.backward_second_column_kept :
    (SumColumns.backward [Tensor.ofRows [[(1 : ℤ), 2]]] (Tensor.ofRows [[3]])
        (Tensor.ofRows [[5]]) 0).map Tensor.toRows = some [[5, 2]] := by
  decide

/-! ## MatrixMultiply -/

section MatrixMultiply

variable {R : Type} [LinearOrderedCommRing R]

theorem Tensor.mul?_eq_some (a b : Tensor R) (h : a.cols = b.rows) :
    a.mul? b = some (Tensor.ofFn a.rows b.cols
      (fun i j => Finset.sum (Finset.range a.cols) (fun l => a.get i l * b.get l j))) := by
  simp [Tensor.mul?, h]

theorem Tensor.get_transpose (t : Tensor R) {i j : Nat} (hi : i < t.cols) (hj : j < t.rows) :
    t.transpose.get i j = t.get j i := by
  simp [Tensor.transpose, Tensor.get_ofFn _ hi hj]

theorem MatrixMultiply.forward_pair (a b : Tensor R) :
    MatrixMultiply.forward [a, b] = a.mul? b := by
  simp [MatrixMultiply.forward, check]

theorem MatrixMultiply.backward_zero (a b fx g : Tensor R) :
    MatrixMultiply.backward [a, b] fx g 0 = g.mul? b.transpose := by
  simp [MatrixMultiply.backward, check]

theorem MatrixMultiply.backward_one (a b fx g : Tensor R) :
    MatrixMultiply.backward [a, b] fx g 1 = a.transpose.mul? g := by
  simp [MatrixMultiply.backward, check]

/-- The identity `⟨G, dA * B⟩ = ⟨G * Bᵀ, dA⟩` on coefficient functions. -/
theorem MatrixMultiply.adjoint_left (m k n : Nat) (g da b : Nat → Nat → R) :
    Finset.sum (Finset.range m) (fun i => Finset.sum (Finset.range n) (fun j =>
        g i j * Finset.sum (Finset.range k) (fun l => da i l * b l j))) =
    Finset.sum (Finset.range m) (fun i => Finset.sum (Finset.range k) (fun l =>
        Finset.sum (Finset.range n) (fun j => g i j * b l j) * da i l)) := by
  refine Finset.sum_congr rfl (fun i _ => ?_)
  simp only [Finset.mul_sum, Finset.sum_mul]
  rw [Finset.sum_comm]
  refine Finset.sum_congr rfl (fun l _ => Finset.sum_congr rfl (fun j _ => ?_))
  ring

/-- The identity `⟨G, A * dB⟩ = ⟨Aᵀ * G, dB⟩` on coefficient functions. -/
theorem MatrixMultiply.adjoint_right (m k n : Nat) (g a db : Nat → Nat → R) :
    Finset.sum (Finset.range m) (fun i => Finset.sum (Finset.range n) (fun j =>
        g i j * Finset.sum (Finset.range k) (fun l => a i l * db l j))) =
    Finset.sum (Finset.range k) (fun l => Finset.sum (Finset.range n) (fun j =>
        Finset.sum (Finset.range m) (fun i => a i l * g i j) * db l j)) := by
  simp only [Finset.mul_sum, Finset.sum_mul]
  rw [Finset.sum_comm]
  refine Eq.trans (Finset.sum_congr rfl (fun j _ => Finset.sum_comm)) ?_
  rw [Finset.sum_comm]
  refine Finset.sum_congr rfl (fun l _ => Finset.sum_congr rfl (fun j _ =>
    Finset.sum_congr rfl (fun i _ => ?_)))
  ring

end MatrixMultiply

/-- C2: for `A` (m × k), `B` (k × n) and a downstream gradient `G` (m × n),
`MatrixMultiply.backward` returns for input 0 a tensor of the shape of `A` whose
coefficients are those of `G * Bᵀ`, for input 1 a tensor of the shape of `B` whose
coefficients are those of `Aᵀ * G`, and both are adjoints of `forward`:
`⟨G, dA * B⟩ = ⟨G * Bᵀ, dA⟩` and `⟨G, A * dB⟩ = ⟨Aᵀ * G, dB⟩`. -/
theorem MatrixMultiply.backward_is_adjoint {R : Type} [LinearOrderedCommRing R]
    (A B G fx : Tensor R)
    (hAB : A.cols = B.rows) (hGr : G.rows = A.rows) (hGc : G.cols = B.cols) :
    ∃ gA gB : Tensor R,
      MatrixMultiply.backward [A, B] fx G 0 = some gA ∧
      MatrixMultiply.backward [A, B] fx G 1 = some gB ∧
      gA.rows = A.rows ∧ gA.cols = A.cols ∧ gB.rows = B.rows ∧ gB.cols = B.cols ∧
      (∀ i j, i < A.rows → j < A.cols →
        gA.get i j = Finset.sum (Finset.range B.cols) (fun l => G.get i l * B.get j l)) ∧
      (∀ i j, i < B.rows → j < B.cols →
        gB.get i j = Finset.sum (Finset.range A.rows) (fun l => A.get l i * G.get l j)) ∧
      (∀ dA : Tensor R, dA.rows = A.rows → dA.cols = A.cols →
        ∃ P, MatrixMultiply.forward [dA, B] = some P ∧ P.rows = G.rows ∧ P.cols = G.cols ∧
          Tensor.inner G P = Tensor.inner gA dA) ∧
      (∀ dB : Tensor R, dB.rows = B.rows → dB.cols = B.cols →
        ∃ P, MatrixMultiply.forward [A, dB] = some P ∧ P.rows = G.rows ∧ P.cols = G.cols ∧
          Tensor.inner G P = Tensor.inner gB dB) := by
  have hgA : ∀ i j, i < A.rows → j < A.cols →
      (Tensor.ofFn G.rows B.transpose.cols (fun i j =>
        Finset.sum (Finset.range G.cols) (fun l => G.get i l * B.transpose.get l j))).get i j
      = Finset.sum (Finset.range B.cols) (fun l => G.get i l * B.get j l) := by
    intro i j hi hj
    rw [Tensor.get_ofFn _ (by omega) (by simp [Tensor.transpose]; omega), hGc]
    refine Finset.sum_congr rfl (fun l hl => ?_)
    rw [Tensor.get_transpose B (Finset.mem_range.mp hl) (by omega)]
  have hgB : ∀ i j, i < B.rows → j < B.cols →
      (Tensor.ofFn A.transpose.rows G.cols (fun i j =>
        Finset.sum (Finset.range A.transpose.cols) (fun l => A.transpose.get i l * G.get l j))).get i j
      = Finset.sum (Finset.range A.rows) (fun l => A.get l i * G.get l j) := by
    intro i j hi hj
    rw [Tensor.get_ofFn _ (by simp [Tensor.transpose]; omega) (by omega)]
    have : A.transpose.cols = A.rows := rfl
    rw [this]
    refine Finset.sum_congr rfl (fun l hl => ?_)
    rw [Tensor.get_transpose A (by omega) (Finset.mem_range.mp hl)]
  rw [MatrixMultiply.backward_zero, Tensor.mul?_eq_some _ _ (by simp [Tensor.transpose, hGc]),
    MatrixMultiply.backward_one, Tensor.mul?_eq_some _ _ (by simp [Tensor.transpose, hGr])]
  refine ⟨_, _, rfl, rfl, ?_, ?_, ?_, ?_, hgA, hgB, ?_, ?_⟩
  · simp [hGr]
  · simp [Tensor.transpose, hAB]
  · simp [Tensor.transpose, hAB]
  · simp [hGc]
  · intro dA hr hc
    rw [MatrixMultiply.forward_pair, Tensor.mul?_eq_some _ _ (by omega)]
    refine ⟨_, rfl, ?_, ?_, ?_⟩
    · simp [hr, hGr]
    · simp [hGc]
    · unfold Tensor.inner
      simp only [Tensor.ofFn_rows, Tensor.ofFn_cols]
      have e1 : ∀ i ∈ Finset.range G.rows, ∀ j ∈ Finset.range G.cols,
          G.get i j * (Tensor.ofFn dA.rows B.cols (fun i j =>
            Finset.sum (Finset.range dA.cols) (fun l => dA.get i l * B.get l j))).get i j
          = G.get i j * Finset.sum (Finset.range A.cols) (fun l => dA.get i l * B.get l j) := by
        intro i hi j hj
        rw [Tensor.get_ofFn _ (by have := Finset.mem_range.mp hi; omega)
          (by have := Finset.mem_range.mp hj; omega), hc]
      rw [Finset.sum_congr rfl (fun i hi => Finset.sum_congr rfl (fun j hj => e1 i hi j hj))]
      have hB : B.transpose.cols = A.cols := by simp [Tensor.transpose, hAB]
      have e2 : ∀ i ∈ Finset.range G.rows, ∀ l ∈ Finset.range B.transpose.cols,
          (Tensor.ofFn G.rows B.transpose.cols (fun i j =>
            Finset.sum (Finset.range G.cols) (fun l => G.get i l * B.transpose.get l j))).get i l
            * dA.get i l
          = Finset.sum (Finset.range B.cols) (fun j => G.get i j * B.get l j) * dA.get i l := by
        intro i hi l hl
        rw [hgA i l (by have := Finset.mem_range.mp hi; omega)
          (by have := Finset.mem_range.mp hl; omega)]
      rw [Finset.sum_congr rfl (fun i hi => Finset.sum_congr rfl (fun j hj => e2 i hi j hj))]
      rw [hB, hGc]
      exact MatrixMultiply.adjoint_left G.rows A.cols B.cols G.get dA.get B.get
  · intro dB hr hc
    rw [MatrixMultiply.forward_pair, Tensor.mul?_eq_some _ _ (by omega)]
    refine ⟨_, rfl, ?_, ?_, ?_⟩
    · simp [hGr]
    · simp [hc, hGc]
    · unfold Tensor.inner
      simp only [Tensor.ofFn_rows, Tensor.ofFn_cols]
      have e1 : ∀ i ∈ Finset.range G.rows, ∀ j ∈ Finset.range G.cols,
          G.get i j * (Tensor.ofFn A.rows dB.cols (fun i j =>
            Finset.sum (Finset.range A.cols) (fun l => A.get i l * dB.get l j))).get i j
          = G.get i j * Finset.sum (Finset.range A.cols) (fun l => A.get i l * dB.get l j) := by
        intro i hi j hj
        rw [Tensor.get_ofFn _ (by have := Finset.mem_range.mp hi; omega)
          (by have := Finset.mem_range.mp hj; omega)]
      rw [Finset.sum_congr rfl (fun i hi => Finset.sum_congr rfl (fun j hj => e1 i hi j hj))]
      have hA : A.transpose.rows = A.cols := rfl
      have e2 : ∀ l ∈ Finset.range A.transpose.rows, ∀ j ∈ Finset.range G.cols,
          (Tensor.ofFn A.transpose.rows G.cols (fun i j =>
            Finset.sum (Finset.range A.transpose.cols)
              (fun l => A.transpose.get i l * G.get l j))).get l j * dB.get l j
          = Finset.sum (Finset.range A.rows) (fun i => A.get i l * G.get i j) * dB.get l j := by
        intro l hl j hj
        rw [hgB l j (by have := Finset.mem_range.mp hl; rw [hA] at this; omega)
          (by have := Finset.mem_range.mp hj; omega)]
      rw [Finset.sum_congr rfl (fun i hi => Finset.sum_congr rfl (fun j hj => e2 i hi j hj))]
      rw [hA, hGr]
      exact MatrixMultiply.adjoint_right A.rows A.cols G.cols G.get A.get dB.get

/-! ## MaxPooling1D -/

section MaxPooling1D

variable {R : Type} [LinearOrderedCommRing R]

theorem Tensor.set?_spec {t t' : Tensor R} {i j : Nat} {v : R} (h : t.set? i j v = some t') :
    i < t.rows ∧ j < t.cols ∧ t'.rows = t.rows ∧ t'.cols = t.cols ∧
      ∀ a b, a < t.rows → b < t.cols →
        t'.get a b = if a = i ∧ b = j then v else t.get a b := by
  unfold Tensor.set? at h
  split at h
  · rename_i hij
    simp only [Option.some.injEq] at h
    subst h
    refine ⟨hij.1, hij.2, rfl, rfl, ?_⟩
    intro a b ha hb
    rw [Tensor.get_ofFn _ ha hb]
  · cases h

/-- The scan of rows `lo .. lo + n - 1` succeeds and keeps a maximum of the rows
`start .. lo + n - 1` together with a row where it is attained. -/
theorem MaxPooling1D.scan_spec (x : Tensor R) (hc : x.cols = 1) (start lo n : Nat)
    (best : R) (bestr : Nat) (hn : lo + n ≤ x.rows)
    (h1 : start ≤ bestr) (h2 : bestr < lo) (h3 : best = x.get bestr 0)
    (h4 : ∀ r, start ≤ r → r < lo → x.get r 0 ≤ best) :
    ∃ p, MaxPooling1D.scan x lo n best bestr = some p ∧ start ≤ p.2 ∧ p.2 < lo + n ∧
      p.1 = x.get p.2 0 ∧ ∀ r, start ≤ r → r < lo + n → x.get r 0 ≤ p.1 := by
  have key := forLoop_inv
    (fun k (p : R × Nat) => start ≤ p.2 ∧ p.2 < k ∧ p.1 = x.get p.2 0 ∧
      ∀ r, start ≤ r → r < k → x.get r 0 ≤ p.1)
    (fun r (p : R × Nat) => do
      let v ← x.get? r 0
      if v > p.1 then pure (v, r) else pure p) n lo (best, bestr) ⟨h1, h2, h3, h4⟩
    (by
      intro k p hk1 hk2 hp
      obtain ⟨p1, p2, p3, p4⟩ := hp
      beta_reduce
      rw [Tensor.get?_eq_some x (show k < x.rows by omega) (show 0 < x.cols by omega)]
      by_cases hv : x.get k 0 > p.1
      · refine ⟨(x.get k 0, k), by simp [hv], by simp; omega, by simp, rfl, ?_⟩
        intro r hr1 hr2
        by_cases hrk : r = k
        · subst hrk; exact le_refl _
        · exact le_of_lt (lt_of_le_of_lt (p4 r hr1 (by omega)) hv)
      · refine ⟨p, by simp [hv], p1, by omega, p3, ?_⟩
        intro r hr1 hr2
        by_cases hrk : r = k
        · subst hrk; exact not_lt.mp hv
        · exact p4 r hr1 (by omega))
  obtain ⟨p, hp, hP⟩ := key
  exact ⟨p, hp, hP⟩

/-- What `MaxPooling1D.forward` computes: one entry per full window of `width` rows,
the maximum of the window, and a row of the window where it is attained. -/
theorem MaxPooling1D.pool_forward_spec (x : Tensor R) (w : Nat) (ind0 : List Nat)
    (hc : x.cols = 1) (hw : 1 ≤ w) :
    ∃ fx ind, MaxPooling1D.forward w ind0 [x] = some (fx, ind) ∧
      fx.rows = x.rows / w ∧ fx.cols = 1 ∧ ind.length = x.rows / w ∧
      ∀ i, i < x.rows / w → ∃ b, ind[i]? = some b ∧ i * w ≤ b ∧ b < i * w + w ∧
        b < x.rows ∧ fx.get i 0 = x.get b 0 ∧
        ∀ r, i * w ≤ r → r < i * w + w → x.get r 0 ≤ fx.get i 0 := by
  have hdiv : x.rows / w * w ≤ x.rows := Nat.div_mul_le_self x.rows w
  have hwin : ∀ i, i < x.rows / w → i * w + w ≤ x.rows := by
    intro i hi
    have : (i + 1) * w ≤ x.rows / w * w := Nat.mul_le_mul_right w hi
    rw [Nat.add_mul, Nat.one_mul] at this
    omega
  have key := forLoop_inv
    (fun k (s : Tensor R × List Nat) => s.1.rows = x.rows / w ∧ s.1.cols = 1 ∧
      s.2.length = x.rows / w ∧
      ∀ i, i < k → ∃ b, s.2[i]? = some b ∧ i * w ≤ b ∧ b < i * w + w ∧
        b < x.rows ∧ s.1.get i 0 = x.get b 0 ∧
        ∀ r, i * w ≤ r → r < i * w + w → x.get r 0 ≤ s.1.get i 0)
    (fun i (s : Tensor R × List Nat) => do
      let lo := i * w
      let hi := lo + w
      let hi := if hi > x.rows then x.rows else hi
      let best ← x.get? lo 0
      let p ← MaxPooling1D.scan x (lo + 1) (hi - (lo + 1)) best lo
      let ind := s.2.set i p.2
      let fx ← s.1.set? i 0 p.1
      pure (fx, ind)) (x.rows / w) 0 (Tensor.zero (x.rows / w) 1, resize ind0 (x.rows / w))
    (by
      refine ⟨rfl, rfl, ?_, fun i hi => absurd hi (Nat.not_lt_zero i)⟩
      simp only [resize, List.length_append, List.length_take, List.length_replicate]
      omega)
    (by
      intro k s _ hk hs
      obtain ⟨s1, s2, s3, s4⟩ := hs
      have hkw := hwin k (by omega)
      have hhi : ¬ (k * w + w > x.rows) := by omega
      obtain ⟨p, hp, q1, q2, q3, q4⟩ := MaxPooling1D.scan_spec x hc (k * w) (k * w + 1)
        (k * w + w - (k * w + 1)) (x.get (k * w) 0) (k * w) (by omega) (le_refl _)
        (by omega) rfl (by
          intro r hr1 hr2
          have : r = k * w := by omega
          subst this; exact le_refl _)
      have hset := Tensor.set?_eq_some s.1 p.1 (show k < s.1.rows by omega)
        (show 0 < s.1.cols by omega)
      refine ⟨(Tensor.ofFn s.1.rows s.1.cols
        (fun a b => if a = k ∧ b = 0 then p.1 else s.1.get a b), s.2.set k p.2), ?_, ?_⟩
      · beta_reduce
        simp only [hhi, if_false]
        rw [Tensor.get?_eq_some x (show k * w < x.rows by omega) (show 0 < x.cols by omega)]
        simp only [Option.bind_eq_bind, Option.some_bind, hp, hset, Option.pure_def]
      · refine ⟨by simpa using s1, by simpa using s2, by simpa using s3, ?_⟩
        intro i hi
        have hget : ∀ a, a < x.rows / w →
            (Tensor.ofFn s.1.rows s.1.cols
              (fun a b => if a = k ∧ b = 0 then p.1 else s.1.get a b)).get a 0
            = if a = k then p.1 else s.1.get a 0 := by
          intro a ha
          rw [Tensor.get_ofFn _ (by omega) (by omega)]
          simp
        by_cases hik : i = k
        · subst hik
          refine ⟨p.2, ?_, by omega, by omega, by omega, ?_, ?_⟩
          · exact List.getElem?_set_self (by omega)
          · simp only [hget i (by omega), if_true]; exact q3
          · intro r hr1 hr2
            simp only [hget i (by omega), if_true]
            exact q4 r hr1 (by omega)
        · obtain ⟨b, b1, b2, b3, b4, b5, b6⟩ := s4 i (by omega)
          refine ⟨b, ?_, b2, b3, b4, ?_, ?_⟩
          · rw [List.getElem?_set_ne (fun h => hik h.symm)]; exact b1
          · simp only [hget i (by omega), if_neg hik]; exact b5
          · intro r hr1 hr2
            simp only [hget i (by omega), if_neg hik]
            exact b6 r hr1 hr2)
  obtain ⟨s, hs, h1, h2, h3, h4⟩ := key
  refine ⟨s.1, s.2, ?_, h1, h2, h3, ?_⟩
  · have hw0 : w ≠ 0 := by omega
    simp only [MaxPooling1D.forward, List.length_singleton, check_eq_some, List.head?_cons,
      hc, hw0, ne_eq, not_false_eq_true, Option.bind_eq_bind, Option.some_bind]
    exact hs
  · simpa using h4

/-- What `MaxPooling1D.backward` computes from a list `ind` of rows, one per window,
the `i`-th of which lies in window `i`. -/
theorem MaxPooling1D.pool_backward_spec (x g fx : Tensor R) (w : Nat) (ind : List Nat) (j : Nat)
    (hw : 1 ≤ w) (hg : g.rows = x.rows / w) (hgc : g.cols = 1)
    (hlen : ind.length = x.rows / w)
    (hind : ∀ i, i < x.rows / w → ∃ b, ind[i]? = some b ∧ i * w ≤ b ∧ b < i * w + w ∧
      b < x.rows) :
    ∃ dEdx, MaxPooling1D.backward w ind [x] fx g j = some dEdx ∧
      dEdx.rows = x.rows ∧ dEdx.cols = 1 ∧
      (∀ i, i < x.rows / w → ∃ b, ind[i]? = some b ∧ dEdx.get b 0 = g.get i 0) ∧
      (∀ r, r < x.rows → r ∉ ind → dEdx.get r 0 = 0) := by
  have key := forLoop_inv
    (fun k (d : Tensor R) => d.rows = x.rows ∧ d.cols = 1 ∧
      (∀ i, i < k → ∃ b, ind[i]? = some b ∧ d.get b 0 = g.get i 0) ∧
      (∀ r, r < x.rows → (∀ i, i < k → ind[i]? ≠ some r) → d.get r 0 = 0))
    (fun i (dEdx : Tensor R) => do
      let r ← ind[i]?
      let v ← g.get? i 0
      dEdx.set? r 0 v) (x.rows / w) 0 (Tensor.zero x.rows 1)
    (by
      refine ⟨rfl, rfl, fun i hi => absurd hi (Nat.not_lt_zero i), ?_⟩
      intro r hr _
      exact Tensor.get_ofFn _ hr (by omega))
    (by
      intro k d _ hk hd
      obtain ⟨d1, d2, d3, d4⟩ := hd
      obtain ⟨b, b1, b2, b3, b4⟩ := hind k (by omega)
      have hget : ∀ a, a < x.rows →
          (Tensor.ofFn d.rows d.cols
            (fun a c => if a = b ∧ c = 0 then g.get k 0 else d.get a c)).get a 0
          = if a = b then g.get k 0 else d.get a 0 := by
        intro a ha
        rw [Tensor.get_ofFn _ (by omega) (by omega)]
        simp
      refine ⟨Tensor.ofFn d.rows d.cols
        (fun a c => if a = b ∧ c = 0 then g.get k 0 else d.get a c), ?_, d1, d2, ?_, ?_⟩
      · beta_reduce
        rw [b1, Tensor.get?_eq_some g (show k < g.rows by omega) (show 0 < g.cols by omega)]
        simp only [Option.bind_eq_bind, Option.some_bind]
        exact Tensor.set?_eq_some d _ (by omega) (by omega)
      · intro i hi
        by_cases hik : i = k
        · subst hik
          exact ⟨b, b1, by rw [hget b b4]; simp⟩
        · obtain ⟨c, c1, c2⟩ := d3 i (by omega)
          obtain ⟨c', e1, _, e3, e4⟩ := hind i (by omega)
          have hcc : c' = c := by rw [c1] at e1; exact (Option.some.inj e1).symm
          subst hcc
          have hlt : (i + 1) * w ≤ k * w := Nat.mul_le_mul_right w (by omega)
          rw [Nat.add_mul, Nat.one_mul] at hlt
          refine ⟨c', c1, ?_⟩
          rw [hget c' e4, if_neg (by omega)]
          exact c2
      · intro r hr hne
        have hrb : r ≠ b := by
          intro h
          subst h
          exact hne k (by omega) b1
        rw [hget r hr, if_neg hrb]
        exact d4 r hr (fun i hi => hne i (by omega)))
  obtain ⟨d, hd, h1, h2, h3, h4⟩ := key
  refine ⟨d, ?_, h1, h2, ?_, ?_⟩
  · have hw0 : w ≠ 0 := by omega
    simp only [MaxPooling1D.backward, List.head?_cons, check_eq_some, hw0, ne_eq,
      not_false_eq_true, hlen, hg, Option.bind_eq_bind, Option.some_bind]
    exact hd
  · simpa using h3
  · intro r hr hmem
    exact h4 r hr (fun i _ h => hmem (List.getElem?_mem h))

end MaxPooling1D

/-- C2, on `A = [[1, 2], [3, 4]]`, `B = [[5], [6]]`, `G = [[1], [1]]`: the gradients
are `G * Bᵀ = [[5, 6], [5, 6]]` and `Aᵀ * G = [[4], [6]]`. -/
theorem MatrixMultiply.backward_is_adjoint_witness :
    ∃ gA gB : Tensor ℤ,
      MatrixMultiply.backward [Tensor.ofRows [[1, 2], [3, 4]], Tensor.ofRows [[5], [6]]]
        (Tensor.ofRows [[17], [39]]) (Tensor.ofRows [[1], [1]]) 0 = some gA ∧
      MatrixMultiply.backward [Tensor.ofRows [[1, 2], [3, 4]], Tensor.ofRows [[5], [6]]]
        (Tensor.ofRows [[17], [39]]) (Tensor.ofRows [[1], [1]]) 1 = some gB ∧
      gA.toRows = [[5, 6], [5, 6]] ∧ gB.toRows = [[4], [6]] := by
  obtain ⟨gA, gB, h0, h1, _⟩ := MatrixMultiply.backward_is_adjoint
    (Tensor.ofRows [[(1 : ℤ), 2], [3, 4]]) (Tensor.ofRows [[5], [6]])
    (Tensor.ofRows [[1], [1]]) (Tensor.ofRows [[17], [39]]) rfl rfl rfl
  have e0 : (MatrixMultiply.backward
      [Tensor.ofRows [[(1 : ℤ), 2], [3, 4]], Tensor.ofRows [[5], [6]]]
      (Tensor.ofRows [[17], [39]]) (Tensor.ofRows [[1], [1]]) 0).map Tensor.toRows
      = some [[5, 6], [5, 6]] := by decide
  have e1 : (MatrixMultiply.backward
      [Tensor.ofRows [[(1 : ℤ), 2], [3, 4]], Tensor.ofRows [[5], [6]]]
      (Tensor.ofRows [[17], [39]]) (Tensor.ofRows [[1], [1]]) 1).map Tensor.toRows
      = some [[4], [6]] := by decide
  rw [h0] at e0
  rw [h1] at e1
  simp only [Option.map_some', Option.some.injEq] at e0 e1
  exact ⟨gA, gB, h0, h1, e0, e1⟩

/-- C3: on the 3-row column `[1, 2, 3]` with width 2, `MaxPooling1D.forward`
returns the single row `[2]` (recorded index `[1]`): the output has 3 / 2 = 1 row
rather than 2, and row 2 of the input belongs to no window. -/
theorem MaxPooling1D.forward_drops_partial_window :
    (MaxPooling1D.forward 2 [] [Tensor.colVec [(1 : ℤ), 2, 3]]).map
      (fun p => (p.1.rows, p.1.toRows, p.2)) = some (1, [[2]], [1]) := by
  decide

/-- C4: for a column vector `x` and a width `w ≥ 1`, `MaxPooling1D.forward` succeeds
and, for every output row `i`, window `i` (rows `i * w .. i * w + w - 1`) lies inside
`x`, the recorded index `ind[i]` lies inside window `i`, `x[ind[i]] = fx[i]`, and
`fx[i]` is at least every entry of `x` in window `i`. -/
theorem MaxPooling1D.forward_window_max {R : Type} [LinearOrderedCommRing R]
    (x : Tensor R) (w : Nat) (ind0 : List Nat) (hc : x.cols = 1) (hw : 1 ≤ w) :
    ∃ fx ind, MaxPooling1D.forward w ind0 [x] = some (fx, ind) ∧
      fx.cols = 1 ∧ ind.length = fx.rows ∧
      ∀ i, i < fx.rows → i * w + w ≤ x.rows ∧
        ∃ b, ind[i]? = some b ∧ i * w ≤ b ∧ b ≤ i * w + w - 1 ∧ x.get b 0 = fx.get i 0 ∧
          ∀ r, i * w ≤ r → r ≤ i * w + w - 1 → x.get r 0 ≤ fx.get i 0 := by
  obtain ⟨fx, ind, h, h1, h2, h3, h4⟩ := MaxPooling1D.pool_forward_spec x w ind0 hc hw
  refine ⟨fx, ind, h, h2, by omega, ?_⟩
  intro i hi
  obtain ⟨b, b1, b2, b3, b4, b5, b6⟩ := h4 i (by omega)
  have hwin : i * w + w ≤ x.rows := by
    have h5 : (i + 1) * w ≤ x.rows / w * w := Nat.mul_le_mul_right w (by omega)
    have h6 := Nat.div_mul_le_self x.rows w
    rw [Nat.add_mul, Nat.one_mul] at h5
    omega
  exact ⟨hwin, b, b1, b2, by omega, b5.symm, fun r hr1 hr2 => b6 r hr1 (by omega)⟩

/-- C4, example of the specification: `x = [1, 5, 2, 4]`, `w = 2` gives
`fx = [5, 4]` and `ind = [1, 3]`. -/
theorem MaxPooling1D.forward_window_max_witness :
    (Tensor.colVec [(1 : ℤ), 5, 2, 4]).cols = 1 ∧ 1 ≤ 2 ∧
    ∃ fx ind, MaxPooling1D.forward 2 [] [Tensor.colVec [(1 : ℤ), 5, 2, 4]] = some (fx, ind) ∧
      fx.toRows = [[5], [4]] ∧ ind = [1, 3] ∧
      ∀ i, i < fx.rows → i * 2 + 2 ≤ (Tensor.colVec [(1 : ℤ), 5, 2, 4]).rows ∧
        ∃ b, ind[i]? = some b ∧ i * 2 ≤ b ∧ b ≤ i * 2 + 2 - 1 ∧
          (Tensor.colVec [(1 : ℤ), 5, 2, 4]).get b 0 = fx.get i 0 ∧
          ∀ r, i * 2 ≤ r → r ≤ i * 2 + 2 - 1 →
            (Tensor.colVec [(1 : ℤ), 5, 2, 4]).get r 0 ≤ fx.get i 0 := by
  refine ⟨rfl, by decide, ?_⟩
  obtain ⟨fx, ind, h, _, _, h4⟩ :=
    MaxPooling1D.forward_window_max (Tensor.colVec [(1 : ℤ), 5, 2, 4]) 2 [] rfl (by decide)
  have e : (MaxPooling1D.forward 2 [] [Tensor.colVec [(1 : ℤ), 5, 2, 4]]).map
      (fun p => (p.1.toRows, p.2)) = some ([[5], [4]], [1, 3]) := by decide
  rw [h] at e
  simp only [Option.map_some', Option.some.injEq, Prod.mk.injEq] at e
  exact ⟨fx, ind, h, e.1, e.2, h4⟩

/-- C5: for a column vector `x`, a width `w ≥ 1` and a downstream gradient `g` with
one row per window, `MaxPooling1D.backward` called after `forward` on `x` returns a
column vector with as many rows as `x`, whose entry at the recorded row `ind[i]` is
`g[i]` for every window `i` and whose entry at every row that is not a recorded row
is 0. -/
theorem MaxPooling1D.backward_scatter {R : Type} [LinearOrderedCommRing R]
    (x g : Tensor R) (w : Nat) (ind0 : List Nat) (j : Nat)
    (hc : x.cols = 1) (hw : 1 ≤ w) (hg : g.rows = x.rows / w) (hgc : g.cols = 1) :
    ∃ fx ind dEdx, MaxPooling1D.forward w ind0 [x] = some (fx, ind) ∧
      MaxPooling1D.backward w ind [x] fx g j = some dEdx ∧
      fx.rows = g.rows ∧ ind.length = g.rows ∧
      dEdx.rows = x.rows ∧ dEdx.cols = 1 ∧
      (∀ i, i < g.rows → ∃ b, ind[i]? = some b ∧ dEdx.get b 0 = g.get i 0) ∧
      (∀ r, r < x.rows → r ∉ ind → dEdx.get r 0 = 0) := by
  obtain ⟨fx, ind, h, h1, _, h3, h4⟩ := MaxPooling1D.pool_forward_spec x w ind0 hc hw
  obtain ⟨d, hd, d1, d2, d3, d4⟩ := MaxPooling1D.pool_backward_spec x g fx w ind j hw hg hgc h3
    (fun i hi => by
      obtain ⟨b, b1, b2, b3, b4, _⟩ := h4 i hi
      exact ⟨b, b1, b2, b3, b4⟩)
  exact ⟨fx, ind, d, h, hd, by omega, by omega, d1, d2, by rw [hg]; exact d3, d4⟩

/-- C5, example of the specification: `x = [1, 5, 2, 4]`, `w = 2`, `g = [10, 20]`
gives the input gradient `[0, 10, 0, 20]`. -/
theorem MaxPooling1D.backward_scatter_witness :
    ∃ fx ind dEdx,
      MaxPooling1D.forward 2 [] [Tensor.colVec [(1 : ℤ), 5, 2, 4]] = some (fx, ind) ∧
      MaxPooling1D.backward 2 ind [Tensor.colVec [(1 : ℤ), 5, 2, 4]] fx
        (Tensor.colVec [10, 20]) 0 = some dEdx ∧
      ind = [1, 3] ∧ dEdx.toRows = [[0], [10], [0], [20]] ∧
      (∀ i, i < 2 → ∃ b, ind[i]? = some b ∧
        dEdx.get b 0 = (Tensor.colVec [(10 : ℤ), 20]).get i 0) ∧
      (∀ r, r < 4 → r ∉ ind → dEdx.get r 0 = 0) := by
  obtain ⟨fx, ind, d, h, hd, _, _, _, _, d3, d4⟩ :=
    MaxPooling1D.backward_scatter (Tensor.colVec [(1 : ℤ), 5, 2, 4]) (Tensor.colVec [10, 20])
      2 [] 0 rfl (by decide) (by decide) rfl
  have e : (MaxPooling1D.forward 2 [] [Tensor.colVec [(1 : ℤ), 5, 2, 4]]).map
      (fun p => p.2) = some [1, 3] := by decide
  rw [h] at e
  simp only [Option.map_some', Option.some.injEq] at e
  have e2 : (MaxPooling1D.backward 2 [1, 3] [Tensor.colVec [(1 : ℤ), 5, 2, 4]] fx
      (Tensor.colVec [10, 20]) 0).map Tensor.toRows = some [[0], [10], [0], [20]] := by
    simp only [MaxPooling1D.backward]
    decide
  rw [← e, hd] at e2
  simp only [Option.map_some', Option.some.injEq] at e2
  exact ⟨fx, ind, d, h, hd, e, e2, d3, d4⟩

/-- C6: for a score column vector `x`, a correct index `c < rows(x)`, a margin `m`
and a downstream scalar `d = dEdf(0,0)`, `Hinge.forward` returns the 1 × 1 tensor
holding the sum over `i ≠ c` of `max(0, m - x[c] + x[i])`, and `Hinge.backward`
called after it returns a vector with `rows(x)` rows in which every row `i ≠ c` with
a strictly positive term holds `d`, every other row `i ≠ c` holds 0, and row `c`
holds `-d` times the number of strictly positive terms. The cache `u` is any state
the edge can be in: default-constructed, or left by an earlier `forward`. -/
theorem Hinge.forward_backward_terms {R : Type} [LinearOrderedCommRing R]
    (x u dEdf : Tensor R) (c : Nat) (m : R) (junk : Nat → Nat → R)
    (hc : x.cols = 1) (hcr : c < x.rows) (hu : u.cols = 1 ∨ u.rows = 0)
    (hdr : dEdf.rows = 1) (hdc : dEdf.cols = 1) :
    ∃ fx u' g, Hinge.forward c m junk u [x] = some (fx, u') ∧
      fx.rows = 1 ∧ fx.cols = 1 ∧
      fx.get 0 0 = Finset.sum ((Finset.range x.rows).filter (fun i => i ≠ c))
        (fun i => max 0 (m - x.get c 0 + x.get i 0)) ∧
      Hinge.backward c u' [x] fx dEdf 0 = some g ∧ g.rows = x.rows ∧ g.cols = 1 ∧
      (∀ i, i < x.rows → i ≠ c → 0 < m - x.get c 0 + x.get i 0 →
        g.get i 0 = dEdf.get 0 0) ∧
      (∀ i, i < x.rows → i ≠ c → ¬ 0 < m - x.get c 0 + x.get i 0 → g.get i 0 = 0) ∧
      g.get c 0 = -dEdf.get 0 0 * (((Finset.range x.rows).filter
        (fun i => i ≠ c ∧ 0 < m - x.get c 0 + x.get i 0)).card : R) := by
  obtain ⟨fx, u', hf, f1, f2, f3, f4, f5, f6⟩ := Hinge.hinge_forward_spec x u c m junk hc hcr hu
  have hpos : ∀ i, (0 < max 0 (m - x.get c 0 + x.get i 0)) ↔
      0 < m - x.get c 0 + x.get i 0 := by
    intro i; simp [lt_max_iff]
  have hsum : fx.get 0 0 = Finset.sum ((Finset.range x.rows).filter (fun i => i ≠ c))
      (fun i => max 0 (m - x.get c 0 + x.get i 0)) := by
    rw [f3, Finset.sum_filter]
  by_cases h0 : fx.get 0 0 = 0
  · have hz := Hinge.terms_zero_of_sum_zero x.rows c (fun i => m - x.get c 0 + x.get i 0)
      (by rw [← f3]; exact h0)
    have hnp : ∀ i, i < x.rows → i ≠ c → ¬ 0 < m - x.get c 0 + x.get i 0 := by
      intro i hi hic h
      have := hz i hi hic
      rw [← hpos i] at h
      rw [this] at h
      exact lt_irrefl _ h
    have hempty : (Finset.range x.rows).filter
        (fun i => i ≠ c ∧ 0 < m - x.get c 0 + x.get i 0) = ∅ := by
      apply Finset.filter_eq_empty_iff.mpr
      intro i hi h
      exact hnp i (Finset.mem_range.mp hi) h.1 h.2
    refine ⟨fx, u', Tensor.zero x.rows 1, hf, f1, f2, hsum,
      Hinge.backward_of_zero x u' fx dEdf c ⟨by omega, by omega⟩ h0, rfl, rfl, ?_, ?_, ?_⟩
    · intro i hi hic h
      exact absurd h (hnp i hi hic)
    · intro i hi _ _
      exact Tensor.get_ofFn _ hi (by omega)
    · rw [hempty]
      simp [Tensor.zero, Tensor.get_ofFn _ hcr (show 0 < 1 by omega)]
  · obtain ⟨g, hg, g1, g2, g3, g4, g5⟩ := Hinge.hinge_backward_loop_spec x u' fx dEdf c
      (fun i => max 0 (m - x.get c 0 + x.get i 0)) hcr f4 f5 f6 ⟨by omega, by omega⟩ h0
      ⟨by omega, by omega⟩
    refine ⟨fx, u', g, hf, f1, f2, hsum, hg, g1, g2, ?_, ?_, ?_⟩
    · intro i hi hic h
      exact g3 i hi hic ((hpos i).mpr h)
    · intro i hi hic h
      exact g4 i hi hic (fun h' => h ((hpos i).mp h'))
    · rw [g5]
      congr 3
      apply Finset.filter_congr
      intro i _
      rw [hpos i]

/-- C6, on the scores `[2, 1, 3]` with correct index 0, margin 1 and downstream
scalar 10: the forward total is `max(0, 1 - 2 + 1) + max(0, 1 - 2 + 3) = 2` and the
gradient is `[-10, 0, 10]`. -/
theorem Hinge.forward_backward_terms_witness :
    ∃ fx u' g, Hinge.forward 0 (1 : ℤ) (fun _ _ => 7) (Tensor.zero 0 0)
        [Tensor.colVec [2, 1, 3]] = some (fx, u') ∧
      fx.toRows = [[2]] ∧
      Hinge.backward 0 u' [Tensor.colVec [2, 1, 3]] fx (Tensor.colVec [10]) 0 = some g ∧
      g.rows = 3 ∧ g.cols = 1 ∧ g.get 0 0 = -10 ∧ g.get 1 0 = 0 ∧ g.get 2 0 = 10 := by
  obtain ⟨fx, u', g, hf, _, _, _, hg, g1, g2, g3, g4, g5⟩ :=
    Hinge.forward_backward_terms (Tensor.colVec [(2 : ℤ), 1, 3]) (Tensor.zero 0 0)
      (Tensor.colVec [10]) 0 1 (fun _ _ => 7) rfl (by decide) (Or.inr rfl) rfl rfl
  have e : (Hinge.forward 0 (1 : ℤ) (fun _ _ => 7) (Tensor.zero 0 0)
      [Tensor.colVec [2, 1, 3]]).map (fun p => p.1.toRows) = some [[2]] := by decide
  rw [hf] at e
  simp only [Option.map_some', Option.some.injEq] at e
  have hcard : ((Finset.range (Tensor.colVec [(2 : ℤ), 1, 3]).rows).filter
      (fun i => i ≠ 0 ∧ 0 < (1 : ℤ) - (Tensor.colVec [(2 : ℤ), 1, 3]).get 0 0
        + (Tensor.colVec [(2 : ℤ), 1, 3]).get i 0)).card = 1 := by decide
  refine ⟨fx, u', g, hf, e, hg, g1, g2, ?_, ?_, ?_⟩
  · rw [g5, hcard]; decide
  · exact g4 1 (by decide) (by decide) (by decide)
  · rw [g3 2 (by decide) (by decide) (by decide)]; decide

/-- C7: for a score column vector `x`, a correct index `c` of `x` and a margin `m`
with `x[c] - x[i] ≥ m` for every `i ≠ c`, `Hinge.forward` returns the 1 × 1 tensor
holding exactly 0 and `Hinge.backward` returns the all-zero vector for every
downstream gradient. -/
theorem Hinge.zero_when_margin_met {R : Type} [LinearOrderedCommRing R]
    (x u : Tensor R) (c : Nat) (m : R) (junk : Nat → Nat → R)
    (hc : x.cols = 1) (hcr : c < x.rows) (hu : u.cols = 1 ∨ u.rows = 0)
    (hm : ∀ i, i < x.rows → i ≠ c → x.get c 0 - x.get i 0 ≥ m) :
    ∃ fx u', Hinge.forward c m junk u [x] = some (fx, u') ∧
      fx.rows = 1 ∧ fx.cols = 1 ∧ fx.get 0 0 = 0 ∧
      ∀ dEdf : Tensor R, Hinge.backward c u' [x] fx dEdf 0 = some (Tensor.zero x.rows 1) := by
  obtain ⟨fx, u', hf, f1, f2, f3, _⟩ := Hinge.hinge_forward_spec x u c m junk hc hcr hu
  have h0 : fx.get 0 0 = 0 := by
    rw [f3]
    apply Finset.sum_eq_zero
    intro i hi
    by_cases hic : i ≠ c
    · rw [if_pos hic]
      have := hm i (Finset.mem_range.mp hi) hic
      apply max_eq_left
      linarith
    · rw [if_neg hic]
  exact ⟨fx, u', hf, f1, f2, h0,
    fun dEdf => Hinge.backward_of_zero x u' fx dEdf c ⟨by omega, by omega⟩ h0⟩

/-- C7, example of the specification: scores `[2, 1, 3]`, correct index 2, margin 1
give the forward total 0 and the all-zero gradient. -/
theorem Hinge.zero_when_margin_met_witness :
    (∀ i, i < 3 → i ≠ 2 →
      (Tensor.colVec [(2 : ℤ), 1, 3]).get 2 0 - (Tensor.colVec [(2 : ℤ), 1, 3]).get i 0 ≥ 1) ∧
    ∃ fx u', Hinge.forward 2 (1 : ℤ) (fun _ _ => 7) (Tensor.zero 0 0)
        [Tensor.colVec [2, 1, 3]] = some (fx, u') ∧
      fx.toRows = [[0]] ∧
      ∀ dEdf : Tensor ℤ, (Hinge.backward 2 u' [Tensor.colVec [2, 1, 3]] fx dEdf 0).map
        Tensor.toRows = some [[0], [0], [0]] := by
  have hm : ∀ i, i < 3 → i ≠ 2 →
      (Tensor.colVec [(2 : ℤ), 1, 3]).get 2 0 - (Tensor.colVec [(2 : ℤ), 1, 3]).get i 0 ≥ 1 := by
    decide
  obtain ⟨fx, u', hf, _, _, _, hb⟩ :=
    Hinge.zero_when_margin_met (Tensor.colVec [(2 : ℤ), 1, 3]) (Tensor.zero 0 0) 2 1
      (fun _ _ => 7) rfl (by decide) (Or.inr rfl) hm
  have e : (Hinge.forward 2 (1 : ℤ) (fun _ _ => 7) (Tensor.zero 0 0)
      [Tensor.colVec [2, 1, 3]]).map (fun p => p.1.toRows) = some [[0]] := by decide
  rw [hf] at e
  simp only [Option.map_some', Option.some.injEq] at e
  refine ⟨hm, fx, u', hf, e, fun dEdf => ?_⟩
  rw [hb dEdf]
  decide

/-- C8: for a non-empty list `xs` of column vectors, `Concatenate.forward` returns a
column vector whose row count is the sum of the inputs' row counts, records for input
`k` the offset `rows(xs[0]) + ... + rows(xs[k-1])`, and for every `i < length(xs)`
`Concatenate.backward`, called with the forward output as downstream gradient,
passes its assertions and returns exactly `xs[i]`. -/
theorem Concatenate.forward_backward_roundtrip {R : Type} [LinearOrderedCommRing R]
    (xs : List (Tensor R)) (junk : Nat → Nat → R) (src0 : List Nat)
    (hne : xs ≠ []) (hcols : ∀ x ∈ xs, x.cols = 1) :
    ∃ fx src, Concatenate.forward junk src0 xs = some (fx, src) ∧
      fx.cols = 1 ∧ fx.rows = (xs.map Tensor.rows).sum ∧ src.length = xs.length ∧
      (∀ k, k < xs.length → src[k]? = some (Concatenate.offset xs k)) ∧
      ∀ i (hi : i < xs.length), Concatenate.backward src xs fx fx i = some xs[i] := by
  obtain ⟨fx, src, hf, f1, f2, f3, f4, f5⟩ :=
    Concatenate.concat_forward_spec xs junk src0 hne hcols
  refine ⟨fx, src, hf, f2, f1, f3, f4, ?_⟩
  intro i hi
  have hy : xs[i]? = some xs[i] := List.getElem?_eq_getElem hi
  have hoff := Concatenate.offset_succ xs i xs[i] hy
  have htot := Concatenate.offset_le_total xs (i + 1)
  refine Concatenate.concat_backward_spec xs src fx fx xs[i] i (Concatenate.offset xs i) hy
    (hcols _ (List.getElem_mem hi)) (f4 i hi) (by omega) (by omega) ?_
  intro a ha
  rw [Nat.add_comm]
  exact f5 i xs[i] hy a ha

/-- C8, on the inputs `[2, 1]` and `[3]`: the output is `[2, 1, 3]`, the recorded
offsets are `[0, 2]`. -/
theorem Concatenate.forward_backward_roundtrip_witness :
    ∃ fx src, Concatenate.forward (fun _ _ => 7) []
        [Tensor.colVec [(2 : ℤ), 1], Tensor.colVec [3]] = some (fx, src) ∧
      fx.toRows = [[2], [1], [3]] ∧ src = [0, 2] ∧
      Concatenate.backward src [Tensor.colVec [(2 : ℤ), 1], Tensor.colVec [3]] fx fx 0
        = some (Tensor.colVec [2, 1]) ∧
      Concatenate.backward src [Tensor.colVec [(2 : ℤ), 1], Tensor.colVec [3]] fx fx 1
        = some (Tensor.colVec [3]) := by
  obtain ⟨fx, src, hf, _, _, _, _, hb⟩ :=
    Concatenate.forward_backward_roundtrip [Tensor.colVec [(2 : ℤ), 1], Tensor.colVec [3]]
      (fun _ _ => 7) [] (by simp) (by
        intro x hx
        simp only [List.mem_cons, List.mem_singleton, List.not_mem_nil, or_false] at hx
        rcases hx with h | h <;> subst h <;> rfl)
  have e : (Concatenate.forward (fun _ _ => 7) []
      [Tensor.colVec [(2 : ℤ), 1], Tensor.colVec [3]]).map (fun p => (p.1.toRows, p.2))
      = some ([[2], [1], [3]], [0, 2]) := by decide
  rw [hf] at e
  simp only [Option.map_some', Option.some.injEq, Prod.mk.injEq] at e
  exact ⟨fx, src, hf, e.1, e.2, hb 0 (by decide), hb 1 (by decide)⟩

/-- C9: for a non-empty list `xs`, (a) if all inputs are column vectors with `r` rows,
`ConcatenateColumns.forward` returns an `r × length(xs)` matrix whose column `i` is
`xs[i]`, and `ConcatenateColumns.backward` with the forward output as downstream
gradient returns exactly `xs[i]` for every `i < length(xs)`; (b) `forward` fails when
some input's row count differs from the first input's. -/
theorem ConcatenateColumns.forward_backward_columns {R : Type} [LinearOrderedCommRing R]
    (xs : List (Tensor R)) (junk : Nat → Nat → R) (hne : xs ≠ []) :
    (∀ r, (∀ x ∈ xs, x.cols = 1 ∧ x.rows = r) →
      ∃ fx, ConcatenateColumns.forward junk xs = some fx ∧
        fx.rows = r ∧ fx.cols = xs.length ∧
        (∀ i (hi : i < xs.length), ∀ j, j < r → fx.get j i = xs[i].get j 0) ∧
        ∀ i (hi : i < xs.length), ConcatenateColumns.backward xs fx fx i = some xs[i]) ∧
    ((∃ x ∈ xs, x.rows ≠ (xs.head hne).rows) →
      ConcatenateColumns.forward junk xs = none) := by
  constructor
  · intro r hxs
    obtain ⟨fx, hf, f1, f2, f3⟩ := ConcatenateColumns.columns_forward_spec xs junk r hne hxs
    refine ⟨fx, hf, f1, f2,
      fun i hi j hj => f3 i xs[i] (List.getElem?_eq_getElem hi) j hj, ?_⟩
    intro i hi
    have hy : xs[i]? = some xs[i] := List.getElem?_eq_getElem hi
    obtain ⟨hyc, hyr⟩ := hxs xs[i] (List.getElem_mem hi)
    simp only [ConcatenateColumns.backward, check_eq_some (show i < fx.cols by omega),
      Option.bind_eq_bind, Option.some_bind, Tensor.col?]
    rw [if_pos (by omega)]
    congr 1
    apply Tensor.eq_of_get (by simp; omega) (by simp; omega)
    intro a b ha hb
    simp only [Tensor.ofFn_rows, Tensor.ofFn_cols] at ha hb
    have hb0 : b = 0 := by omega
    subst hb0
    rw [Tensor.get_ofFn _ ha (by omega)]
    exact f3 i xs[i] hy a (by omega)
  · rintro ⟨x, hx, hrows⟩
    exact ConcatenateColumns.columns_forward_fail xs junk (xs.head hne) x
      (List.head?_eq_head hne) hx hrows

/-- C9, on the inputs `[2, 1]` and `[3, 4]`: the output is `[[2, 3], [1, 4]]`; on the
inputs `[2, 1]` and `[3]`, `forward` fails. -/
theorem ConcatenateColumns.forward_backward_columns_witness :
    (∃ fx, ConcatenateColumns.forward (fun _ _ => 7)
        [Tensor.colVec [(2 : ℤ), 1], Tensor.colVec [3, 4]] = some fx ∧
      fx.toRows = [[2, 3], [1, 4]] ∧
      ConcatenateColumns.backward [Tensor.colVec [(2 : ℤ), 1], Tensor.colVec [3, 4]] fx fx 0
        = some (Tensor.colVec [2, 1]) ∧
      ConcatenateColumns.backward [Tensor.colVec [(2 : ℤ), 1], Tensor.colVec [3, 4]] fx fx 1
        = some (Tensor.colVec [3, 4])) ∧
    ConcatenateColumns.forward (fun _ _ => 7)
      [Tensor.colVec [(2 : ℤ), 1], Tensor.colVec [3]] = none := by
  constructor
  · obtain ⟨fx, hf, _, _, _, hb⟩ :=
      (ConcatenateColumns.forward_backward_columns
        [Tensor.colVec [(2 : ℤ), 1], Tensor.colVec [3, 4]] (fun _ _ => 7) (by simp)).1 2 (by
          intro x hx
          simp only [List.mem_cons, List.mem_singleton, List.not_mem_nil, or_false] at hx
          rcases hx with h | h <;> subst h <;> exact ⟨rfl, rfl⟩)
    have e : (ConcatenateColumns.forward (fun _ _ => 7)
        [Tensor.colVec [(2 : ℤ), 1], Tensor.colVec [3, 4]]).map Tensor.toRows
        = some [[2, 3], [1, 4]] := by decide
    rw [hf] at e
    simp only [Option.map_some', Option.some.injEq] at e
    exact ⟨fx, hf, e, hb 0 (by decide), hb 1 (by decide)⟩
  · exact (ConcatenateColumns.forward_backward_columns
      [Tensor.colVec [(2 : ℤ), 1], Tensor.colVec [3]] (fun _ _ => 7) (by simp)).2
      ⟨Tensor.colVec [3], by simp, by decide⟩

/-- C10: for a matrix `x` with `r` rows and `c` columns and a window width `n ≥ 1`,
(a) if `n ≤ c`, `KMHNGram.forward` returns an `r × (c - n + 1)` matrix whose column
`j` is the sum of the columns `j, j + 1, ..., j + n - 1` of `x`; (b) if `n > c`,
`KMHNGram.forward` fails. -/
theorem KMHNGram.forward_window_sums {R : Type} [LinearOrderedCommRing R]
    (x : Tensor R) (n : Nat) (_hn : 1 ≤ n) :
    (n ≤ x.cols →
      ∃ res, KMHNGram.forward n [x] = some res ∧
        res.rows = x.rows ∧ res.cols = x.cols - n + 1 ∧
        ∀ i j, i < x.rows → j < x.cols - n + 1 →
          res.get i j = Finset.sum (Finset.range n) (fun k => x.get i (j + k))) ∧
    (x.cols < n → KMHNGram.forward n [x] = none) :=
  ⟨fun hnc => KMHNGram.ngram_forward_spec x n hnc,
    fun h => KMHNGram.ngram_forward_fail x n h⟩

/-- C10, on `x = [[1, 2, 3], [4, 5, 6]]`: width 2 gives `[[3, 5], [9, 11]]`, width 4
fails. -/
theorem KMHNGram.forward_window_sums_witness :
    (∃ res, KMHNGram.forward 2 [Tensor.ofRows [[(1 : ℤ), 2, 3], [4, 5, 6]]] = some res ∧
      res.rows = 2 ∧ res.cols = 2 ∧ res.toRows = [[3, 5], [9, 11]]) ∧
    KMHNGram.forward 4 [Tensor.ofRows [[(1 : ℤ), 2, 3], [4, 5, 6]]] = none := by
  constructor
  · obtain ⟨res, hr, r1, r2, _⟩ :=
      (KMHNGram.forward_window_sums (Tensor.ofRows [[(1 : ℤ), 2, 3], [4, 5, 6]]) 2
        (by decide)).1 (by decide)
    have e : (KMHNGram.forward 2 [Tensor.ofRows [[(1 : ℤ), 2, 3], [4, 5, 6]]]).map
        Tensor.toRows = some [[3, 5], [9, 11]] := by decide
    rw [hr] at e
    simp only [Option.map_some', Option.some.injEq] at e
    exact ⟨res, hr, r1, r2, e⟩
  · exact (KMHNGram.forward_window_sums (Tensor.ofRows [[(1 : ℤ), 2, 3], [4, 5, 6]]) 4
      (by decide)).2 (by decide)

/-! ## KMHNGram, backward pass -/

section KMHNGramBackward

variable {R : Type} [LinearOrderedCommRing R]

/-- The inner loop of `KMHNGram.backward` adds column `j` of `dEdf` to the columns
`j .. j + n - 1` of `dEdx` and leaves the other columns alone. -/
theorem KMHNGram.scatter_spec (dEdf t : Tensor R) (n j : Nat) (hr : dEdf.rows = t.rows)
    (hj : j < dEdf.cols) (hfit : j + n ≤ t.cols) :
    ∃ t', forLoop (fun k (dEdx : Tensor R) => do
        let g ← dEdf.col? j
        dEdx.addCol? (j + k) g) 0 n t = some t' ∧
      t'.rows = t.rows ∧ t'.cols = t.cols ∧
      ∀ a m, a < t.rows → m < t.cols →
        t'.get a m = t.get a m + if j ≤ m ∧ m < j + n then dEdf.get a j else 0 := by
  have key := forLoop_inv
    (fun k (u : Tensor R) => u.rows = t.rows ∧ u.cols = t.cols ∧
      ∀ a m, a < t.rows → m < t.cols →
        u.get a m = t.get a m + if j ≤ m ∧ m < j + k then dEdf.get a j else 0)
    (fun k (dEdx : Tensor R) => do
      let g ← dEdf.col? j
      dEdx.addCol? (j + k) g) n 0 t
    (by
      refine ⟨rfl, rfl, ?_⟩
      intro a m _ _
      rw [if_neg (by omega), add_zero])
    (by
      intro k u _ hk hu
      obtain ⟨u1, u2, u3⟩ := hu
      beta_reduce
      have hcol : dEdf.col? j = some (Tensor.ofFn dEdf.rows 1 (fun a _ => dEdf.get a j)) := by
        simp only [Tensor.col?]
        rw [if_pos hj]
      rw [hcol]
      simp only [Option.bind_eq_bind, Option.some_bind, Tensor.addCol?, Tensor.ofFn_rows,
        Tensor.ofFn_cols]
      rw [if_pos ⟨by omega, by omega, trivial⟩]
      refine ⟨_, rfl, u1, u2, ?_⟩
      intro a m ha hm
      rw [Tensor.get_ofFn _ (by omega) (by omega)]
      by_cases hmk : m = j + k
      · rw [if_pos hmk, u3 a m ha hm, if_neg (by omega), add_zero,
          Tensor.get_ofFn _ (by omega) (by omega), if_pos (by omega)]
      · rw [if_neg hmk, u3 a m ha hm]
        by_cases hin : j ≤ m ∧ m < j + k
        · rw [if_pos hin, if_pos (by omega)]
        · rw [if_neg hin, if_neg (by omega)])
  obtain ⟨u, hu, u1, u2, u3⟩ := key
  exact ⟨u, hu, u1, u2, by simpa using u3⟩

/-- What `KMHNGram.backward` computes for a downstream gradient with
`cols(x) - n + 1` columns. -/
theorem KMHNGram.ngram_backward_spec (x g fx : Tensor R) (n i : Nat) (hnc : n ≤ x.cols)
    (hgr : g.rows = x.rows) (hgc : g.cols = x.cols - n + 1) :
    ∃ dEdx, KMHNGram.backward n [x] fx g i = some dEdx ∧
      dEdx.rows = x.rows ∧ dEdx.cols = x.cols ∧
      ∀ a m, a < x.rows → m < x.cols →
        dEdx.get a m = Finset.sum (Finset.range (x.cols - n + 1))
          (fun j => if j ≤ m ∧ m < j + n then g.get a j else 0) := by
  have key := forLoop_inv
    (fun j (t : Tensor R) => t.rows = x.rows ∧ t.cols = x.cols ∧
      ∀ a m, a < x.rows → m < x.cols →
        t.get a m = Finset.sum (Finset.range j)
          (fun j => if j ≤ m ∧ m < j + n then g.get a j else 0))
    (fun j (dEdx : Tensor R) =>
      forLoop (fun k (dEdx : Tensor R) => do
        let c ← g.col? j
        dEdx.addCol? (j + k) c) 0 n dEdx) g.cols 0 (Tensor.zero x.rows x.cols)
    (by
      refine ⟨rfl, rfl, ?_⟩
      intro a m ha hm
      rw [Finset.sum_range_zero]
      exact Tensor.get_ofFn _ ha hm)
    (by
      intro j t _ hj ht
      obtain ⟨t1, t2, t3⟩ := ht
      obtain ⟨t', ht', u1, u2, u3⟩ := KMHNGram.scatter_spec g t n j (by omega) (by omega)
        (by omega)
      refine ⟨t', ht', by omega, by omega, ?_⟩
      intro a m ha hm
      rw [u3 a m (by omega) (by omega), t3 a m ha hm, Finset.sum_range_succ])
  obtain ⟨t, ht, t1, t2, t3⟩ := key
  refine ⟨t, ?_, t1, t2, ?_⟩
  · simp only [KMHNGram.backward, List.head?_cons, Option.bind_eq_bind, Option.some_bind]
      at ht ⊢
    exact ht
  · intro a m ha hm
    rw [t3 a m ha hm, Nat.zero_add, hgc]

/-- Summing `F` over the window `j .. j + n - 1` inside `0 .. c - 1`. -/
theorem KMHNGram.window_sum (F : Nat → R) (c j : Nat) :
    ∀ n, j + n ≤ c →
      Finset.sum (Finset.range c) (fun m => if j ≤ m ∧ m < j + n then F m else 0)
        = Finset.sum (Finset.range n) (fun k => F (j + k)) := by
  intro n
  induction n with
  | zero =>
    intro _
    rw [Finset.sum_range_zero]
    apply Finset.sum_eq_zero
    intro m _
    rw [if_neg (by omega)]
  | succ n ih =>
    intro h
    rw [Finset.sum_range_succ, ← ih (by omega)]
    have hsplit : ∀ m ∈ Finset.range c,
        (if j ≤ m ∧ m < j + (n + 1) then F m else 0)
        = (if j ≤ m ∧ m < j + n then F m else 0) + (if m = j + n then F m else 0) := by
      intro m _
      by_cases h1 : j ≤ m ∧ m < j + n
      · rw [if_pos h1, if_pos (by omega), if_neg (by omega), add_zero]
      · by_cases h2 : m = j + n
        · rw [if_neg h1, if_pos (by omega), if_pos h2, zero_add]
        · rw [if_neg h1, if_neg (by omega), if_neg h2, add_zero]
    rw [Finset.sum_congr rfl hsplit, Finset.sum_add_distrib]
    congr 1
    rw [Finset.sum_eq_single (j + n)]
    · rw [if_pos rfl]
    · intro m _ hm
      rw [if_neg hm]
    · intro hmem
      exact absurd (Finset.mem_range.mpr (by omega)) hmem

/-- The adjoint identity of the sliding-window sum on coefficient functions. -/
theorem KMHNGram.adjoint_row (X G : Nat → R) (c n : Nat) (hnc : n ≤ c) :
    Finset.sum (Finset.range (c - n + 1)) (fun j =>
        Finset.sum (Finset.range n) (fun k => X (j + k)) * G j)
    = Finset.sum (Finset.range c) (fun m =>
        X m * Finset.sum (Finset.range (c - n + 1))
          (fun j => if j ≤ m ∧ m < j + n then G j else 0)) := by
  have hR : ∀ m ∈ Finset.range c,
      X m * Finset.sum (Finset.range (c - n + 1))
        (fun j => if j ≤ m ∧ m < j + n then G j else 0)
      = Finset.sum (Finset.range (c - n + 1))
        (fun j => if j ≤ m ∧ m < j + n then X m * G j else 0) := by
    intro m _
    rw [Finset.mul_sum]
    refine Finset.sum_congr rfl (fun j _ => ?_)
    by_cases h : j ≤ m ∧ m < j + n
    · rw [if_pos h, if_pos h]
    · rw [if_neg h, if_neg h, mul_zero]
  rw [Finset.sum_congr rfl hR, Finset.sum_comm]
  refine Finset.sum_congr rfl (fun j hj => ?_)
  have hj' : j + n ≤ c := by
    have := Finset.mem_range.mp hj
    omega
  rw [← KMHNGram.window_sum X c j n hj', Finset.sum_mul]
  refine Finset.sum_congr rfl (fun m _ => ?_)
  by_cases h : j ≤ m ∧ m < j + n
  · rw [if_pos h, if_pos h]
  · rw [if_neg h, if_neg h, zero_mul]

end KMHNGramBackward

/-- C11: for a matrix `x` (r × c), a width `1 ≤ n ≤ c` and a downstream gradient `g`
of shape `r × (c - n + 1)`, `KMHNGram.backward` succeeds (every column it writes is
in range) and returns an `r × c` matrix whose column `m` is the sum of the columns
`g.col(j)` over all `j` with `0 ≤ j ≤ c - n` and `j ≤ m ≤ j + n - 1`; it is the adjoint
of `forward`: `⟨forward(x), g⟩ = ⟨x, backward(g)⟩`. -/
theorem KMHNGram.ngram_backward_adjoint {R : Type} [LinearOrderedCommRing R]
    (x g fx0 : Tensor R) (n i : Nat) (hn : 1 ≤ n) (hnc : n ≤ x.cols)
    (hgr : g.rows = x.rows) (hgc : g.cols = x.cols - n + 1) :
    ∃ fx dEdx, KMHNGram.forward n [x] = some fx ∧
      KMHNGram.backward n [x] fx0 g i = some dEdx ∧
      dEdx.rows = x.rows ∧ dEdx.cols = x.cols ∧
      (∀ a m, a < x.rows → m < x.cols →
        dEdx.get a m = Finset.sum
          ((Finset.range (x.cols - n + 1)).filter (fun j => j ≤ m ∧ m ≤ j + n - 1))
          (fun j => g.get a j)) ∧
      Tensor.inner fx g = Tensor.inner x dEdx := by
  obtain ⟨fx, hf, f1, f2, f3⟩ := KMHNGram.ngram_forward_spec x n hnc
  obtain ⟨d, hd, d1, d2, d3⟩ := KMHNGram.ngram_backward_spec x g fx0 n i hnc hgr hgc
  refine ⟨fx, d, hf, hd, d1, d2, ?_, ?_⟩
  · intro a m ha hm
    rw [d3 a m ha hm, Finset.sum_filter]
    refine Finset.sum_congr rfl (fun j _ => ?_)
    have hiff : (j ≤ m ∧ m < j + n) ↔ (j ≤ m ∧ m ≤ j + n - 1) := by omega
    by_cases h : j ≤ m ∧ m < j + n
    · rw [if_pos h, if_pos (hiff.mp h)]
    · rw [if_neg h, if_neg (fun h' => h (hiff.mpr h'))]
  · unfold Tensor.inner
    rw [f1, f2]
    refine Finset.sum_congr rfl (fun a ha => ?_)
    have ha' := Finset.mem_range.mp ha
    have e1 : ∀ j ∈ Finset.range (x.cols - n + 1),
        fx.get a j * g.get a j
        = Finset.sum (Finset.range n) (fun k => x.get a (j + k)) * g.get a j := by
      intro j hj
      rw [f3 a j ha' (Finset.mem_range.mp hj)]
    have e2 : ∀ m ∈ Finset.range x.cols,
        x.get a m * d.get a m
        = x.get a m * Finset.sum (Finset.range (x.cols - n + 1))
          (fun j => if j ≤ m ∧ m < j + n then g.get a j else 0) := by
      intro m hm
      rw [d3 a m ha' (Finset.mem_range.mp hm)]
    rw [Finset.sum_congr rfl e1, Finset.sum_congr rfl e2]
    exact KMHNGram.adjoint_row (fun m => x.get a m) (fun j => g.get a j) x.cols n hnc

/-- C11, on `x = [[1, 2, 3], [4, 5, 6]]`, `n = 2`, `g = [[1, 10], [100, 1000]]`: the
input gradient is `[[1, 11, 10], [100, 1100, 1000]]`. -/
theorem KMHNGram.ngram_backward_adjoint_witness :
    ∃ fx dEdx, KMHNGram.forward 2 [Tensor.ofRows [[(1 : ℤ), 2, 3], [4, 5, 6]]] = some fx ∧
      KMHNGram.backward 2 [Tensor.ofRows [[(1 : ℤ), 2, 3], [4, 5, 6]]]
        (Tensor.ofRows [[3, 5], [9, 11]]) (Tensor.ofRows [[1, 10], [100, 1000]]) 0
        = some dEdx ∧
      dEdx.toRows = [[1, 11, 10], [100, 1100, 1000]] ∧
      Tensor.inner fx (Tensor.ofRows [[1, 10], [100, 1000]])
        = Tensor.inner (Tensor.ofRows [[(1 : ℤ), 2, 3], [4, 5, 6]]) dEdx := by
  obtain ⟨fx, d, hf, hd, _, _, _, hadj⟩ :=
    KMHNGram.ngram_backward_adjoint (Tensor.ofRows [[(1 : ℤ), 2, 3], [4, 5, 6]])
      (Tensor.ofRows [[1, 10], [100, 1000]]) (Tensor.ofRows [[3, 5], [9, 11]]) 2 0
      (by decide) (by decide) rfl rfl
  have e : (KMHNGram.backward 2 [Tensor.ofRows [[(1 : ℤ), 2, 3], [4, 5, 6]]]
      (Tensor.ofRows [[3, 5], [9, 11]]) (Tensor.ofRows [[1, 10], [100, 1000]]) 0).map
      Tensor.toRows = some [[1, 11, 10], [100, 1100, 1000]] := by decide
  rw [hd] at e
  simp only [Option.map_some', Option.some.injEq] at e
  exact ⟨fx, d, hf, hd, e, hadj⟩

/-! ## Reshape -/

/-- C12, counterexample: with `from = (2, 3)` and `to = (2, 2)`, `Reshape.forward`
accepts a 2 × 3 input (6 coefficients) and returns a 2 × 2 tensor, although the
element count of `to` (4) differs from that of the input. -/
theorem Reshape.forward_target_count_unchecked :
    Dim.size ⟨[2, 2]⟩ ≠ (Tensor.ofRows [[(1 : ℤ), 2, 3], [4, 5, 6]]).rows *
        (Tensor.ofRows [[(1 : ℤ), 2, 3], [4, 5, 6]]).cols ∧
    (Reshape.forward ⟨[2, 3]⟩ ⟨[2, 2]⟩ (fun _ _ => 7)
        [Tensor.ofRows [[(1 : ℤ), 2, 3], [4, 5, 6]]]).map (fun t => (t.rows, t.cols))
      = some (2, 2) := by
  decide

/-- C12, amended: `Reshape.forward` compares the element count of its input with that
of the configured source shape `from`: it fails whenever they differ and returns a
tensor of shape `(to.size(0), to.size(1))` when they are equal. It makes no comparison
with `to`; for an edge whose `from` and `to` have the same element count, it therefore
fails whenever the element count of `to` differs from that of the input. -/
theorem Reshape.forward_checks_source_count {R : Type} [LinearOrderedCommRing R]
    (src dst : Dim) (junk : Nat → Nat → R) (x : Tensor R) :
    (x.rows * x.cols = src.size →
      ∃ fx, Reshape.forward src dst junk [x] = some fx ∧
        fx.rows = dst.axis 0 ∧ fx.cols = dst.axis 1) ∧
    (x.rows * x.cols ≠ src.size → Reshape.forward src dst junk [x] = none) ∧
    (src.size = dst.size → dst.size ≠ x.rows * x.cols →
      Reshape.forward src dst junk [x] = none) := by
  have hfail : x.rows * x.cols ≠ src.size → Reshape.forward src dst junk [x] = none := by
    intro h
    simp only [Reshape.forward, List.length_singleton, check_eq_some, List.head?_cons,
      check_eq_none h, Option.bind_eq_bind, Option.some_bind, Option.none_bind]
  refine ⟨?_, hfail, ?_⟩
  · intro h
    refine ⟨x.resize (dst.axis 0) (dst.axis 1) junk, ?_, ?_, ?_⟩
    · simp only [Reshape.forward, List.length_singleton, check_eq_some, List.head?_cons,
        check_eq_some h, Option.bind_eq_bind, Option.some_bind, Option.pure_def]
    · unfold Tensor.resize; split <;> rfl
    · unfold Tensor.resize; split <;> rfl
  · intro h1 h2
    exact hfail (fun h => h2 (by rw [← h1, h]))

/-- C12, on a 2 × 3 input: with `from = (2, 3)`, `to = (3, 2)` the result is 3 × 2; with
`from = (2, 2)`, `to = (2, 2)` forward fails. -/
theorem Reshape.forward_checks_source_count_witness :
    (∃ fx, Reshape.forward ⟨[2, 3]⟩ ⟨[3, 2]⟩ (fun _ _ => 7)
        [Tensor.ofRows [[(1 : ℤ), 2, 3], [4, 5, 6]]] = some fx ∧
      fx.rows = 3 ∧ fx.cols = 2) ∧
    Reshape.forward ⟨[2, 2]⟩ ⟨[2, 2]⟩ (fun _ _ => 7)
      [Tensor.ofRows [[(1 : ℤ), 2, 3], [4, 5, 6]]] = none :=
  ⟨(Reshape.forward_checks_source_count ⟨[2, 3]⟩ ⟨[3, 2]⟩ (fun _ _ => 7)
      (Tensor.ofRows [[(1 : ℤ), 2, 3], [4, 5, 6]])).1 (by decide),
    (Reshape.forward_checks_source_count ⟨[2, 2]⟩ ⟨[2, 2]⟩ (fun _ _ => 7)
      (Tensor.ofRows [[(1 : ℤ), 2, 3], [4, 5, 6]])).2.1 (by decide)⟩

/-! ## RestrictedLogSoftmax -/

section RestrictedLogSoftmax

variable {R : Type} [LinearOrderedCommRing R]

/-- A `forEach` whose body succeeds on every element of the list succeeds. -/
theorem forEach_isSome {α σ : Type} (body : α → σ → Option σ) :
    ∀ (xs : List α) (s : σ), (∀ x ∈ xs, ∀ t, ∃ t', body x t = some t') →
      ∃ s', forEach body xs s = some s' := by
  intro xs
  induction xs with
  | nil => intro s _; exact ⟨s, rfl⟩
  | cons y ys ih =>
    intro s h
    obtain ⟨t, ht⟩ := h y (List.mem_cons_self y ys) s
    obtain ⟨s', hs'⟩ := ih t (fun x hx => h x (List.mem_cons_of_mem y hx))
    exact ⟨s', by simp [forEach, ht, hs']⟩

/-- On in-range indices `logsumexp` returns a value. -/
theorem logsumexp_isSome (expf logf : R → R) (x : Tensor R) (denom : List Nat)
    (hc : x.cols = 1) (hne : denom ≠ []) (hin : ∀ i ∈ denom, i < x.rows) :
    ∃ v, logsumexp expf logf x denom = some v := by
  obtain ⟨d0, ds, hd⟩ : ∃ d0 ds, denom = d0 :: ds := by
    cases denom with
    | nil => exact absurd rfl hne
    | cons a l => exact ⟨a, l, rfl⟩
  have hd0 : d0 < x.rows := hin d0 (by rw [hd]; exact List.mem_cons_self d0 ds)
  obtain ⟨m, hm⟩ := forEach_isSome
    (fun i (m : R) => do
      let r ← x.get? i 0
      if r > m then pure r else pure m) denom (x.get d0 0)
    (by
      intro i hi t
      beta_reduce
      rw [Tensor.get?_eq_some x (hin i hi) (by omega)]
      by_cases h : x.get i 0 > t
      · exact ⟨x.get i 0, by simp [h]⟩
      · exact ⟨t, by simp [h]⟩)
  obtain ⟨z, hz⟩ := forEach_isSome
    (fun i (z : R) => do
      let xi ← x.get? i 0
      pure (z + expf (xi - m))) denom 0
    (by
      intro i hi t
      beta_reduce
      rw [Tensor.get?_eq_some x (hin i hi) (by omega)]
      exact ⟨_, rfl⟩)
  refine ⟨m + logf z, ?_⟩
  have h0 : denom[0]? = some d0 := by rw [hd]; simp
  simp only [logsumexp, h0, Option.bind_eq_bind, Option.some_bind] at hm hz ⊢
  rw [Tensor.get?_eq_some x hd0 (by omega)]
  simp only [Option.some_bind]
  rw [hm]
  simp only [Option.some_bind]
  rw [hz]
  rfl

/-- What `RestrictedLogSoftmax.forward` leaves outside the denominator list, and at the
only index of a one-element list. -/
theorem RestrictedLogSoftmax.restricted_forward_spec (expf logf : R → R) (inf : R)
    (junk : Nat → Nat → R) (x : Tensor R) (denom : List Nat)
    (hc : x.cols = 1) (hne : denom ≠ []) (hin : ∀ i ∈ denom, i < x.rows) :
    ∃ fx, RestrictedLogSoftmax.forward expf logf inf junk denom [x] = some fx ∧
      fx.rows = x.rows ∧ fx.cols = 1 ∧
      (∀ i, i < x.rows → i ∉ denom → fx.get i 0 = -inf) ∧
      (∀ k, denom = [k] → fx.get k 0 = 0) := by
  obtain ⟨logz, hlogz⟩ := logsumexp_isSome expf logf x denom hc hne hin
  obtain ⟨f1, hf1, a1, a2, a3⟩ := forLoop_inv
    (fun k (t : Tensor R) => t.rows = x.rows ∧ t.cols = 1 ∧
      ∀ i, i < k → t.get i 0 = -inf)
    (fun i (fx : Tensor R) => fx.set? i 0 (-inf)) x.rows 0 (Tensor.uninit x.rows 1 junk)
    ⟨rfl, rfl, fun i hi => absurd hi (Nat.not_lt_zero i)⟩
    (by
      intro k t _ hk ht
      obtain ⟨t1, t2, t3⟩ := ht
      beta_reduce
      rw [Tensor.set?_eq_some t _ (show k < t.rows by omega) (show 0 < t.cols by omega)]
      refine ⟨_, rfl, t1, t2, ?_⟩
      intro i hi
      rw [Tensor.get_ofFn _ (by omega) (by omega)]
      by_cases hik : i = k
      · rw [if_pos ⟨hik, rfl⟩]
      · rw [if_neg (fun h => hik h.1)]
        exact t3 i (by omega))
  simp only [Nat.zero_add] at a3
  obtain ⟨f2, hf2, b1, b2, b3⟩ := forEach_inv
    (fun _ (t : Tensor R) => t.rows = x.rows ∧ t.cols = 1 ∧
      ∀ i, i < x.rows → i ∉ denom → t.get i 0 = -inf)
    (fun i (fx : Tensor R) => do
      let xi ← x.get? i 0
      fx.set? i 0 (xi - logz)) denom denom 0 f1 (by simp) (by intro k _; simp)
    ⟨a1, a2, fun i hi _ => a3 i hi⟩
    (by
      intro k j t hj ht
      obtain ⟨t1, t2, t3⟩ := ht
      have hjm : j ∈ denom := List.getElem?_mem hj
      beta_reduce
      rw [Tensor.get?_eq_some x (hin j hjm) (by omega)]
      simp only [Option.bind_eq_bind, Option.some_bind]
      rw [Tensor.set?_eq_some t _ (show j < t.rows by have := hin j hjm; omega)
        (show 0 < t.cols by omega)]
      refine ⟨_, rfl, t1, t2, ?_⟩
      intro i hi hnot
      rw [Tensor.get_ofFn _ (by omega) (by omega)]
      have hij : i ≠ j := fun h => hnot (h ▸ hjm)
      rw [if_neg (fun h => hij h.1)]
      exact t3 i hi hnot)
  have hlen : denom.length > 0 := List.length_pos.mpr hne
  have hstart : RestrictedLogSoftmax.forward expf logf inf junk denom [x] =
      if denom.length = 1 then (denom.head?).bind (fun d => f2.set? d 0 0) else some f2 := by
    simp only [RestrictedLogSoftmax.forward, List.length_singleton, check_eq_some,
      check_eq_some hlen, List.head?_cons, check_eq_some hc, hlogz, Option.bind_eq_bind,
      Option.some_bind, Option.pure_def] at hf1 hf2 ⊢
    rw [hf1]
    simp only [Option.some_bind]
    rw [hf2]
    simp only [Option.some_bind]
  by_cases h1 : denom.length = 1
  · obtain ⟨k, hk⟩ : ∃ k, denom = [k] := List.length_eq_one.mp h1
    have hkr : k < x.rows := hin k (by rw [hk]; exact List.mem_singleton_self k)
    rw [hstart, if_pos h1, hk]
    simp only [List.head?_cons, Option.some_bind]
    rw [Tensor.set?_eq_some f2 _ (show k < f2.rows by omega) (show 0 < f2.cols by omega)]
    refine ⟨_, rfl, b1, b2, ?_, ?_⟩
    · intro i hi hnot
      rw [Tensor.get_ofFn _ (by omega) (by omega)]
      have hik : i ≠ k := fun h => hnot (by rw [h]; exact List.mem_singleton_self k)
      rw [if_neg (fun h => hik h.1)]
      exact b3 i hi (by rw [hk]; exact hnot)
    · intro k' hk'
      have hkk : k' = k := by
        simp only [List.cons.injEq, and_true] at hk'
        exact hk'.symm
      subst hkk
      rw [Tensor.get_ofFn _ (by omega) (by omega), if_pos ⟨rfl, rfl⟩]
  · rw [hstart, if_neg h1]
    refine ⟨f2, rfl, b1, b2, b3, ?_⟩
    intro k hk
    rw [hk] at h1
    exact absurd rfl h1

end RestrictedLogSoftmax

/-- C13: for a column vector `x` and a non-empty denominator list of rows of `x`,
`RestrictedLogSoftmax.forward` returns a column vector with `rows(x)` rows in which
every row not in the list is minus infinity; when the list consists of exactly one
index `k`, the entry at `k` is exactly 0 (and every other entry minus infinity). -/
theorem RestrictedLogSoftmax.forward_degenerate {R : Type} [LinearOrderedCommRing R]
    (expf logf : R → R) (inf : R) (junk : Nat → Nat → R) (x : Tensor R) (denom : List Nat)
    (hc : x.cols = 1) (hne : denom ≠ []) (hin : ∀ i ∈ denom, i < x.rows) :
    ∃ fx, RestrictedLogSoftmax.forward expf logf inf junk denom [x] = some fx ∧
      fx.rows = x.rows ∧ fx.cols = 1 ∧
      (∀ i, i < x.rows → i ∉ denom → fx.get i 0 = -inf) ∧
      (∀ k, denom = [k] →
        fx.get k 0 = 0 ∧ ∀ i, i < x.rows → i ≠ k → fx.get i 0 = -inf) := by
  obtain ⟨fx, hf, f1, f2, f3, f4⟩ :=
    RestrictedLogSoftmax.restricted_forward_spec expf logf inf junk x denom hc hne hin
  refine ⟨fx, hf, f1, f2, f3, ?_⟩
  intro k hk
  refine ⟨f4 k hk, ?_⟩
  intro i hi hik
  exact f3 i hi (by rw [hk]; simpa using hik)

/-- C13, on `x = [1, 2, 3]` with the denominator list `[1]` (and 1000 standing for
infinity): the output is `[-1000, 0, -1000]`. -/
theorem RestrictedLogSoftmax.forward_degenerate_witness :
    ∃ fx, RestrictedLogSoftmax.forward (fun _ => 1) (fun _ => 0) 1000 (fun _ _ => 7) [1]
        [Tensor.colVec [(1 : ℤ), 2, 3]] = some fx ∧
      fx.toRows = [[-1000], [0], [-1000]] ∧ fx.get 1 0 = 0 := by
  obtain ⟨fx, hf, _, _, _, h4⟩ :=
    RestrictedLogSoftmax.forward_degenerate (fun _ => 1) (fun _ => 0) (1000 : ℤ)
      (fun _ _ => 7) (Tensor.colVec [(1 : ℤ), 2, 3]) [1] rfl (by simp) (by decide)
  have e : (RestrictedLogSoftmax.forward (fun _ => 1) (fun _ => 0) 1000 (fun _ _ => 7) [1]
      [Tensor.colVec [(1 : ℤ), 2, 3]]).map Tensor.toRows
      = some [[-1000], [0], [-1000]] := by decide
  rw [hf] at e
  simp only [Option.map_some', Option.some.injEq] at e
  exact ⟨fx, hf, e, (h4 1 rfl).1⟩

/-! ## RestrictedLogSoftmax, backward pass -/

section RestrictedLogSoftmaxBackward

variable {R : Type} [LinearOrderedCommRing R]

/-- The first loop of `RestrictedLogSoftmax.backward` adds up `dEdf(i, 0)` once per
entry of the list `denom`. -/
theorem RestrictedLogSoftmax.denominator_sum (dEdf : Tensor R) (denom : List Nat)
    (hin : ∀ i ∈ denom, i < dEdf.rows) (hdc : 0 < dEdf.cols) :
    forEach (fun i (z : R) => do
        let g ← dEdf.get? i 0
        pure (z + g)) denom 0 = some (denom.map (fun j => dEdf.get j 0)).sum := by
  obtain ⟨z, hz, hP⟩ := forEach_inv
    (fun k (z : R) => z = ((denom.take k).map (fun j => dEdf.get j 0)).sum)
    (fun i (z : R) => do
      let g ← dEdf.get? i 0
      pure (z + g)) denom denom 0 0 (by simp) (by intro k _; simp) (by simp)
    (by
      intro k j t hj ht
      beta_reduce
      rw [Tensor.get?_eq_some dEdf (hin j (List.getElem?_mem hj)) hdc]
      refine ⟨_, rfl, ?_⟩
      show t + dEdf.get j 0 = _
      rw [ht]
      simp [List.take_succ, hj])
  rw [hz, hP, List.take_length]

/-- What `RestrictedLogSoftmax.backward` computes; the sum runs over the list `denom`,
entry by entry. -/
theorem RestrictedLogSoftmax.restricted_backward_spec (exp : R → R) (x fx dEdf : Tensor R)
    (denom : List Nat) (hin : ∀ i ∈ denom, i < x.rows)
    (hfr : fx.rows = x.rows) (hfc : fx.cols = 1)
    (hdr : dEdf.rows = x.rows) (hdc : dEdf.cols = 1) :
    ∃ g, RestrictedLogSoftmax.backward exp denom [x] fx dEdf 0 = some g ∧
      g.rows = x.rows ∧ g.cols = 1 ∧
      (∀ i, i ∈ denom → g.get i 0 = dEdf.get i 0 -
        exp (fx.get i 0) * (denom.map (fun j => dEdf.get j 0)).sum) ∧
      (∀ i, i < x.rows → i ∉ denom → g.get i 0 = 0) := by
  have hz := RestrictedLogSoftmax.denominator_sum dEdf denom
    (fun i hi => by have := hin i hi; omega) (by omega)
  obtain ⟨g, hg, g1, g2, g3⟩ := forEach_inv
    (fun k (t : Tensor R) => t.rows = x.rows ∧ t.cols = 1 ∧
      ∀ i, i < x.rows → t.get i 0 = if i ∈ denom.take k then
        dEdf.get i 0 - exp (fx.get i 0) * (denom.map (fun j => dEdf.get j 0)).sum else 0)
    (fun i (dEdx : Tensor R) => do
      let g ← dEdf.get? i 0
      let f ← fx.get? i 0
      dEdx.set? i 0 (g - exp f * (denom.map (fun j => dEdf.get j 0)).sum))
    denom denom 0 (Tensor.zero x.rows 1) (by simp) (by intro k _; simp)
    (by
      refine ⟨rfl, rfl, ?_⟩
      intro i hi
      rw [List.take_zero, if_neg (List.not_mem_nil i)]
      exact Tensor.get_ofFn _ hi (by omega))
    (by
      intro k j t hj ht
      obtain ⟨t1, t2, t3⟩ := ht
      have hjr : j < x.rows := hin j (List.getElem?_mem hj)
      beta_reduce
      rw [Tensor.get?_eq_some dEdf (show j < dEdf.rows by omega) (show 0 < dEdf.cols by omega),
        Tensor.get?_eq_some fx (show j < fx.rows by omega) (show 0 < fx.cols by omega)]
      simp only [Option.bind_eq_bind, Option.some_bind]
      rw [Tensor.set?_eq_some t _ (show j < t.rows by omega) (show 0 < t.cols by omega)]
      refine ⟨_, rfl, t1, t2, ?_⟩
      intro i hi
      rw [Tensor.get_ofFn _ (by omega) (by omega)]
      have hmem : i ∈ denom.take (k + 1) ↔ i ∈ denom.take k ∨ i = j := by
        simp [List.take_succ, hj]
      by_cases hij : i = j
      · rw [if_pos ⟨hij, rfl⟩, if_pos (hmem.mpr (Or.inr hij)), hij]
      · rw [if_neg (fun h => hij h.1), t3 i hi]
        by_cases hin' : i ∈ denom.take k
        · rw [if_pos hin', if_pos (hmem.mpr (Or.inl hin'))]
        · rw [if_neg hin', if_neg (fun h => (hmem.mp h).elim hin' hij)])
  rw [List.take_length] at g3
  refine ⟨g, ?_, g1, g2, ?_, ?_⟩
  · simp only [RestrictedLogSoftmax.backward, check_eq_some, List.head?_cons,
      Option.bind_eq_bind, Option.some_bind, Option.pure_def] at hz hg ⊢
    rw [hz]
    simp only [Option.some_bind]
    exact hg
  · intro i hi
    rw [g3 i (hin i hi), if_pos hi]
  · intro i hi hnot
    rw [g3 i hi, if_neg hnot]

end RestrictedLogSoftmaxBackward

/-- C14, counterexample: with the configured list `denom = [0, 0]`, `dEdf = [1]`,
`fx = [0]` and `exp` answering 1, `RestrictedLogSoftmax.backward` returns `[-1]`: the
sum is 2 (index 0 is added twice), while the sum taken once per member of the set
`{0}` is 1 and gives `1 - 1 * 1 = 0`. -/
theorem RestrictedLogSoftmax.backward_counts_repeats :
    (RestrictedLogSoftmax.backward (fun _ => (1 : ℤ)) [0, 0] [Tensor.colVec [0]]
        (Tensor.colVec [0]) (Tensor.colVec [1]) 0).map Tensor.toRows = some [[-1]] ∧
    (Tensor.colVec [(1 : ℤ)]).get 0 0 - 1 * Finset.sum ([0, 0] : List Nat).toFinset
        (fun j => (Tensor.colVec [(1 : ℤ)]).get j 0) = 0 := by
  decide

/-- C14, amended: for a column vector `x`, a configured index list `denom` (all indices
`< rows(x)`), a forward output `fx` and a downstream gradient `dEdf`,
`RestrictedLogSoftmax.backward` returns a vector with `rows(x)` rows whose entry at
each `i` in `denom` is `dEdf[i] - exp(fx[i]) * (sum of dEdf[j] over the entries j of
the list denom)`, the sum taken once per entry of the list, and whose entry at every
row outside `denom` is 0; when no index is repeated in `denom`, that sum is the sum
taken once per member of the set. -/
theorem RestrictedLogSoftmax.backward_list_sum {R : Type} [LinearOrderedCommRing R]
    (exp : R → R) (x fx dEdf : Tensor R) (denom : List Nat)
    (hin : ∀ i ∈ denom, i < x.rows)
    (hfr : fx.rows = x.rows) (hfc : fx.cols = 1)
    (hdr : dEdf.rows = x.rows) (hdc : dEdf.cols = 1) :
    ∃ g, RestrictedLogSoftmax.backward exp denom [x] fx dEdf 0 = some g ∧
      g.rows = x.rows ∧ g.cols = 1 ∧
      (∀ i, i ∈ denom → g.get i 0 = dEdf.get i 0 -
        exp (fx.get i 0) * (denom.map (fun j => dEdf.get j 0)).sum) ∧
      (∀ i, i < x.rows → i ∉ denom → g.get i 0 = 0) ∧
      (denom.Nodup → (denom.map (fun j => dEdf.get j 0)).sum
        = Finset.sum denom.toFinset (fun j => dEdf.get j 0)) := by
  obtain ⟨g, hg, g1, g2, g3, g4⟩ :=
    RestrictedLogSoftmax.restricted_backward_spec exp x fx dEdf denom hin hfr hfc hdr hdc
  exact ⟨g, hg, g1, g2, g3, g4, fun hnd => (List.sum_toFinset _ hnd).symm⟩

/-- C14, on `x` with 3 rows, `denom = [0, 2]`, `fx = [0, 0, 0]`, `dEdf = [1, 10, 100]`
and `exp` answering 1: the sum is 101 and the gradient is `[-100, 0, -1]`. -/
theorem RestrictedLogSoftmax.backward_list_sum_witness :
    ∃ g, RestrictedLogSoftmax.backward (fun _ => (1 : ℤ)) [0, 2]
        [Tensor.colVec [5, 6, 7]] (Tensor.colVec [0, 0, 0]) (Tensor.colVec [1, 10, 100]) 0
        = some g ∧
      g.toRows = [[-100], [0], [-1]] ∧ g.get 1 0 = 0 := by
  obtain ⟨g, hg, _, _, _, g4, _⟩ :=
    RestrictedLogSoftmax.backward_list_sum (fun _ => (1 : ℤ)) (Tensor.colVec [5, 6, 7])
      (Tensor.colVec [0, 0, 0]) (Tensor.colVec [1, 10, 100]) [0, 2] (by decide) rfl rfl
      rfl rfl
  have e : (RestrictedLogSoftmax.backward (fun _ => (1 : ℤ)) [0, 2]
      [Tensor.colVec [5, 6, 7]] (Tensor.colVec [0, 0, 0]) (Tensor.colVec [1, 10, 100]) 0).map
      Tensor.toRows = some [[-100], [0], [-1]] := by decide
  rw [hg] at e
  simp only [Option.map_some', Option.some.injEq] at e
  exact ⟨g, hg, e, g4 1 (by decide) (by decide)⟩

/-! ## SquaredEuclideanDistance -/

section SquaredEuclideanDistance

variable {R : Type} [LinearOrderedCommRing R]

theorem Tensor.sub?_eq_some (a b : Tensor R) (hr : a.rows = b.rows) (hc : a.cols = b.cols) :
    a.sub? b = some (Tensor.ofFn a.rows a.cols (fun i j => a.get i j - b.get i j)) := by
  simp [Tensor.sub?, hr, hc]

/-- What `SquaredEuclideanDistance.forward` computes on two tensors of one shape. -/
theorem SquaredEuclideanDistance.distance_forward_spec (junk : Nat → Nat → R)
    (a b : Tensor R) (hr : a.rows = b.rows) (hc : a.cols = b.cols) :
    ∃ f, SquaredEuclideanDistance.forward junk [a, b] = some f ∧
      f.rows = 1 ∧ f.cols = 1 ∧
      f.get 0 0 = Finset.sum (Finset.range a.rows) (fun i =>
        Finset.sum (Finset.range a.cols) (fun j =>
          (a.get i j - b.get i j) * (a.get i j - b.get i j))) := by
  have hset := Tensor.set?_eq_some (Tensor.uninit 1 1 junk)
    (Tensor.ofFn a.rows a.cols (fun i j => a.get i j - b.get i j)).squaredNorm
    (show 0 < (Tensor.uninit 1 1 junk).rows by simp [Tensor.uninit])
    (show 0 < (Tensor.uninit 1 1 junk).cols by simp [Tensor.uninit])
  have hfw : SquaredEuclideanDistance.forward junk [a, b] = some
      (Tensor.ofFn (Tensor.uninit 1 1 junk).rows (Tensor.uninit 1 1 junk).cols
        (fun i j => if i = 0 ∧ j = 0 then
          (Tensor.ofFn a.rows a.cols (fun i j => a.get i j - b.get i j)).squaredNorm
          else (Tensor.uninit 1 1 junk).get i j)) := by
    simp only [SquaredEuclideanDistance.forward, List.length_cons, List.length_nil,
      check_eq_some, List.getElem?_cons_zero, List.getElem?_cons_succ,
      Tensor.sub?_eq_some a b hr hc, hset, Option.bind_eq_bind, Option.some_bind]
  refine ⟨_, hfw, rfl, rfl, ?_⟩
  · rw [Tensor.get_ofFn _ (by simp [Tensor.uninit]) (by simp [Tensor.uninit]),
      if_pos ⟨rfl, rfl⟩]
    unfold Tensor.squaredNorm
    simp only [Tensor.ofFn_rows, Tensor.ofFn_cols]
    refine Finset.sum_congr rfl (fun i hi => Finset.sum_congr rfl (fun j hj => ?_))
    rw [Tensor.get_ofFn _ (Finset.mem_range.mp hi) (Finset.mem_range.mp hj)]

/-- What `SquaredEuclideanDistance.backward` computes for an input index `i < 2`. -/
theorem SquaredEuclideanDistance.distance_backward_spec (a b fx dEdf : Tensor R) (i : Nat)
    (hi : i < 2) (hr : a.rows = b.rows) (hc : a.cols = b.cols)
    (hdr : 0 < dEdf.rows) (hdc : 0 < dEdf.cols) :
    SquaredEuclideanDistance.backward [a, b] fx dEdf i =
      some ((Tensor.ofFn a.rows a.cols (fun i j => a.get i j - b.get i j)).smul
        (if i = 1 then -(dEdf.get 0 0 * 2) else dEdf.get 0 0 * 2)) := by
  simp only [SquaredEuclideanDistance.backward, check_eq_some hi,
    Tensor.get?_eq_some dEdf hdr hdc, List.getElem?_cons_zero, List.getElem?_cons_succ,
    Tensor.sub?_eq_some a b hr hc, Option.bind_eq_bind, Option.some_bind, Option.pure_def]

end SquaredEuclideanDistance

/-- C15: for two tensors `x0`, `x1` of one shape and a downstream scalar `d = dEdf(0,0)`,
`SquaredEuclideanDistance.backward` returns `2 * d * (x0 - x1)` for input 0 and exactly
its negation for input 1, both of the inputs' shape; and `2 * (x0 - x1)` is the exact
gradient of `forward`: for every `h` of the same shape,
`forward(x0 + h, x1) - forward(x0, x1) = ⟨2 * (x0 - x1), h⟩ + ⟨h, h⟩`. -/
theorem SquaredEuclideanDistance.backward_is_gradient {R : Type} [LinearOrderedCommRing R]
    (x0 x1 fx dEdf : Tensor R) (junk : Nat → Nat → R)
    (hr : x0.rows = x1.rows) (hc : x0.cols = x1.cols)
    (hdr : dEdf.rows = 1) (hdc : dEdf.cols = 1) :
    ∃ g0 g1, SquaredEuclideanDistance.backward [x0, x1] fx dEdf 0 = some g0 ∧
      SquaredEuclideanDistance.backward [x0, x1] fx dEdf 1 = some g1 ∧
      g0.rows = x0.rows ∧ g0.cols = x0.cols ∧ g1.rows = x1.rows ∧ g1.cols = x1.cols ∧
      (∀ i j, i < x0.rows → j < x0.cols →
        g0.get i j = 2 * dEdf.get 0 0 * (x0.get i j - x1.get i j) ∧
        g1.get i j = -g0.get i j) ∧
      ∀ h : Tensor R, h.rows = x0.rows → h.cols = x0.cols →
        ∃ f0 f1, SquaredEuclideanDistance.forward junk [x0, x1] = some f0 ∧
          SquaredEuclideanDistance.forward junk [x0.add h, x1] = some f1 ∧
          f1.get 0 0 - f0.get 0 0 =
            Finset.sum (Finset.range x0.rows) (fun i =>
              Finset.sum (Finset.range x0.cols) (fun j =>
                2 * (x0.get i j - x1.get i j) * h.get i j))
            + Tensor.inner h h := by
  refine ⟨_, _,
    SquaredEuclideanDistance.distance_backward_spec x0 x1 fx dEdf 0 (by omega) hr hc
      (by omega) (by omega),
    SquaredEuclideanDistance.distance_backward_spec x0 x1 fx dEdf 1 (by omega) hr hc
      (by omega) (by omega), rfl, rfl, hr, hc, ?_, ?_⟩
  · intro i j hi hj
    have e : ∀ f : Nat → Nat → R, (Tensor.ofFn x0.rows x0.cols f).get i j = f i j :=
      fun f => Tensor.get_ofFn f hi hj
    simp only [Tensor.smul, Tensor.ofFn_rows, Tensor.ofFn_cols, e, if_true,
      if_neg (show ¬ (0 = 1) by omega)]
    constructor <;> ring
  · intro h hhr hhc
    obtain ⟨f0, hf0, _, _, e0⟩ :=
      SquaredEuclideanDistance.distance_forward_spec junk x0 x1 hr hc
    obtain ⟨f1, hf1, _, _, e1⟩ :=
      SquaredEuclideanDistance.distance_forward_spec junk (x0.add h) x1 hr hc
    refine ⟨f0, f1, hf0, hf1, ?_⟩
    rw [e0, e1]
    unfold Tensor.inner
    simp only [Tensor.add, Tensor.ofFn_rows, Tensor.ofFn_cols, hhr, hhc]
    rw [← Finset.sum_sub_distrib, ← Finset.sum_add_distrib]
    refine Finset.sum_congr rfl (fun i hi => ?_)
    rw [← Finset.sum_sub_distrib, ← Finset.sum_add_distrib]
    refine Finset.sum_congr rfl (fun j hj => ?_)
    rw [Tensor.get_ofFn _ (Finset.mem_range.mp hi) (Finset.mem_range.mp hj)]
    ring

/-- C15, on `x0 = [1, 2, 3]`, `x1 = [0, 0, 1]` and the downstream scalar 10: the
gradients are `[20, 40, 40]` and `[-20, -40, -40]`. -/
theorem SquaredEuclideanDistance.backward_is_gradient_witness :
    ∃ g0 g1 : Tensor ℤ,
      SquaredEuclideanDistance.backward [Tensor.colVec [1, 2, 3], Tensor.colVec [0, 0, 1]]
        (Tensor.colVec [9]) (Tensor.colVec [10]) 0 = some g0 ∧
      SquaredEuclideanDistance.backward [Tensor.colVec [1, 2, 3], Tensor.colVec [0, 0, 1]]
        (Tensor.colVec [9]) (Tensor.colVec [10]) 1 = some g1 ∧
      g0.toRows = [[20], [40], [40]] ∧ g1.toRows = [[-20], [-40], [-40]] := by
  obtain ⟨g0, g1, h0, h1, _⟩ :=
    SquaredEuclideanDistance.backward_is_gradient (Tensor.colVec [(1 : ℤ), 2, 3])
      (Tensor.colVec [0, 0, 1]) (Tensor.colVec [9]) (Tensor.colVec [10]) (fun _ _ => 7)
      rfl rfl rfl rfl
  have e0 : (SquaredEuclideanDistance.backward
      [Tensor.colVec [(1 : ℤ), 2, 3], Tensor.colVec [0, 0, 1]]
      (Tensor.colVec [9]) (Tensor.colVec [10]) 0).map Tensor.toRows
      = some [[20], [40], [40]] := by decide
  have e1 : (SquaredEuclideanDistance.backward
      [Tensor.colVec [(1 : ℤ), 2, 3], Tensor.colVec [0, 0, 1]]
      (Tensor.colVec [9]) (Tensor.colVec [10]) 1).map Tensor.toRows
      = some [[-20], [-40], [-40]] := by decide
  rw [h0] at e0
  rw [h1] at e1
  simp only [Option.map_some', Option.some.injEq] at e0 e1
  exact ⟨g0, g1, h0, h1, e0, e1⟩

/-! ## BinaryLogLoss -/

/-- C16: at the target `t = 1` and the prediction `p = 1`, `BinaryLogLoss.forward`
skips the term with the zero coefficient `1 - t` (its result `0 - 1 * log 1` does not
involve `log1p`), whereas `BinaryLogLoss.backward` does not skip it: it evaluates
`(1 - t) / (1 - p) = 0 / 0`, a division by a zero probability. -/
theorem BinaryLogLoss.backward_divides_at_target_one {R : Type} [LinearOrderedField R]
    (log log1p : R → R) (fx dEdf : Tensor R) (i : Nat) :
    (∃ f, BinaryLogLoss.forward log log1p 1 [Tensor.ofFn 1 1 (fun _ _ => (1 : R))] = some f ∧
      f.get 0 0 = 0 - 1 * log 1) ∧
    BinaryLogLoss.backward 1 [Tensor.ofFn 1 1 (fun _ _ => (1 : R))] fx dEdf i = none := by
  have hget : (Tensor.ofFn 1 1 (fun _ _ => (1 : R))).get? 0 0 = some 1 := by
    rw [Tensor.get?_eq_some _ (by simp) (by simp), Tensor.get_ofFn _ (by omega) (by omega)]
  constructor
  · refine ⟨Tensor.ofFn 1 1 (fun a b => if a = 0 ∧ b = 0 then 0 - 1 * log 1 else
      (Tensor.ofFn 1 1 (fun _ _ => (1 : R))).get a b), ?_, ?_⟩
    · simp only [BinaryLogLoss.forward, List.length_singleton, check_eq_some,
        List.head?_cons, Tensor.ofFn_rows, Tensor.ofFn_cols, hget, Option.bind_eq_bind,
        Option.some_bind]
      simp only [sub_self, lt_irrefl, if_false, gt_iff_lt, zero_lt_one, if_true]
      rw [check_eq_some (show (1 : R) ≥ 0 from zero_le_one),
        check_eq_some (show (1 : R) ≤ 1 from le_refl 1)]
      simp only [Option.some_bind]
      exact Tensor.set?_eq_some (Tensor.ofFn 1 1 (fun _ _ => (1 : R))) (0 - 1 * log 1)
        Nat.zero_lt_one Nat.zero_lt_one
    · rw [Tensor.get_ofFn _ (by omega) (by omega), if_pos ⟨rfl, rfl⟩]
  · simp only [BinaryLogLoss.backward, List.head?_cons, hget, Option.bind_eq_bind,
      Option.some_bind, gt_iff_lt, zero_lt_one, if_true, sub_self, ge_iff_le, le_refl,
      divide, one_ne_zero, if_false, Option.pure_def, Option.none_bind]

/-! ## Stateless elementwise edges -/

/-- C17: `OneMinusX.backward`, `Exp.backward`, `Log.backward` and `Rectify.backward`
called with the input index 1 return a gradient, whereas `Identity.backward`,
`Negate.backward` and `Square.backward` fail on the same call. -/
theorem OneMinusX.backward_accepts_other_index :
    (OneMinusX.backward [Tensor.colVec [(1 : ℤ)]] (Tensor.colVec [0]) (Tensor.colVec [5])
      1).map Tensor.toRows = some [[-5]] ∧
    (Exp.backward [Tensor.colVec [(1 : ℤ)]] (Tensor.colVec [3]) (Tensor.colVec [5])
      1).map Tensor.toRows = some [[15]] ∧
    (Rectify.backward (fun d _ _ => some d) [Tensor.colVec [(1 : ℤ)]] (Tensor.colVec [1])
      (Tensor.colVec [5]) 1).map Tensor.toRows = some [[5]] ∧
    (Log.backward [Tensor.colVec [(3 : ℚ)]] (Tensor.colVec [0]) (Tensor.colVec [6])
      1).isSome = true ∧
    Identity.backward [Tensor.colVec [(1 : ℤ)]] (Tensor.colVec [1]) (Tensor.colVec [5]) 1
      = none ∧
    Negate.backward [Tensor.colVec [(1 : ℤ)]] (Tensor.colVec [-1]) (Tensor.colVec [5]) 1
      = none ∧
    Square.backward [Tensor.colVec [(1 : ℤ)]] (Tensor.colVec [1]) (Tensor.colVec [5]) 1
      = none := by
  refine ⟨by decide, by decide, by decide, by decide, ?_, ?_, ?_⟩
  · simp [Identity.backward, check]
  · simp [Negate.backward, check]
  · simp [Square.backward, check]

/-! ## Unimplemented edges -/

/-- C19, counterexample: called with the input index 1, `PickNegLogSoftmax.backward`
ends in the failed assertion `i == 0`, and called with the index 0 and `*pval = 5` on a
one-row `dEdf` it ends in the index check of `dEdf(*pval, 0)`: neither call ends in the
'not implemented' failure. -/
theorem PickNegLogSoftmax.backward_fails_before_abort :
    PickNegLogSoftmax.backward 0 (Tensor.colVec [(1 : ℚ)]) [Tensor.colVec [1]]
        (Tensor.colVec [0]) (Tensor.colVec [1]) 1 = Except.error Failure.assertion ∧
    PickNegLogSoftmax.backward 5 (Tensor.colVec [(1 : ℚ)]) [Tensor.colVec [1]]
        (Tensor.colVec [0]) (Tensor.colVec [1]) 0 = Except.error Failure.indexCheck ∧
    Failure.assertion ≠ Failure.notImplemented ∧
    Failure.indexCheck ≠ Failure.notImplemented := by
  refine ⟨?_, ?_, by decide, by decide⟩
  · simp only [PickNegLogSoftmax.backward, checkE]
    rfl
  · simp only [PickNegLogSoftmax.backward, checkE, Tensor.getE]
    rfl

/-- C19, amended: `PickNegLogSoftmax.backward` never returns a gradient value; every
call ends in a fatal failure, which is the failed assertion `i == 0` when the input
index is not 0, the index check of a coefficient read when the index is 0 and `*pval`
is not a position of `dEdf` or of the cached `v`, and the 'not implemented' failure in
every other case; `InnerProduct3D_1D.forward` and `InnerProduct3D_1D.backward` end in
their 'not implemented' failure on every input and never return a tensor. -/
theorem PickNegLogSoftmax.backward_failure_kinds {R : Type} [LinearOrderedField R]
    (pval : Nat) (v : Tensor R) (xs : List (Tensor R)) (fx dEdf : Tensor R) (i : Nat) :
    (∀ t, PickNegLogSoftmax.backward pval v xs fx dEdf i ≠ Except.ok t) ∧
    (i ≠ 0 → PickNegLogSoftmax.backward pval v xs fx dEdf i
      = Except.error Failure.assertion) ∧
    (i = 0 → ¬ (pval < dEdf.rows ∧ 0 < dEdf.cols) →
      PickNegLogSoftmax.backward pval v xs fx dEdf i = Except.error Failure.indexCheck) ∧
    (i = 0 → ¬ (pval < v.rows ∧ 0 < v.cols) →
      PickNegLogSoftmax.backward pval v xs fx dEdf i = Except.error Failure.indexCheck) ∧
    (i = 0 → pval < dEdf.rows ∧ 0 < dEdf.cols → pval < v.rows ∧ 0 < v.cols →
      PickNegLogSoftmax.backward pval v xs fx dEdf i
        = Except.error Failure.notImplemented) ∧
    InnerProduct3D_1D.forward xs = Except.error Failure.notImplemented ∧
    InnerProduct3D_1D.backward xs fx dEdf i = Except.error Failure.notImplemented := by
  have hstep : i = 0 → PickNegLogSoftmax.backward pval v xs fx dEdf i =
      (match dEdf.get? pval 0 with
        | some _ =>
          (match v.get? pval 0 with
            | some _ => Except.error Failure.notImplemented
            | none => Except.error Failure.indexCheck)
        | none => Except.error Failure.indexCheck) := by
    intro hi
    simp only [PickNegLogSoftmax.backward, checkE, if_pos hi, Tensor.getE]
    cases dEdf.get? pval 0 with
    | none => rfl
    | some a =>
      cases v.get? pval 0 with
      | none => rfl
      | some b => rfl
  have hassert : i ≠ 0 → PickNegLogSoftmax.backward pval v xs fx dEdf i
      = Except.error Failure.assertion := by
    intro hi
    simp only [PickNegLogSoftmax.backward, checkE, if_neg hi]
    rfl
  have hnone : ∀ (t : Tensor R) (a b : Nat), ¬ (a < t.rows ∧ b < t.cols) →
      t.get? a b = none := by
    intro t a b h
    by_cases ha : a < t.rows
    · exact Tensor.get?_eq_none_of_col t a (Nat.le_of_not_lt (fun hb => h ⟨ha, hb⟩))
    · exact Tensor.get?_eq_none_of_row t b (Nat.le_of_not_lt ha)
  refine ⟨?_, hassert, ?_, ?_, ?_, rfl, rfl⟩
  · intro t h
    by_cases hi : i = 0
    · rw [hstep hi] at h
      cases hd : dEdf.get? pval 0 with
      | none => rw [hd] at h; cases h
      | some a =>
        rw [hd] at h
        cases hv : v.get? pval 0 with
        | none => rw [hv] at h; cases h
        | some b => rw [hv] at h; cases h
    · rw [hassert hi] at h
      cases h
  · intro hi hd
    rw [hstep hi, hnone dEdf pval 0 hd]
  · intro hi hv
    rw [hstep hi, hnone v pval 0 hv]
    cases dEdf.get? pval 0 with
    | none => rfl
    | some a => rfl
  · intro hi hd hv
    rw [hstep hi, Tensor.get?_eq_some dEdf hd.1 hd.2, Tensor.get?_eq_some v hv.1 hv.2]

/-- C19, on `*pval = 0`, `v = [1]`, `dEdf = [1]` and the input index 0: the call ends
in the 'not implemented' failure. -/
theorem PickNegLogSoftmax.backward_failure_kinds_witness :
    PickNegLogSoftmax.backward 0 (Tensor.colVec [(1 : ℚ)]) [Tensor.colVec [1]]
        (Tensor.colVec [0]) (Tensor.colVec [1]) 0 = Except.error Failure.notImplemented :=
  (PickNegLogSoftmax.backward_failure_kinds 0 (Tensor.colVec [(1 : ℚ)])
    [Tensor.colVec [1]] (Tensor.colVec [0]) (Tensor.colVec [1]) 0).2.2.2.2.1 rfl
    ⟨by decide, by decide⟩ ⟨by decide, by decide⟩

/-! ## Multilinear -/

/-- C20: on the inputs `b = [[0, 0]]`, `A = [[2]]` (one column), `x = [[3, 4]]` (two
columns), `Multilinear.forward` succeeds through the matrix product `A * x` and returns
`[[6, 8]]`, but `Multilinear.backward` takes the elementwise-product branch for both
operands: for `A` it returns the 1 × 2 tensor `[[3, 4]]` (not of the shape of `A`, and
not `dEdf * xᵀ = [[7]]`), for `x` it fails. -/
theorem Multilinear.backward_branch_mismatch :
    (Multilinear.forward [Tensor.ofRows [[(0 : ℤ), 0]], Tensor.ofRows [[2]],
      Tensor.ofRows [[3, 4]]]).map Tensor.toRows = some [[6, 8]] ∧
    (Multilinear.backward [Tensor.ofRows [[(0 : ℤ), 0]], Tensor.ofRows [[2]],
      Tensor.ofRows [[3, 4]]] (Tensor.ofRows [[6, 8]]) (Tensor.ofRows [[1, 1]]) 1).map
      Tensor.toRows = some [[3, 4]] ∧
    Multilinear.backward [Tensor.ofRows [[(0 : ℤ), 0]], Tensor.ofRows [[2]],
      Tensor.ofRows [[3, 4]]] (Tensor.ofRows [[6, 8]]) (Tensor.ofRows [[1, 1]]) 2 = none ∧
    ((Tensor.ofRows [[(1 : ℤ), 1]]).mul? (Tensor.ofRows [[3, 4]]).transpose).map
      Tensor.toRows = some [[7]] := by
  refine ⟨by decide, by decide, ?_, by decide⟩
  simp [Multilinear.backward, check, Tensor.cwiseProduct?, Tensor.ofRows]

/-! ## PickRange -/

section PickRange

variable {R : Type} [LinearOrderedCommRing R]

/-- What `PickRange.forward` computes for bounds `start < stop ≤ rows(x)`. -/
theorem PickRange.range_forward_spec (x : Tensor R) (start stop : Nat) (hc : x.cols = 1)
    (h1 : start < stop) (h2 : stop ≤ x.rows) :
    PickRange.forward start stop [x] =
      some (Tensor.ofFn (stop - start) 1 (fun a b => x.get (start + a) (0 + b))) := by
  have hblock : x.block? start 0 (stop - start) 1 =
      some (Tensor.ofFn (stop - start) 1 (fun a b => x.get (start + a) (0 + b))) := by
    simp only [Tensor.block?]
    rw [if_pos ⟨by omega, by omega⟩]
  simp only [PickRange.forward, List.length_singleton, check_eq_some, List.head?_cons,
    check_eq_some hc, check_eq_some (Nat.zero_le start), check_eq_some h2, check_eq_some h1,
    hblock, Tensor.ofFn_rows, Option.bind_eq_bind, Option.some_bind, Option.pure_def]

/-- An assertion of `PickRange.forward` fails when `stop > rows(x)` or `start ≥ stop`. -/
theorem PickRange.range_forward_fail (x : Tensor R) (start stop : Nat)
    (h : x.rows < stop ∨ stop ≤ start) : PickRange.forward start stop [x] = none := by
  simp only [PickRange.forward, List.length_singleton, check_eq_some, List.head?_cons,
    check_eq_some (Nat.zero_le start), Option.bind_eq_bind, Option.some_bind]
  cases check (x.cols = 1) with
  | none => rfl
  | some _ =>
    simp only [Option.some_bind]
    rcases h with h | h
    · rw [check_eq_none (show ¬ stop ≤ x.rows by omega)]
      rfl
    · cases check (stop ≤ x.rows) with
      | none => rfl
      | some _ =>
        rw [check_eq_none (show ¬ start < stop by omega)]
        rfl

/-- What `PickRange.backward` computes for a downstream gradient with `stop - start`
rows. -/
theorem PickRange.range_backward_spec (x fx g : Tensor R) (start stop : Nat)
    (h2 : stop ≤ x.rows) (h1 : start < stop) (hgr : g.rows = stop - start)
    (hgc : g.cols = 1) :
    PickRange.backward start stop [x] fx g 0 =
      some (Tensor.ofFn x.rows 1 (fun a b =>
        if start ≤ a ∧ a < start + (stop - start) ∧ 0 ≤ b ∧ b < 0 + 1 then
          g.get (a - start) (b - 0) else (Tensor.zero x.rows 1 : Tensor R).get a b)) := by
  have hgi : (g.rows : Int) = (stop : Int) - (start : Int) := by omega
  simp only [PickRange.backward, check_eq_some, check_eq_some hgi, check_eq_some hgc,
    List.head?_cons, Option.bind_eq_bind, Option.some_bind, Tensor.setBlock?]
  rw [if_pos ⟨by simp [Tensor.zero]; omega, by simp [Tensor.zero], hgr, hgc⟩]
  rfl

end PickRange

/-- C18: for a column vector `x` with `r` rows and configured bounds `start`, `stop`
(the source's `start` and `end`): (a) if `start < stop ≤ r`, `PickRange.forward` returns
the `stop - start` rows `x[start .. stop - 1]`, and for every downstream gradient `g`
with `stop - start` rows `PickRange.backward` returns a vector with `r` rows that equals
`g` on the rows `[start, stop)` and is 0 on every other row, so that `forward` applied
to it returns `g`; (b) `forward` fails when `stop > r` or `start ≥ stop`. -/
theorem PickRange.forward_backward_slice {R : Type} [LinearOrderedCommRing R]
    (x : Tensor R) (start stop : Nat) (hc : x.cols = 1) :
    (start < stop → stop ≤ x.rows →
      ∃ fx, PickRange.forward start stop [x] = some fx ∧
        fx.rows = stop - start ∧ fx.cols = 1 ∧
        (∀ a, a < stop - start → fx.get a 0 = x.get (start + a) 0) ∧
        ∀ g fx0 : Tensor R, g.rows = stop - start → g.cols = 1 →
          ∃ d, PickRange.backward start stop [x] fx0 g 0 = some d ∧
            d.rows = x.rows ∧ d.cols = 1 ∧
            (∀ a, start ≤ a → a < stop → d.get a 0 = g.get (a - start) 0) ∧
            (∀ a, a < x.rows → ¬ (start ≤ a ∧ a < stop) → d.get a 0 = 0) ∧
            PickRange.forward start stop [d] = some g) ∧
    (x.rows < stop ∨ stop ≤ start → PickRange.forward start stop [x] = none) := by
  refine ⟨?_, PickRange.range_forward_fail x start stop⟩
  intro h1 h2
  refine ⟨_, PickRange.range_forward_spec x start stop hc h1 h2, rfl, rfl, ?_, ?_⟩
  · intro a ha
    rw [Tensor.get_ofFn _ ha (by omega)]
  · intro g fx0 hgr hgc
    have hin : ∀ a, start ≤ a → a < stop →
        (Tensor.ofFn x.rows 1 (fun a b =>
          if start ≤ a ∧ a < start + (stop - start) ∧ 0 ≤ b ∧ b < 0 + 1 then
            g.get (a - start) (b - 0) else (Tensor.zero x.rows 1 : Tensor R).get a b)).get a 0
        = g.get (a - start) 0 := by
      intro a ha1 ha2
      rw [Tensor.get_ofFn _ (by omega) (by omega), if_pos ⟨ha1, by omega, by omega, by omega⟩]
    refine ⟨_, PickRange.range_backward_spec x fx0 g start stop h2 h1 hgr hgc, rfl, rfl,
      hin, ?_, ?_⟩
    · intro a ha hnot
      rw [Tensor.get_ofFn _ ha (by omega), if_neg (fun h => hnot ⟨h.1, by omega⟩)]
      exact Tensor.get_ofFn _ ha (by omega)
    · rw [PickRange.range_forward_spec _ start stop rfl h1 (by simpa using h2)]
      congr 1
      apply Tensor.eq_of_get (by simp [hgr]) (by simp [hgc])
      intro a b ha hb
      simp only [Tensor.ofFn_rows, Tensor.ofFn_cols] at ha hb
      have hb0 : b = 0 := by omega
      subst hb0
      rw [Tensor.get_ofFn _ ha (by omega)]
      have := hin (start + a) (by omega) (by omega)
      rw [Nat.add_sub_cancel_left] at this
      exact this

/-- C18, on `x = [1, 2, 3, 4]` with the bounds 1 and 3: forward returns `[2, 3]`,
backward on `g = [10, 20]` returns `[0, 10, 20, 0]`; with the bounds 1 and 5 forward
fails. -/
theorem PickRange.forward_backward_slice_witness :
    (∃ fx d, PickRange.forward 1 3 [Tensor.colVec [(1 : ℤ), 2, 3, 4]] = some fx ∧
      fx.toRows = [[2], [3]] ∧
      PickRange.backward 1 3 [Tensor.colVec [(1 : ℤ), 2, 3, 4]] fx (Tensor.colVec [10, 20]) 0
        = some d ∧
      d.toRows = [[0], [10], [20], [0]] ∧
      PickRange.forward 1 3 [d] = some (Tensor.colVec [10, 20])) ∧
    PickRange.forward 1 5 [Tensor.colVec [(1 : ℤ), 2, 3, 4]] = none := by
  constructor
  · obtain ⟨fx, hf, _, _, _, hb⟩ :=
      (PickRange.forward_backward_slice (Tensor.colVec [(1 : ℤ), 2, 3, 4]) 1 3 rfl).1
        (by decide) (by decide)
    obtain ⟨d, hd, _, _, _, _, hfd⟩ := hb (Tensor.colVec [10, 20]) fx rfl rfl
    have e : (PickRange.forward 1 3 [Tensor.colVec [(1 : ℤ), 2, 3, 4]]).map Tensor.toRows
        = some [[2], [3]] := by decide
    rw [hf] at e
    simp only [Option.map_some', Option.some.injEq] at e
    have e2 : (PickRange.backward 1 3 [Tensor.colVec [(1 : ℤ), 2, 3, 4]] fx
        (Tensor.colVec [10, 20]) 0).map Tensor.toRows = some [[0], [10], [20], [0]] := by
      simp only [PickRange.backward]
      decide
    rw [hd] at e2
    simp only [Option.map_some', Option.some.injEq] at e2
    exact ⟨fx, d, hf, e, hd, e2, hfd⟩
  · exact (PickRange.forward_backward_slice (Tensor.colVec [(1 : ℤ), 2, 3, 4]) 1 5 rfl).2
      (Or.inl (by decide))

/-! ## Hinge, the early return -/

section HingeShortCircuit

variable {R : Type} [LinearOrderedCommRing R]

/-- Past its early return, `Hinge.backward` is the procedure without the early
return. -/
theorem Hinge.backward_eq_without_short_circuit (c : Nat) (u : Tensor R)
    (xs : List (Tensor R)) (fx fx2 dEdf : Tensor R) (i : Nat)
    (hfx : 0 < fx.rows ∧ 0 < fx.cols) (hfx0 : fx.get 0 0 ≠ 0) :
    Hinge.backward c u xs fx dEdf i = Hinge.backwardWithoutShortCircuit c u xs fx2 dEdf i := by
  simp only [Hinge.backward, Hinge.backwardWithoutShortCircuit,
    Tensor.get?_eq_some fx hfx.1 hfx.2, Option.bind_eq_bind, Option.some_bind, if_neg hfx0]

/-- The entries of a hinge gradient add up to zero: `d` at each of the `K` rows with
a positive term, `-d * K` at the row `c`, 0 elsewhere. -/
theorem Hinge.gradient_sum_zero (n c : Nat) (d : R) (p : Nat → Prop) [DecidablePred p]
    (g : Nat → R) (hc : c < n)
    (hpos : ∀ i, i < n → i ≠ c → p i → g i = d)
    (hneg : ∀ i, i < n → i ≠ c → ¬ p i → g i = 0)
    (hgc : g c = -d * (((Finset.range n).filter (fun i => i ≠ c ∧ p i)).card : R)) :
    Finset.sum (Finset.range n) g = 0 := by
  have hsplit : ∀ i ∈ Finset.range n,
      g i = (if i ≠ c ∧ p i then d else 0)
        + (if i = c then
            -d * (((Finset.range n).filter (fun i => i ≠ c ∧ p i)).card : R) else 0) := by
    intro i hi
    have hi' := Finset.mem_range.mp hi
    by_cases hic : i = c
    · rw [if_neg (fun h => h.1 hic), if_pos hic, zero_add, hic]
      exact hgc
    · rw [if_neg hic, add_zero]
      by_cases hp : p i
      · rw [if_pos ⟨hic, hp⟩]
        exact hpos i hi' hic hp
      · rw [if_neg (fun h => hp h.2)]
        exact hneg i hi' hic hp
  rw [Finset.sum_congr rfl hsplit, Finset.sum_add_distrib, ← Finset.sum_filter,
    Finset.sum_const, Finset.sum_ite_eq' (Finset.range n) c, if_pos (Finset.mem_range.mpr hc),
    nsmul_eq_mul]
  ring

end HingeShortCircuit

/-- C21: in exact arithmetic, for a score column vector `x`, a correct index `c` of `x`,
a margin `m` and a downstream scalar `dEdf`, `Hinge.backward` called with the output
and the cached terms of `Hinge.forward` on `x` returns the same vector as the same
procedure without the `fx == 0` short-circuit, and the entries of that vector add up
to 0. -/
theorem Hinge.short_circuit_redundant {R : Type} [LinearOrderedCommRing R]
    (x u dEdf : Tensor R) (c : Nat) (m : R) (junk : Nat → Nat → R)
    (hc : x.cols = 1) (hcr : c < x.rows) (hu : u.cols = 1 ∨ u.rows = 0)
    (hdr : dEdf.rows = 1) (hdc : dEdf.cols = 1) :
    ∃ fx u' g, Hinge.forward c m junk u [x] = some (fx, u') ∧
      Hinge.backward c u' [x] fx dEdf 0 = some g ∧
      Hinge.backwardWithoutShortCircuit c u' [x] fx dEdf 0 = some g ∧
      Finset.sum (Finset.range x.rows) (fun i => g.get i 0) = 0 := by
  obtain ⟨fx, u', hf, f1, f2, f3, f4, f5, f6⟩ := Hinge.hinge_forward_spec x u c m junk hc hcr hu
  have hone : (Tensor.ofFn 1 1 (fun _ _ => (1 : R))).get 0 0 ≠ 0 := by
    rw [Tensor.get_ofFn _ (by omega) (by omega)]
    exact one_ne_zero
  obtain ⟨g, hg, g1, g2, g3, g4, g5⟩ := Hinge.hinge_backward_loop_spec x u'
    (Tensor.ofFn 1 1 (fun _ _ => (1 : R))) dEdf c
    (fun i => max 0 (m - x.get c 0 + x.get i 0)) hcr f4 f5 f6
    ⟨Nat.zero_lt_one, Nat.zero_lt_one⟩ hone ⟨by omega, by omega⟩
  have hwithout : Hinge.backwardWithoutShortCircuit c u' [x] fx dEdf 0 = some g := by
    rw [← Hinge.backward_eq_without_short_circuit c u' [x]
      (Tensor.ofFn 1 1 (fun _ _ => (1 : R))) fx dEdf 0 ⟨Nat.zero_lt_one, Nat.zero_lt_one⟩ hone]
    exact hg
  have hsum : Finset.sum (Finset.range x.rows) (fun i => g.get i 0) = 0 :=
    Hinge.gradient_sum_zero x.rows c (dEdf.get 0 0)
      (fun i => 0 < max 0 (m - x.get c 0 + x.get i 0)) (fun i => g.get i 0) hcr g3 g4 g5
  refine ⟨fx, u', g, hf, ?_, hwithout, hsum⟩
  by_cases h0 : fx.get 0 0 = 0
  · rw [Hinge.backward_of_zero x u' fx dEdf c ⟨by omega, by omega⟩ h0]
    have hz := Hinge.terms_zero_of_sum_zero x.rows c (fun i => m - x.get c 0 + x.get i 0)
      (by rw [← f3]; exact h0)
    have hnp : ∀ i, i < x.rows → i ≠ c → ¬ 0 < max 0 (m - x.get c 0 + x.get i 0) := by
      intro i hi hic h
      rw [hz i hi hic] at h
      exact lt_irrefl _ h
    have hempty : (Finset.range x.rows).filter
        (fun i => i ≠ c ∧ 0 < max 0 (m - x.get c 0 + x.get i 0)) = ∅ := by
      apply Finset.filter_eq_empty_iff.mpr
      intro i hi h
      exact hnp i (Finset.mem_range.mp hi) h.1 h.2
    congr 1
    apply Tensor.eq_of_get (by simp [Tensor.zero, g1]) (by simp [Tensor.zero, g2])
    intro a b ha hb
    simp only [Tensor.zero, Tensor.ofFn_rows, Tensor.ofFn_cols] at ha hb
    have hb0 : b = 0 := by omega
    subst hb0
    rw [Tensor.zero, Tensor.get_ofFn _ ha (by omega)]
    by_cases hac : a = c
    · rw [hac, g5, hempty]
      simp
    · exact (g4 a ha hac (hnp a ha hac)).symm
  · rw [Hinge.backward_eq_without_short_circuit c u' [x] fx fx dEdf 0 ⟨by omega, by omega⟩ h0]
    exact hwithout

/-- C21, on the scores `[2, 1, 3]` with margin 1 and downstream scalar 10: with the
correct index 2 the forward total is 0 and both procedures return `[0, 0, 0]`; with the
correct index 0 the total is 2 and both return `[-10, 0, 10]`. -/
theorem Hinge.short_circuit_redundant_witness :
    (∃ fx u' g, Hinge.forward 2 (1 : ℤ) (fun _ _ => 7) (Tensor.zero 0 0)
        [Tensor.colVec [2, 1, 3]] = some (fx, u') ∧
      fx.toRows = [[0]] ∧
      Hinge.backward 2 u' [Tensor.colVec [2, 1, 3]] fx (Tensor.colVec [10]) 0 = some g ∧
      Hinge.backwardWithoutShortCircuit 2 u' [Tensor.colVec [2, 1, 3]] fx
        (Tensor.colVec [10]) 0 = some g ∧
      g.toRows = [[0], [0], [0]]) ∧
    (∃ fx u' g, Hinge.forward 0 (1 : ℤ) (fun _ _ => 7) (Tensor.zero 0 0)
        [Tensor.colVec [2, 1, 3]] = some (fx, u') ∧
      fx.toRows = [[2]] ∧
      Hinge.backward 0 u' [Tensor.colVec [2, 1, 3]] fx (Tensor.colVec [10]) 0 = some g ∧
      Hinge.backwardWithoutShortCircuit 0 u' [Tensor.colVec [2, 1, 3]] fx
        (Tensor.colVec [10]) 0 = some g ∧
      Finset.sum (Finset.range 3) (fun i => g.get i 0) = 0) := by
  constructor
  · obtain ⟨fx, u', g, hf, hb, hw, _⟩ :=
      Hinge.short_circuit_redundant (Tensor.colVec [(2 : ℤ), 1, 3]) (Tensor.zero 0 0)
        (Tensor.colVec [10]) 2 1 (fun _ _ => 7) rfl (by decide) (Or.inr rfl) rfl rfl
    have e : (Hinge.forward 2 (1 : ℤ) (fun _ _ => 7) (Tensor.zero 0 0)
        [Tensor.colVec [2, 1, 3]]).map (fun p => p.1.toRows) = some [[0]] := by decide
    rw [hf] at e
    simp only [Option.map_some', Option.some.injEq] at e
    have hfx : fx.get 0 0 = 0 := by
      have h1 : fx.toRows.length = 1 := by rw [e]; rfl
      have h2 : ∀ l ∈ fx.toRows, l.length = fx.cols := by
        intro l hl
        simp only [Tensor.toRows, List.mem_map, List.mem_range] at hl
        obtain ⟨i, _, rfl⟩ := hl
        simp
      have hr : fx.rows = 1 := by simpa [Tensor.toRows] using h1
      have hcl : fx.cols = 1 := by
        have := h2 [0] (by rw [e]; simp)
        simpa using this.symm
      have h3 : fx.toRows = [[fx.get 0 0]] := by
        simp [Tensor.toRows, hr, hcl, List.range_succ]
      rw [h3] at e
      simpa using e
    have hzero := Hinge.backward_of_zero (Tensor.colVec [(2 : ℤ), 1, 3]) u' fx
      (Tensor.colVec [10]) 2 (by
        constructor
        · by_contra h
          have : fx.rows = 0 := by omega
          have h1 : fx.toRows = [] := by simp [Tensor.toRows, this]
          rw [h1] at e
          cases e
        · by_contra h
          have hcz : fx.cols = 0 := by omega
          have h1 : ∀ l ∈ fx.toRows, l = [] := by
            intro l hl
            simp only [Tensor.toRows, List.mem_map, List.mem_range] at hl
            obtain ⟨i, _, rfl⟩ := hl
            simp [hcz]
          have := h1 [0] (by rw [e]; simp)
          cases this) hfx
    rw [hzero] at hb
    have hg : g = Tensor.zero 3 1 := (Option.some.inj hb).symm
    exact ⟨fx, u', g, hf, e, by rw [hzero, hg]; rfl, hw, by rw [hg]; decide⟩
  · obtain ⟨fx, u', g, hf, hb, hw, hs⟩ :=
      Hinge.short_circuit_redundant (Tensor.colVec [(2 : ℤ), 1, 3]) (Tensor.zero 0 0)
        (Tensor.colVec [10]) 0 1 (fun _ _ => 7) rfl (by decide) (Or.inr rfl) rfl rfl
    have e : (Hinge.forward 0 (1 : ℤ) (fun _ _ => 7) (Tensor.zero 0 0)
        [Tensor.colVec [2, 1, 3]]).map (fun p => p.1.toRows) = some [[2]] := by decide
    rw [hf] at e
    simp only [Option.map_some', Option.some.injEq] at e
    exact ⟨fx, u', g, hf, e, hb, hw, hs⟩

end cnn
